import Mathlib

/-!
Shallow embedding of `src/lgdo/lh5/iterator.py` (class `LH5Iterator`).

A dataset element is one (file, group) pair of the flattened outer-product
list; we identify it by a natural-number id carried in `elems`.  The external
file-reader collaborator (`LH5Store`, not under `src/`) is represented by the
narrow interface of spec section 6: `rc` is `row_count(group, file)` keyed by
element id, and `read_rows` below models `LH5Store.read`.  Machine integers
(numpy dtype "q", int64) are modelled as `Int` with the explicit sentinel
`QMAX = 2^63 - 1` (`np.iinfo("q").max`); all states considered stay far from
overflow, which the theorems make explicit through bounds hypotheses.

Instrumentation: the state carries `rowQueries` (log of `read_n_rows` calls,
one entry per call, holding the element id), `readCalls` (number of
`LH5Store.read` data reads) and `warnings` (number of `logging.warning`
calls), so that claims about laziness, absence of reads and warning emission
are statable.
-/

namespace LH5

/-- `np.iinfo("q").max`, that is `2 ^ 63 - 1`, the sentinel marking
unresolved cumulative entries. -/
def QMAX : Int := 9223372036854775807

/-- `np.searchsorted(a, v, side := left)` on a sorted array: the number of
elements strictly below `v`.  On the sorted arrays maintained by the iterator
this count coincides with the binary search the source performs. -/
def ssLeft (a : Array Int) (v : Int) : Nat :=
  a.toList.countP (fun x => decide (x < v))

/-- `np.searchsorted(a, v, side := right)` on a sorted array: the number of
elements at most `v`. -/
def ssRight (a : Array Int) (v : Int) : Nat :=
  a.toList.countP (fun x => decide (x ≤ v))

/-- A buffered row, identified by (dataset element id, local physical row). -/
abbrev Row := Nat × Int

/-- State of one `LH5Iterator` (friend links live in `FIt` below).

`elems` is the flattened file/group list (element ids); slicing it is how the
partitioner restricts a worker to a shard.  `file_map` and `entry_map` are the
cumulative physical-row and cumulative logical-entry arrays with sentinel
`QMAX`.  `local_entry_list`/`global_entry_list` mirror the selection state.
`buf_cols` records the column provenance of the buffer (grown by
`Table.join`); `lh5_buffer` holds the rows themselves. -/
structure It where
  elems : Array Nat
  rc : Nat → Int
  file_map : Array Int
  entry_map : Array Int
  local_entry_list : Option (Array (Option (Array Int)))
  global_entry_list : Option (Array Int)
  buffer_len : Int
  buf_cols : List Nat
  lh5_buffer : Array Row
  i_start : Int
  n_entries : Option Int
  current_i_entry : Int
  next_i_entry : Int
  rowQueries : List Nat
  readCalls : Nat
  warnings : Nat

/-- Per-position row count: `read_n_rows(self.groups[i], self.lh5_files[i])`
without the instrumentation. -/
def It.rcAt (it : It) (i : Nat) : Int := it.rc (it.elems.getD i 0)

/-- `self.lh5_st.read_n_rows(self.groups[i], self.lh5_files[i])`: queries the
external collaborator and logs the call. -/
def read_n_rows (it : It) (i : Nat) : Int × It :=
  (it.rcAt i, { it with rowQueries := it.rowQueries ++ [it.elems.getD i 0] })

/-- The `for i in range(i_start, i_file + 1)` loop of `_get_file_cumlen`:
processes `cnt` files starting at `j`, accumulating `fcl` and memoizing. -/
def cumlenLoop : It → Nat → Int → Nat → Int × It
  | it, _, fcl, 0 => (fcl, it)
  | it, j, fcl, cnt + 1 =>
    let p := read_n_rows it j
    let fcl := fcl + p.1
    cumlenLoop { p.2 with file_map := p.2.file_map.set! j fcl } (j + 1) fcl cnt

/-- `LH5Iterator._get_file_cumlen`. -/
def get_file_cumlen (it : It) (i_file : Int) : Int × It :=
  if i_file < 0 then (0, it)
  else
    let i := i_file.toNat
    let fcl := it.file_map.getD i 0
    if fcl = QMAX then
      let istart := ssLeft it.file_map QMAX
      let fcl0 := if istart > 0 then it.file_map.getD (istart - 1) 0 else 0
      cumlenLoop it istart fcl0 (i + 1 - istart)
    else (fcl, it)

/-- `LH5Iterator.get_file_entrylist`, abstracted over the mutually recursive
call to `_get_file_cumentries` (supplied as `rec`); the concrete tie-up is
`get_file_entrylist` below.  A list already stored for file `i` is returned
memoized; otherwise it is derived from the global list by binary search
against the file boundaries, then cached. -/
def get_file_entrylistA (rec : It → Int → Int × It) (it : It) (i : Nat) :
    Option (Array Int) × It :=
  match it.local_entry_list with
  | none => (none, it)
  | some l =>
    match l.getD i none with
    | some e => (some e, it)
    | none =>
      let p1 := get_file_cumlen it ((i : Int) - 1)
      let p2 := get_file_cumlen p1.2 (i : Int)
      let p3 := rec p2.2 ((i : Int) - 1)
      let it3 := p3.2
      let g := it3.global_entry_list.getD #[]
      let istop := ssRight g p2.1
      let elist := (g.extract p3.1.toNat istop).map (fun v => v - p1.1)
      let l3 := it3.local_entry_list.getD #[]
      (some elist,
        { it3 with local_entry_list := some (l3.set! i (some elist)) })

/-- The `for i in range(i_start, i_file + 1)` loop of `_get_file_cumentries`:
processes `cnt` files starting at `j` with running total `n`, memoizing into
`entry_map`.  When a file has an entry list whose last entry reaches the
cumulative length, the source warns and adds
`searchsorted(elist, fcl, right) - len(elist)`. -/
def cumentLoop (rec : It → Int → Int × It) : It → Nat → Int → Nat → Int × It
  | it, _, n, 0 => (n, it)
  | it, j, n, cnt + 1 =>
    let pe := get_file_entrylistA rec it j
    let pf := get_file_cumlen pe.2 (j : Int)
    let fcl := pf.1
    let step : Int × It :=
      match pe.1 with
      | none => (fcl, pf.2)
      | some elist =>
        let n := n + (elist.size : Int)
        if elist.size > 0 ∧ elist.getD (elist.size - 1) 0 ≥ fcl then
          (n + (ssRight elist fcl : Int) - (elist.size : Int),
            { pf.2 with warnings := pf.2.warnings + 1 })
        else (n, pf.2)
    cumentLoop rec
      { step.2 with entry_map := step.2.entry_map.set! j step.1 }
      (j + 1) step.1 cnt

/-- `LH5Iterator._get_file_cumentries`, with an explicit structural fuel for
the mutual recursion with `get_file_entrylist` (deriving the list for file
`j` may resolve entries through file `j - 1`).  Each nested call strictly
decreases the file index, so fuel `elems.size + 2` (supplied by the wrapper
`get_file_cumentries`) always suffices; the fuel-0 branch is unreachable
from the wrappers. -/
def cumentF : Nat → It → Int → Int × It
  | 0, it, _ => (0, it)
  | f + 1, it, i_file =>
    if i_file < 0 then (0, it)
    else
      let i := i_file.toNat
      let n := it.entry_map.getD i 0
      if n = QMAX then
        let istart := ssLeft it.entry_map QMAX
        let n0 := if istart > 0 then it.entry_map.getD (istart - 1) 0 else 0
        cumentLoop (cumentF f) it istart n0 (i + 1 - istart)
      else (n, it)

/-- `LH5Iterator._get_file_cumentries`. -/
def get_file_cumentries (it : It) (i_file : Int) : Int × It :=
  cumentF (it.elems.size + 2) it i_file

/-- `LH5Iterator.get_file_entrylist`. -/
def get_file_entrylist (it : It) (i : Nat) : Option (Array Int) × It :=
  get_file_entrylistA get_file_cumentries it i

/-- `LH5Iterator.__len__`. -/
def lenIt (it : It) : Int × It :=
  if it.entry_map.size > 0 then
    get_file_cumentries it ((it.elems.size : Int) - 1)
  else (0, it)

/-- Numpy slice assignment `a[s : s + len(v)] = v`. -/
def setSlice (a : Array Int) (s : Nat) : List Int → Array Int
  | [] => a
  | x :: rest => setSlice (a.set! s x) (s + 1) rest

/-- Loop body of `get_global_entrylist`: for each file, writes the local list
offset by the file physical start into the global array under construction. -/
def gglLoop : It → Nat → Nat → It
  | it, _, 0 => it
  | it, j, cnt + 1 =>
    let p1 := get_file_cumentries it ((j : Int) - 1)
    let p2 := get_file_cumentries p1.2 (j : Int)
    let p3 := get_file_cumlen p2.2 ((j : Int) - 1)
    let pe := get_file_entrylist p3.2 j
    let vals := ((pe.1.getD #[]).map (fun v => v + p3.1)).toList
    let g := setSlice (pe.2.global_entry_list.getD #[]) p1.1.toNat vals
    gglLoop { pe.2 with global_entry_list := some g } (j + 1) cnt

/-- `LH5Iterator.get_global_entrylist`. -/
def get_global_entrylist (it : It) : Array Int × It :=
  match it.global_entry_list, it.local_entry_list with
  | none, some _ =>
    let p := lenIt it
    let it1 := { p.2 with
      global_entry_list := some (Array.mkArray p.1.toNat 0) }
    let it2 := gglLoop it1 0 it1.elems.size
    (it2.global_entry_list.getD #[], it2)
  | _, _ => (it.global_entry_list.getD #[], it)

/-- Modelled from the spec: `LH5Store.read` (`store.py` is not under `src/`).
Spec section 6 `read_rows`: fill the buffer with up to `n_rows` rows beginning
at `start_row`, honoring an optional explicit row-index subset in place of a
contiguous range; a contiguous read clips at the file row count `rcv` (spec
section 7: reading past the end yields fewer rows, not an error).  With an
index list, the rows delivered are the listed entries from `start_row` on. -/
def read_rows (rcv : Int) (elemId : Nat) (start_row : Int) (n_rows : Int)
    (idx : Option (Array Int)) : List Row :=
  match idx with
  | none =>
    let cnt := (min n_rows (rcv - start_row)).toNat
    (List.range cnt).map (fun k => ((elemId, start_row + Int.ofNat k) : Row))
  | some a =>
    ((a.toList.filter (fun v => decide (start_row ≤ v))).take n_rows.toNat).map
      (fun v => ((elemId, v) : Row))

/-- Numpy integer indexing: negative indices wrap from the end, anything else
out of range raises `IndexError`. -/
def npIndex (a : Array Int) (i : Int) : Option Int :=
  if i < 0 then
    if 0 ≤ (a.size : Int) + i then some (a.getD ((a.size : Int) + i).toNat 0)
    else none
  else if i < (a.size : Int) then some (a.getD i.toNat 0)
  else none

/-- The `while i_file < len and i_entry >= cumentries(i_file)` search loop of
`LH5Iterator.read`; `cnt` is `elems.size - i_file`. -/
def searchWalk : It → Int → Nat → Nat → Nat × It
  | it, _, i, 0 => (i, it)
  | it, e, i, cnt + 1 =>
    let p := get_file_cumentries it (i : Int)
    if e ≥ p.1 then searchWalk p.2 e (i + 1) cnt else (i, p.2)

/-- The `self.lh5_buffer = self.lh5_st.read(...)` call of the read loop:
the freshly delivered rows extend the buffer, and one external data read is
counted. -/
def pushRows (it : It) (rows : List Row) : It :=
  { it with lh5_buffer := it.lh5_buffer ++ rows.toArray,
            readCalls := it.readCalls + 1 }

/-- The buffer-filling loop of `LH5Iterator.read`: appends rows file by file
until the budget `n` is met or the file list is exhausted; a file whose
resolved selection is empty is skipped.  `cnt` is `elems.size - i_file`.
Returns `some msg` on an `IndexError` (out-of-range selection cursor). -/
def readLoop : It → Int → Nat → Int → Nat → Option String × It
  | it, _, _, _, 0 => (none, it)
  | it, n, i, li, cnt + 1 =>
    if (it.lh5_buffer.size : Int) < n then
      let pe := get_file_entrylist it i
      let it := pe.2
      match pe.1 with
      | some lidx =>
        if lidx.size = 0 then readLoop it n (i + 1) 0 cnt
        else
          match npIndex lidx li with
          | none => (some "IndexError", it)
          | some iloc =>
            readLoop (pushRows it (read_rows (it.rcAt i) (it.elems.getD i 0)
              iloc (n - (it.lh5_buffer.size : Int)) (some lidx)))
              n (i + 1) 0 cnt
      | none =>
        readLoop (pushRows it (read_rows (it.rcAt i) (it.elems.getD i 0) li
          (n - (it.lh5_buffer.size : Int)) none)) n (i + 1) 0 cnt
    else (none, it)

/-- Outcome of one `LH5Iterator.read` call: a raised exception, an early
return (the `n_entries == 0` branch or the `i_file == len(files)` branch,
which skip the cursor update and the friend read), or the main path. -/
inductive RRes where
  | rerror (msg : String)
  | early
  | main
deriving DecidableEq, Repr

/-- The body of `LH5Iterator.read` after the `n_entries` argument has been
resolved to a concrete budget `n`. -/
def readMain (it : It) (i_entry : Int) (n : Int) : RRes × It :=
  let nf := it.elems.size
  let i0 := ssRight it.entry_map i_entry
  let ps :=
    if i0 < nf ∧ it.entry_map.getD i0 0 = QMAX then
      searchWalk it i_entry i0 (nf - i0)
    else (i0, it)
  let i_file := ps.1
  let it := ps.2
  if i_file = nf then (.early, it)
  else
    let pc := get_file_cumentries it ((i_file : Int) - 1)
    let li := i_entry - pc.1
    match readLoop pc.2 n i_file li (nf - i_file) with
    | (some msg, it) => (.rerror msg, it)
    | (none, it) => (.main, { it with current_i_entry := i_entry })

/-- `LH5Iterator.read` for a single iterator (the friend propagation lives in
`FIt.read`).  The buffer is truncated to length 0 before the argument checks,
exactly as in the source. -/
def coreRead (it : It) (i_entry : Int) (n_entries : Option Int) : RRes × It :=
  let it := { it with lh5_buffer := #[] }
  match n_entries with
  | none => readMain it i_entry it.buffer_len
  | some n =>
    if n = 0 then (.early, it)
    else if n > it.buffer_len then
      (.rerror "n_entries cannot be larger than buffer_len", it)
    else readMain it i_entry n

/-- An iterator together with its optional friend chain (`self.friend` is
either `None` or another iterator, recursively). -/
inductive FIt where
  | leaf (core : It)
  | node (core : It) (friend : FIt)

/-- The head iterator of a chain. -/
def FIt.core : FIt → It
  | .leaf c => c
  | .node c _ => c

/-- Replace the head iterator of a chain. -/
def FIt.withCore : FIt → It → FIt
  | .leaf _, c => .leaf c
  | .node _ fr, c => .node c fr

/-- Buffer capacities along a chain, head first. -/
def FIt.caps : FIt → List Int
  | .leaf c => [c.buffer_len]
  | .node c fr => c.buffer_len :: fr.caps

/-- The capacity-harmonization step of `add_friend`: the two `buffer_len`
fields become the minimum of the two, and whichever buffer was larger is
resized (shrunk) to it. -/
def harmonize (a b : It) : It × It :=
  if a.buffer_len < b.buffer_len then
    (a, { b with buffer_len := a.buffer_len,
                 lh5_buffer := b.lh5_buffer.extract 0 a.buffer_len.toNat })
  else if a.buffer_len > b.buffer_len then
    ({ a with buffer_len := b.buffer_len,
              lh5_buffer := a.lh5_buffer.extract 0 b.buffer_len.toNat }, b)
  else (a, b)

/-- `LH5Iterator.add_friend` on a valid friend argument: harmonize the two
capacities, join the friend buffer columns into this buffer, then either link
the friend or recurse into the existing friend. -/
def FIt.add_friend : FIt → FIt → FIt
  | .leaf c, f =>
    let p := harmonize c f.core
    let c := { p.1 with buf_cols := p.1.buf_cols ++ p.2.buf_cols }
    .node c (f.withCore p.2)
  | .node c fr, f =>
    let p := harmonize c f.core
    let c := { p.1 with buf_cols := p.1.buf_cols ++ p.2.buf_cols }
    .node c (fr.add_friend (f.withCore p.2))

/-- `LH5Iterator.add_friend` including the leading
`isinstance(friend, LH5Iterator)` check: a non-iterator argument (modelled as
`none`) raises before any state is touched. -/
def add_friend_checked (p : FIt) (arg : Option FIt) : Except String FIt :=
  match arg with
  | none => .error "Friend must be an iterator"
  | some f => .ok (p.add_friend f)

/-- `LH5Iterator.read` including the friend propagation: on the main path the
friend is read at the same `i_entry` with `n_entries` left defaulted; early
returns skip the friend. -/
def FIt.read : FIt → Int → Option Int → RRes × FIt
  | .leaf c, e, n? =>
    let p := coreRead c e n?
    (p.1, .leaf p.2)
  | .node c fr, e, n? =>
    let p := coreRead c e n?
    match p.1 with
    | .main =>
      let pf := fr.read e none
      (match pf.1 with | .rerror m => .rerror m | _ => .main, .node p.2 pf.2)
    | r => (r, .node p.2 fr)

/-- `np.linspace(0, N, n + 1).astype(int)` evaluated at point `k`: the exact
rational `k * N / n` truncated to an integer. -/
def iFiles (nf n k : Nat) : Nat := k * nf / n

/-- One worker copy of `_generate_workers`: slice the element list and both
cumulative arrays to `[lo, hi)`, and, only when `lo - 1 > 0` (the source
condition `i_files[i_worker] - 1 > 0`), subtract the cumulative totals at the
prior shard boundary from the already-resolved (non-sentinel) entries.  The
global selection list is invalidated. -/
def mkWorker (it : It) (lo hi : Nat) : It :=
  let w := { it with
    elems := it.elems.extract lo hi,
    file_map := it.file_map.extract lo hi,
    entry_map := it.entry_map.extract lo hi }
  let w :=
    if (lo : Int) - 1 > 0 then
      { w with
        file_map := w.file_map.map
          (fun x => if x ≠ QMAX then x - it.file_map.getD (lo - 1) 0 else x),
        entry_map := w.entry_map.map
          (fun x => if x ≠ QMAX then x - it.entry_map.getD (lo - 1) 0 else x) }
    else w
  { w with global_entry_list := none }

/-- `LH5Iterator._generate_workers`.  When an entry selection is present the
source first materializes every local list via `self.get_file_entries(i)`
(line 585) — but `LH5Iterator` defines no attribute `get_file_entries` (the
method is named `get_file_entrylist`), so that path raises `AttributeError`
before any worker is built. -/
def generate_workers (it : It) (n : Nat) : Except String (List It) :=
  if it.local_entry_list.isSome then
    .error "AttributeError: LH5Iterator object has no attribute get_file_entries"
  else
    .ok ((List.range n).map (fun k =>
      mkWorker it (iFiles it.elems.size n k) (iFiles it.elems.size n (k + 1))))

/-- `LH5Iterator.__next__`: the optional bound `n_entries` is clipped to the
remaining budget, the next block is read, and an empty block signals
`StopIteration` (returned as `none`). -/
def nextBlock (it : It) : Except String (Option (Array Row) × It) :=
  let n? : Option Int :=
    match it.n_entries with
    | none => none
    | some ne => some (min it.buffer_len (ne + it.i_start - it.next_i_entry))
  let p := coreRead it it.next_i_entry n?
  match p.1 with
  | .rerror m => .error m
  | _ =>
    if p.2.lh5_buffer.size = 0 then .ok (none, p.2)
    else .ok (some p.2.lh5_buffer,
      { p.2 with next_i_entry := p.2.current_i_entry + p.2.lh5_buffer.size })

/-- `_map_helper(fun, it)`: iterate the blocks, applying `fun` to each buffer
together with the iterator, collecting outputs in order.  The `fuel` bounds
the number of `__next__` steps; every run below supplies more fuel than the
dataset has blocks, so the fuel-0 branch is never the terminating one. -/
def mapIterAux {α : Type} (fn : Array Row → It → α) :
    Nat → It → List α → Except String (List α)
  | 0, _, acc => .ok acc.reverse
  | fuel + 1, it, acc =>
    match nextBlock it with
    | .error m => .error m
    | .ok (none, _) => .ok acc.reverse
    | .ok (some b, it') => mapIterAux fn fuel it' (fn b it' :: acc)

/-- `_map_helper` applied from the start of iteration (`__iter__` resets the
cursor to `i_start`). -/
def map_helper {α : Type} (fn : Array Row → It → α) (fuel : Nat) (it : It) :
    Except String (List α) :=
  mapIterAux fn fuel
    { it with current_i_entry := 0, next_i_entry := it.i_start } []

/-- `LH5Iterator.map`: `processes = none` runs `_map_helper` directly; with a
worker count the dataset is partitioned and the per-worker result lists are
concatenated in shard order (`Pool.map` preserves input order). -/
def mapModel {α : Type} (fn : Array Row → It → α) (fuel : Nat) (it : It)
    (processes : Option Nat) : Except String (List α) :=
  match processes with
  | none => map_helper fn fuel it
  | some np => do
    let ws ← generate_workers it np
    let rss ← ws.mapM (fun w => map_helper fn fuel w)
    .ok rss.flatten

/-- `LH5Iterator.__init__` for an already-flattened element list of size
`nf ≥ 1`: the first file row count is probed (to size the buffer) and stored
in `file_map[0]`; `entry_map` starts fully unresolved; the buffer starts
logically empty.  Selection arguments are passed through exactly as the
constructor stores them (a supplied global list is stored sorted; the
theorems that use one carry the sortedness as a hypothesis). -/
def initIt (nf : Nat) (rc : Nat → Int) (buffer_len : Int)
    (locals? : Option (Array (Option (Array Int))))
    (global? : Option (Array Int)) : It :=
  { elems := Array.range nf
    rc := rc
    file_map := (Array.mkArray nf QMAX).set! 0 (rc 0)
    entry_map := Array.mkArray nf QMAX
    local_entry_list := locals?
    global_entry_list := global?
    buffer_len := buffer_len
    buf_cols := [0]
    lh5_buffer := #[]
    i_start := 0
    n_entries := none
    current_i_entry := 0
    next_i_entry := 0
    rowQueries := [0]
    readCalls := 0
    warnings := 0 }

/-! ### Specification-side functions and well-formedness predicates -/

/-- Cumulative sum of a per-element count: `cums f i = f 0 + ... + f i`. -/
def cums (f : Nat → Int) : Nat → Int
  | 0 => f 0
  | n + 1 => cums f n + f (n + 1)

/-- `cums` extended to `Int` indices, `0` below zero (the `i < 0` contract of
`_get_file_cumlen`). -/
def cumsI (f : Nat → Int) (i : Int) : Int := if i < 0 then 0 else cums f i.toNat

/-- One file's contribution step of `_get_file_cumentries`: from the running
total `n`, either jump to the cumulative length (no selection for this file)
or add the selected-entry count with the out-of-range correction the source
applies. -/
def entsStep (rcA : Nat → Int) (l : Array (Option (Array Int))) (j : Nat)
    (n : Int) : Int :=
  match l.getD j none with
  | none => cums rcA j
  | some e =>
    let n := n + (e.size : Int)
    if e.size > 0 ∧ e.getD (e.size - 1) 0 ≥ cums rcA j then
      n + (ssRight e (cums rcA j) : Int) - (e.size : Int)
    else n

/-- Cumulative selected-entry count for a materialized per-file list state. -/
def entsL (rcA : Nat → Int) (l : Array (Option (Array Int))) : Nat → Int
  | 0 => entsStep rcA l 0 0
  | j + 1 => entsStep rcA l (j + 1) (entsL rcA l j)

/-- The cumulative logical-entry count `_get_file_cumentries` resolves to. -/
def ents (it : It) : Nat → Int :=
  match it.local_entry_list with
  | none => cums it.rcAt
  | some l => entsL it.rcAt l

/-- `ents` extended to `Int` indices, `0` below zero. -/
def entsI (it : It) (i : Int) : Int := if i < 0 then 0 else ents it i.toNat

/-- The selection list `get_file_entrylist` returns for file `i` when it is
already materialized (or there is no selection). -/
def elistAt (it : It) (i : Nat) : Option (Array Int) :=
  match it.local_entry_list with
  | none => none
  | some l => l.getD i none

/-- Element ids of `cnt` consecutive dataset elements starting at `a`: the
row-count queries a left-to-right resolution of that range issues, in order,
one per element. -/
def idsFrom (it : It) (a : Nat) : Nat → List Nat
  | 0 => []
  | cnt + 1 => it.elems.getD a 0 :: idsFrom it (a + 1) cnt

/-- `b` agrees with `a` on every configuration field: only the buffer, the
cursors, the cumulative maps and the instrumentation may differ.  This is
what a `read` call preserves. -/
def SameIter (a b : It) : Prop :=
  b.elems = a.elems ∧ b.rc = a.rc ∧ b.local_entry_list = a.local_entry_list ∧
  b.global_entry_list = a.global_entry_list ∧ b.buffer_len = a.buffer_len ∧
  b.buf_cols = a.buf_cols ∧ b.i_start = a.i_start ∧ b.n_entries = a.n_entries

/-- `b` is `a` with only the row buffer and the data-read counter changed:
what the buffer-filling loop of `read` does to the state under a
materialized selection. -/
def ReadOnlyBuf (a b : It) : Prop :=
  b.elems = a.elems ∧ b.rc = a.rc ∧ b.file_map = a.file_map ∧
  b.entry_map = a.entry_map ∧ b.local_entry_list = a.local_entry_list ∧
  b.global_entry_list = a.global_entry_list ∧ b.buffer_len = a.buffer_len ∧
  b.buf_cols = a.buf_cols ∧ b.i_start = a.i_start ∧
  b.n_entries = a.n_entries ∧ b.current_i_entry = a.current_i_entry ∧
  b.next_i_entry = a.next_i_entry ∧ b.rowQueries = a.rowQueries ∧
  b.warnings = a.warnings

/-- `b` is `a` after some cumulative-index resolution: every field except the
two cumulative maps, the query log and the warning counter is unchanged. -/
def ResolveOnly (a b : It) : Prop :=
  b.elems = a.elems ∧ b.rc = a.rc ∧ b.local_entry_list = a.local_entry_list ∧
  b.global_entry_list = a.global_entry_list ∧ b.buffer_len = a.buffer_len ∧
  b.buf_cols = a.buf_cols ∧ b.lh5_buffer = a.lh5_buffer ∧
  b.i_start = a.i_start ∧ b.n_entries = a.n_entries ∧
  b.current_i_entry = a.current_i_entry ∧ b.next_i_entry = a.next_i_entry ∧
  b.readCalls = a.readCalls

/-- Well-formed `file_map`: a resolved prefix of length `k` holding the
cumulative row counts, sentinel `QMAX` beyond. -/
structure FWF (it : It) (k : Nat) : Prop where
  hk : k ≤ it.elems.size
  size_f : it.file_map.size = it.elems.size
  res : ∀ i, i < k → it.file_map.getD i 0 = cums it.rcAt i
  unres : ∀ i, k ≤ i → i < it.elems.size → it.file_map.getD i 0 = QMAX

/-- Well-formed `entry_map`: a resolved prefix of length `kE` holding the
cumulative selected-entry counts, sentinel `QMAX` beyond. -/
structure EWF (it : It) (kE : Nat) : Prop where
  hk : kE ≤ it.elems.size
  size_e : it.entry_map.size = it.elems.size
  res : ∀ i, i < kE → it.entry_map.getD i 0 = ents it i
  unres : ∀ i, kE ≤ i → i < it.elems.size → it.entry_map.getD i 0 = QMAX

/-- Selection state with no pending global-to-local derivation: either no
selection at all, or a per-file list materialized for every file (the state
produced by supplying per-file lists at construction). -/
def SelMat (it : It) : Prop :=
  it.local_entry_list = none ∨
  ∃ l, it.local_entry_list = some l ∧
    ∀ i, i < it.elems.size → (l.getD i none).isSome

/-- The no-overflow regime every real iterator lives in: row counts are
nonnegative and all cumulative totals stay strictly below the sentinel. -/
structure Bounds (it : It) : Prop where
  rc_nonneg : ∀ i, i < it.elems.size → 0 ≤ it.rcAt i
  cums_lt : ∀ i, i < it.elems.size → cums it.rcAt i < QMAX
  ents_lt : ∀ i, i < it.elems.size → ents it i < QMAX

/-! ### Concrete states used by the claim theorems -/

/-- Row counts 2, 3, 4 for a three-element dataset. -/
def rcC1 : Nat → Int := fun i => (#[2, 3, 4] : Array Int).getD i 0

/-- Three files of 2, 3 and 4 rows, no selection, buffer capacity 10, with
both cumulative maps fully resolved by a prior `len()` call. -/
def itC1 : It := (lenIt (initIt 3 rcC1 10 none none)).2

/-- One file of 5 rows with the per-file entry list `[0, 5]`: entry `5` is
out of range (valid local rows are `0..4`). -/
def itC6a : It := initIt 1 (fun _ => 5) 10 (some #[some #[0, 5]]) none

/-- Two files of 5 rows each; the second file's list `[7]` is out of range
for that file but below the cumulative total 10. -/
def itC6b : It := initIt 2 (fun _ => 5) 10 (some #[some #[], some #[7]]) none

/-- A fresh single-file iterator: 1 element of 2 rows, buffer capacity 2. -/
def itP : It := initIt 1 (fun _ => 2) 2 none none

/-- `itP` with two rows currently buffered. -/
def itPbuf : It := { itP with lh5_buffer := #[(0, 0), (0, 1)] }

/-- A primary with an attached friend whose buffer currently holds 2 rows. -/
def itC3 : FIt := .node itP (.leaf itPbuf)

/-- A primary with an attached friend in the identical fresh state. -/
def itC3w : FIt := .node itP (.leaf itP)

/-- The friend link of a chain, if any. -/
def FIt.fr? : FIt → Option FIt
  | .leaf _ => none
  | .node _ f => some f

/-- Capacity-5 iterator used in the `add_friend` witness. -/
def itC9a : It := { itP with buffer_len := 5, buf_cols := [1],
                             lh5_buffer := #[(0, 0), (0, 1), (0, 2)] }

/-- Capacity-2 iterator used in the `add_friend` witness. -/
def itC9b : It := { itP with buffer_len := 2, buf_cols := [2] }

/-- Chain length. -/
def FIt.len : FIt → Nat
  | .leaf _ => 1
  | .node _ f => f.len + 1

/-- Column lists along a chain, head first. -/
def FIt.colsList : FIt → List (List Nat)
  | .leaf c => [c.buf_cols]
  | .node c f => c.buf_cols :: f.colsList

/-- The core at depth `j` of a chain (head is depth 0); past the end it
returns the last core. -/
def FIt.coreAt : FIt → Nat → It
  | t, 0 => t.core
  | .leaf c, _ + 1 => c
  | .node _ fr, k + 1 => fr.coreAt k

/-- Row counts 5, 7 for the two-element witness dataset of spec section 8. -/
def rcC4w : Nat → Int := fun i => (#[5, 7] : Array Int).getD i 0

/-- Fresh two-file iterator with rows 5 and 7 and buffer capacity 4. -/
def itC4w : It := initIt 2 rcC4w 4 none none

/-- The error message of an `Except` result, if any. -/
def exceptErr? {α : Type} : Except String α → Option String
  | .error m => some m
  | .ok _ => none

/-- The physical rows of `cnt` consecutive dataset elements starting at `a`,
in dataset order: for each element all its rows `0 .. rc - 1` in order. -/
def rowsFrom (it : It) (a : Nat) : Nat → List Row
  | 0 => []
  | cnt + 1 =>
    (List.range (it.rcAt a).toNat).map
        (fun r => ((it.elems.getD a 0, Int.ofNat r) : Row)) ++
      rowsFrom it (a + 1) cnt

/-- Fresh iterator over two one-row files with buffer capacity 2: the
smallest dataset on which parallel and sequential map block outputs differ. -/
def itD2 : It := initIt 2 (fun _ => 1) 2 none none

/-- Decomposition of a row list into consecutive blocks of `bl` rows (the
last block shorter): the block structure a full iteration of an unselected
iterator with buffer capacity `bl` delivers.  `fuel` bounds the number of
blocks, as in `mapIterAux`. -/
def chunks (bl : Nat) : Nat → List Row → List (List Row)
  | 0, _ => []
  | fuel + 1, rows =>
    if rows = [] then [] else rows.take bl :: chunks bl fuel (rows.drop bl)

/-- Entry boundary of file `j` in a sorted global selection list: the number
of selected entries at or below the cumulative row count of file `j`
(`np.searchsorted(G, cums j, "right")`). -/
def tbG (G : Array Int) (rc : Nat → Int) (j : Nat) : Nat :=
  ssRight G (cums rc j)

/-- `tbG` extended to `Int` indices, 0 below zero. -/
def tbGI (G : Array Int) (rc : Nat → Int) (i : Int) : Nat :=
  if i < 0 then 0 else tbG G rc i.toNat

/-- The local selection list file `j` derives from the sorted global list:
the slice of `G` between the file's entry boundaries, rebased by the file's
physical start row. -/
def elistG (G : Array Int) (rc : Nat → Int) (j : Nat) : Array Int :=
  (G.extract (tbGI G rc ((j : Int) - 1)) (tbG G rc j)).map
    (fun v => v - cumsI rc ((j : Int) - 1))

/-- Non-decreasing `Int` array (the constructor sorts the supplied global
entry list). -/
def SortedA (G : Array Int) : Prop :=
  ∀ b, b < G.size → ∀ a, a ≤ b → G.getD a 0 ≤ G.getD b 0

/-- State of the global-to-local derivation run over an iterator built from
the sorted global list `G`: after the first `m` files have been processed,
the per-file lists `0..m-1` hold the derived slices, the entry map's
resolved prefix holds the boundary counts, and the file map's resolved
prefix holds the cumulative row counts (the constructor resolves file 0). -/
structure DervSt (nf : Nat) (rc : Nat → Int) (G : Array Int) (m : Nat)
    (it : It) : Prop where
  elemsr : it.elems = Array.range nf
  rcf : it.rc = rc
  loc : ∃ l, it.local_entry_list = some l ∧ l.size = nf ∧
    (∀ j, j < m → l.getD j none = some (elistG G rc j)) ∧
    (∀ j, m ≤ j → j < nf → l.getD j none = none)
  esize : it.entry_map.size = nf
  eres : ∀ j, j < m → it.entry_map.getD j 0 = ((tbG G rc j : Nat) : Int)
  eunres : ∀ j, m ≤ j → j < nf → it.entry_map.getD j 0 = QMAX
  fsize : it.file_map.size = nf
  fres : ∀ j, j < max 1 m → it.file_map.getD j 0 = cums rc j
  funres : ∀ j, max 1 m ≤ j → j < nf → it.file_map.getD j 0 = QMAX

/-! ### Helper lemmas: arrays, counting, cumulative sums -/

theorem aGetD (a : Array Int) (i : Nat) (d : Int) :
    a.getD i d = a.toList.getD i d := by
  rw [Array.getD_eq_get?, List.getD_eq_getElem?_getD]
  congr 1

theorem size_set! (a : Array Int) (i : Nat) (v : Int) :
    (a.set! i v).size = a.size := Array.size_setD a i v

theorem toList_set! (a : Array Int) (i : Nat) (v : Int) :
    (a.set! i v).toList = a.toList.set i v := by
  unfold Array.set! Array.setD
  split
  · rw [Array.toList_set]
  · rw [List.set_eq_of_length_le]
    simpa [Array.length_toList] using (by omega : a.size ≤ i)

theorem getD_set!_self (a : Array Int) (i : Nat) (v d : Int) (h : i < a.size) :
    (a.set! i v).getD i d = v := by
  rw [aGetD, toList_set!, List.getD_eq_getElem?_getD, List.getElem?_set]
  simp [Array.length_toList, h]

theorem getD_set!_other (a : Array Int) (i j : Nat) (v d : Int) (h : i ≠ j) :
    (a.set! i v).getD j d = a.getD j d := by
  rw [aGetD, toList_set!, List.getD_eq_getElem?_getD, List.getElem?_set,
    aGetD, List.getD_eq_getElem?_getD]
  simp [h]

theorem countP_of_prefix (p : Int → Bool) (k : Nat) :
    ∀ (l : List Int), k ≤ l.length →
    (∀ j, j < k → p (l.getD j 0) = true) →
    (∀ j, k ≤ j → j < l.length → p (l.getD j 0) = false) →
    l.countP p = k := by
  induction k with
  | zero =>
    intro l _ _ h2
    rw [List.countP_eq_zero]
    intro a ha
    obtain ⟨j, hj, rfl⟩ := List.getElem_of_mem ha
    have h := h2 j (Nat.zero_le j) hj
    rw [List.getD_eq_getElem?_getD, List.getElem?_eq_getElem hj] at h
    simp at h
    simp [h]
  | succ k ih =>
    intro l hk h1 h2
    match l with
    | [] => simp at hk
    | x :: xs =>
      have hx : p x = true := by simpa using h1 0 (Nat.succ_pos k)
      have hxs : xs.countP p = k := by
        refine ih xs (by simpa using hk) ?_ ?_
        · intro j hj
          simpa using h1 (j + 1) (by omega)
        · intro j hj hjl
          simpa using h2 (j + 1) (by omega) (by simpa using hjl)
      rw [List.countP_cons, hxs, hx]
      simp

theorem countP_all (p : Int → Bool) (l : List Int)
    (h : ∀ j, j < l.length → p (l.getD j 0) = true) :
    l.countP p = l.length :=
  countP_of_prefix p l.length l le_rfl h (fun j hj hjl => by omega)

theorem cums_pred_add (f : Nat → Int) (j : Nat) :
    cumsI f ((j : Int) - 1) + f j = cums f j := by
  match j with
  | 0 => simp [cumsI, cums]
  | j + 1 =>
    have h1 : (((j + 1 : Nat)) : Int) - 1 = (j : Int) := by push_cast; ring
    rw [h1]
    have h2 : cumsI f (j : Int) = cums f j := by
      simp [cumsI]
    rw [h2]
    rfl

theorem cums_congr (f g : Nat → Int) (n : Nat) (h : ∀ j, j ≤ n → f j = g j) :
    cums f n = cums g n := by
  induction n with
  | zero => simpa [cums] using h 0 le_rfl
  | succ n ih =>
    rw [cums, cums, ih (fun j hj => h j (by omega)), h (n + 1) le_rfl]

theorem cums_nonneg (f : Nat → Int) (n : Nat) (h : ∀ j, j ≤ n → 0 ≤ f j) :
    0 ≤ cums f n := by
  induction n with
  | zero => simpa [cums] using h 0 le_rfl
  | succ n ih =>
    rw [cums]
    have := h (n + 1) le_rfl
    have := ih (fun j hj => h j (by omega))
    omega

theorem cums_mono (f : Nat → Int) (a b : Nat) (hab : a ≤ b)
    (h : ∀ j, j ≤ b → 0 ≤ f j) : cums f a ≤ cums f b := by
  induction b with
  | zero => simp_all
  | succ b ih =>
    rcases Nat.lt_or_ge a (b + 1) with hb | hb
    · have h1 := ih (by omega) (fun j hj => h j (by omega))
      have h2 := h (b + 1) le_rfl
      rw [cums]
      omega
    · have : a = b + 1 := by omega
      subst this
      rfl

theorem cums_eq_sum (f : Nat → Int) (n : Nat) :
    cums f n = ∑ i in Finset.range (n + 1), f i := by
  induction n with
  | zero => simp [cums]
  | succ n ih =>
    rw [cums, ih]
    exact (Finset.sum_range_succ f (n + 1)).symm

theorem idsFrom_append (it : It) (a m m' : Nat) :
    idsFrom it a m ++ idsFrom it (a + m) m' = idsFrom it a (m + m') := by
  induction m generalizing a with
  | zero => simp [idsFrom]
  | succ m ih =>
    rw [idsFrom, List.cons_append, Nat.succ_add, idsFrom]
    have := ih (a + 1)
    rw [show a + 1 + m = a + (m + 1) by omega] at this
    rw [this]

/-! ### Stability of the specification functions under resolution -/

theorem resolveOnly_rfl (a : It) : ResolveOnly a a := by
  unfold ResolveOnly
  repeat constructor <;> try rfl

theorem resolveOnly_trans {a b c : It} (h1 : ResolveOnly a b)
    (h2 : ResolveOnly b c) : ResolveOnly a c := by
  obtain ⟨e1, r1, l1, g1, bl1, bc1, lb1, is1, ne1, ci1, ni1, rc1⟩ := h1
  obtain ⟨e2, r2, l2, g2, bl2, bc2, lb2, is2, ne2, ci2, ni2, rc2⟩ := h2
  exact ⟨e2.trans e1, r2.trans r1, l2.trans l1, g2.trans g1, bl2.trans bl1,
    bc2.trans bc1, lb2.trans lb1, is2.trans is1, ne2.trans ne1,
    ci2.trans ci1, ni2.trans ni1, rc2.trans rc1⟩

theorem rcAt_stable {a b : It} (h : ResolveOnly a b) : b.rcAt = a.rcAt := by
  funext i
  unfold It.rcAt
  rw [h.1, h.2.1]

theorem ents_stable {a b : It} (h : ResolveOnly a b) : ents b = ents a := by
  unfold ents
  rw [h.2.2.1, rcAt_stable h]

theorem entsI_stable {a b : It} (h : ResolveOnly a b) : entsI b = entsI a := by
  funext i
  unfold entsI
  rw [ents_stable h]

theorem elistAt_stable {a b : It} (h : ResolveOnly a b) :
    elistAt b = elistAt a := by
  funext i
  unfold elistAt
  rw [h.2.2.1]

theorem selMat_stable {a b : It} (h : ResolveOnly a b) (hs : SelMat a) :
    SelMat b := by
  unfold SelMat at hs ⊢
  rw [h.2.2.1, h.1]
  exact hs

theorem bounds_stable {a b : It} (h : ResolveOnly a b) (hB : Bounds a) :
    Bounds b := by
  constructor
  · rw [rcAt_stable h, h.1]
    exact hB.rc_nonneg
  · rw [rcAt_stable h, h.1]
    exact hB.cums_lt
  · rw [ents_stable h, h.1]
    exact hB.ents_lt

theorem idsFrom_stable {a b : It} (h : ResolveOnly a b) :
    idsFrom b = idsFrom a := by
  funext s n
  induction n generalizing s with
  | zero => rfl
  | succ n ih => rw [idsFrom, idsFrom, h.1, ih]

/-! ### Properties of the cumulative selected-entry specification `ents` -/

theorem entsStep_ge (rcA : Nat → Int) (l : Array (Option (Array Int)))
    (j : Nat) (n : Int) (ev : Array Int) (h : l.getD j none = some ev) :
    n ≤ entsStep rcA l j n := by
  unfold entsStep
  rw [h]
  have h1 := Int.natCast_nonneg (ssRight ev (cums rcA j))
  have h2 := Int.natCast_nonneg ev.size
  dsimp only
  split <;> omega

theorem entsStep_le (rcA : Nat → Int) (l : Array (Option (Array Int)))
    (j : Nat) (n : Int) (ev : Array Int) (h : l.getD j none = some ev) :
    entsStep rcA l j n ≤ n + (ev.size : Int) := by
  unfold entsStep
  rw [h]
  have h1 : ssRight ev (cums rcA j) ≤ ev.size := by
    have := List.countP_le_length
      (p := fun x => decide (x ≤ cums rcA j)) (l := ev.toList)
    simpa [ssRight, Array.length_toList] using this
  have h2 : ((ssRight ev (cums rcA j) : Nat) : Int) ≤ (ev.size : Int) := by
    exact_mod_cast h1
  dsimp only
  split <;> omega

theorem ents_eq_cums (it : It) (hl : it.local_entry_list = none) :
    ents it = cums it.rcAt := by
  unfold ents
  rw [hl]

theorem ents_eq_entsL (it : It) (l : Array (Option (Array Int)))
    (hl : it.local_entry_list = some l) : ents it = entsL it.rcAt l := by
  unfold ents
  rw [hl]

theorem entsI_pred_zero (it : It) : entsI it ((0 : Int) - 1) = 0 := by
  simp [entsI]

theorem entsI_pred_succ (it : It) (j : Nat) :
    entsI it (((j + 1 : Nat) : Int) - 1) = ents it j := by
  have h1 : (((j + 1 : Nat)) : Int) - 1 = (j : Int) := by push_cast; ring
  rw [h1]
  simp [entsI]

theorem ents_step_eq (it : It) (l : Array (Option (Array Int)))
    (hl : it.local_entry_list = some l) (j : Nat) :
    ents it j = entsStep it.rcAt l j (entsI it ((j : Int) - 1)) := by
  rw [ents_eq_entsL it l hl]
  match j with
  | 0 =>
    have h0 : entsI it (((0 : Nat) : Int) - 1) = 0 := by simp [entsI]
    rw [h0]
    rfl
  | j + 1 =>
    rw [entsI_pred_succ, ents_eq_entsL it l hl]
    rfl

theorem ents_nonneg (it : It) (hs : SelMat it)
    (hnn : ∀ i, i < it.elems.size → 0 ≤ it.rcAt i) :
    ∀ i, i < it.elems.size → 0 ≤ ents it i := by
  rcases hs with hl | ⟨l, hl, hall⟩
  · intro i hi
    rw [ents_eq_cums it hl]
    exact cums_nonneg _ _ (fun j hj => hnn j (by omega))
  · intro i hi
    induction i with
    | zero =>
      obtain ⟨ev, hev⟩ := Option.isSome_iff_exists.mp (hall 0 hi)
      have h := entsStep_ge it.rcAt l 0 0 ev hev
      rw [ents_eq_entsL it l hl]
      exact h
    | succ i ih =>
      obtain ⟨ev, hev⟩ := Option.isSome_iff_exists.mp (hall (i + 1) hi)
      have h := entsStep_ge it.rcAt l (i + 1) (entsL it.rcAt l i) ev hev
      have h2 : 0 ≤ ents it i := ih (by omega)
      rw [ents_eq_entsL it l hl] at h2 ⊢
      exact le_trans h2 h

theorem ents_mono (it : It) (hs : SelMat it)
    (hnn : ∀ i, i < it.elems.size → 0 ≤ it.rcAt i) (a b : Nat) (hab : a ≤ b)
    (hb : b < it.elems.size) : ents it a ≤ ents it b := by
  rcases hs with hl | ⟨l, hl, hall⟩
  · rw [ents_eq_cums it hl]
    exact cums_mono _ _ _ hab (fun j hj => hnn j (by omega))
  · induction b with
    | zero =>
      have : a = 0 := by omega
      subst this
      exact le_rfl
    | succ b ih =>
      rcases Nat.lt_or_ge a (b + 1) with h | h
      · obtain ⟨ev, hev⟩ := Option.isSome_iff_exists.mp (hall (b + 1) hb)
        have hstep := entsStep_ge it.rcAt l (b + 1) (entsL it.rcAt l b) ev hev
        have h1 : ents it a ≤ ents it b := ih (by omega) (by omega)
        rw [ents_eq_entsL it l hl] at h1 ⊢
        exact le_trans h1 hstep
      · have : a = b + 1 := by omega
        subst this
        exact le_rfl

/-! ### Resolution of the cumulative row-count array (`_get_file_cumlen`) -/

theorem cumsI_pred_succ (f : Nat → Int) (j : Nat) :
    cumsI f (((j + 1 : Nat) : Int) - 1) = cums f j := by
  have h1 : (((j + 1 : Nat)) : Int) - 1 = (j : Int) := by push_cast; ring
  rw [h1]
  simp [cumsI]

theorem ssLeft_sentinel (it : It) (k : Nat) (hF : FWF it k) (hB : Bounds it) :
    ssLeft it.file_map QMAX = k := by
  unfold ssLeft
  apply countP_of_prefix
  · rw [Array.length_toList, hF.size_f]
    exact hF.hk
  · intro j hj
    rw [← aGetD, hF.res j hj]
    simp only [decide_eq_true_eq]
    exact hB.cums_lt j (by have := hF.hk; omega)
  · intro j hj hjl
    rw [Array.length_toList, hF.size_f] at hjl
    rw [← aGetD, hF.unres j hj hjl]
    simp

theorem cumlen_memo (it : It) (k i : Nat) (hF : FWF it k) (hB : Bounds it)
    (hik : i < k) : get_file_cumlen it (i : Int) = (cums it.rcAt i, it) := by
  unfold get_file_cumlen
  rw [if_neg (by omega : ¬ ((i : Int) < 0))]
  simp only [Int.toNat_natCast]
  rw [hF.res i hik,
    if_neg (ne_of_lt (hB.cums_lt i (by have := hF.hk; omega)))]

theorem cumlenLoop_spec : ∀ (cnt : Nat) (it : It) (j : Nat), FWF it j →
    j + cnt ≤ it.elems.size →
    ∃ it2, cumlenLoop it j (cumsI it.rcAt ((j : Int) - 1)) cnt =
        (cumsI it.rcAt (((j + cnt : Nat) : Int) - 1), it2) ∧
      FWF it2 (j + cnt) ∧ ResolveOnly it it2 ∧
      it2.entry_map = it.entry_map ∧ it2.warnings = it.warnings ∧
      it2.rowQueries = it.rowQueries ++ idsFrom it j cnt := by
  intro cnt
  induction cnt with
  | zero =>
    intro it j hF hsz
    exact ⟨it, rfl, by simpa using hF, resolveOnly_rfl it, rfl, rfl, by
      simp [idsFrom]⟩
  | succ cnt ih =>
    intro it j hF hsz
    have hjsz : j < it.file_map.size := by
      rw [hF.size_f]; omega
    set itq : It := { it with rowQueries := it.rowQueries ++ [it.elems.getD j 0] }
      with hitq
    set it1 : It := { itq with file_map := itq.file_map.set! j (cums it.rcAt j) }
      with hit1
    have hacc : cumsI it.rcAt ((j : Int) - 1) + it.rcAt j = cums it.rcAt j :=
      cums_pred_add _ j
    have hstep : cumlenLoop it j (cumsI it.rcAt ((j : Int) - 1)) (cnt + 1) =
        cumlenLoop it1 (j + 1) (cums it.rcAt j) cnt := by
      show cumlenLoop { (read_n_rows it j).2 with
          file_map := (read_n_rows it j).2.file_map.set! j
            (cumsI it.rcAt ((j : Int) - 1) + (read_n_rows it j).1) }
        (j + 1) (cumsI it.rcAt ((j : Int) - 1) + (read_n_rows it j).1) cnt =
        cumlenLoop it1 (j + 1) (cums it.rcAt j) cnt
      simp only [show (read_n_rows it j).1 = it.rcAt j from rfl, hacc]
      rfl
    have hrc1 : it1.rcAt = it.rcAt := rfl
    have hF1 : FWF it1 (j + 1) := by
      refine ⟨by exact (by omega : j + 1 ≤ it.elems.size), ?_, ?_, ?_⟩
      · show (it.file_map.set! j _).size = it.elems.size
        rw [size_set!, hF.size_f]
      · intro i hi
        rcases Nat.lt_or_ge i j with h | h
        · show (it.file_map.set! j _).getD i 0 = _
          rw [getD_set!_other _ _ _ _ _ (by omega), hrc1]
          exact hF.res i h
        · have : i = j := by omega
          subst this
          show (it.file_map.set! i _).getD i 0 = _
          rw [getD_set!_self _ _ _ _ hjsz, hrc1]
      · intro i hi hisz
        show (it.file_map.set! j _).getD i 0 = QMAX
        rw [getD_set!_other _ _ _ _ _ (by omega)]
        exact hF.unres i (by omega) hisz
    obtain ⟨it2, hval, hF2, hro, hem, hw, hq⟩ :=
      ih it1 (j + 1) hF1 (by show j + 1 + cnt ≤ it.elems.size; omega)
    rw [hrc1] at hval
    rw [cumsI_pred_succ] at hval
    refine ⟨it2, ?_, ?_, ?_, ?_, ?_, ?_⟩
    · rw [hstep, hval]
      congr 2
      omega
    · have : j + 1 + cnt = j + (cnt + 1) := by omega
      rwa [this] at hF2
    · exact resolveOnly_trans ⟨rfl, rfl, rfl, rfl, rfl, rfl, rfl, rfl, rfl,
        rfl, rfl, rfl⟩ hro
    · exact hem
    · exact hw
    · have hids : idsFrom it1 = idsFrom it :=
        idsFrom_stable ⟨rfl, rfl, rfl, rfl, rfl, rfl, rfl, rfl, rfl, rfl,
          rfl, rfl⟩
      rw [hq, hids]
      show (it.rowQueries ++ [it.elems.getD j 0]) ++ idsFrom it (j + 1) cnt =
        it.rowQueries ++ idsFrom it j (cnt + 1)
      rw [List.append_assoc]
      rfl

theorem get_file_cumlen_neg (it : It) (e : Int) (he : e < 0) :
    get_file_cumlen it e = (0, it) := by
  unfold get_file_cumlen
  rw [if_pos he]

theorem get_file_cumlen_spec (it : It) (k i : Nat) (hF : FWF it k)
    (hB : Bounds it) (hi : i < it.elems.size) :
    ∃ it2, get_file_cumlen it (i : Int) = (cums it.rcAt i, it2) ∧
      FWF it2 (max k (i + 1)) ∧ ResolveOnly it it2 ∧
      it2.entry_map = it.entry_map ∧ it2.warnings = it.warnings ∧
      it2.rowQueries = it.rowQueries ++ idsFrom it k (max k (i + 1) - k) := by
  rcases Nat.lt_or_ge i k with hik | hik
  · refine ⟨it, cumlen_memo it k i hF hB hik, ?_, resolveOnly_rfl it, rfl, rfl, ?_⟩
    · have : max k (i + 1) = k := by omega
      rw [this]
      exact hF
    · have : max k (i + 1) - k = 0 := by omega
      rw [this]
      simp [idsFrom]
  · have hmax : max k (i + 1) = i + 1 := by omega
    obtain ⟨it2, hval, hF2, hro, hem, hw, hq⟩ :=
      cumlenLoop_spec (i + 1 - k) it k (by
        refine ⟨by omega, hF.size_f, hF.res, ?_⟩
        intro a ha hasz
        exact hF.unres a ha hasz) (by omega)
    have hkcnt : k + (i + 1 - k) = i + 1 := by omega
    rw [hkcnt, cumsI_pred_succ] at hval
    refine ⟨it2, ?_, ?_, hro, hem, hw, ?_⟩
    · unfold get_file_cumlen
      rw [if_neg (by omega : ¬ ((i : Int) < 0))]
      simp only [Int.toNat_natCast]
      rw [hF.unres i hik hi, if_pos rfl, ssLeft_sentinel it k hF hB]
      rcases Nat.eq_zero_or_pos k with hk0 | hkpos
      · subst hk0
        rw [if_neg (by omega)]
        have h0 : (0 : Int) = cumsI it.rcAt (((0 : Nat) : Int) - 1) := by
          simp [cumsI]
        rw [h0]
        exact hval
      · rw [if_pos hkpos, hF.res (k - 1) (by omega)]
        have h1 : cums it.rcAt (k - 1) = cumsI it.rcAt ((k : Int) - 1) := by
          have := cumsI_pred_succ it.rcAt (k - 1)
          rw [show k - 1 + 1 = k by omega] at this
          exact this.symm
        rw [h1]
        exact hval
    · rw [hmax]
      rw [hkcnt] at hF2
      exact hF2
    · rw [hq, hmax]

/-! ### Resolution of the cumulative entry array (`_get_file_cumentries`) -/

theorem FWF_transfer {a b : It} {k : Nat} (h : FWF a k)
    (hf : b.file_map = a.file_map) (he : b.elems = a.elems)
    (hr : b.rc = a.rc) : FWF b k := by
  have hrc : b.rcAt = a.rcAt := by
    funext i
    unfold It.rcAt
    rw [he, hr]
  exact ⟨by rw [he]; exact h.hk, by rw [hf, he]; exact h.size_f,
    fun i hi => by rw [hf, hrc]; exact h.res i hi,
    fun i hi hisz => by rw [he] at hisz; rw [hf]; exact h.unres i hi hisz⟩

theorem EWF_transfer {a b : It} {k : Nat} (h : EWF a k)
    (hf : b.entry_map = a.entry_map) (he : b.elems = a.elems)
    (hr : b.rc = a.rc) (hl : b.local_entry_list = a.local_entry_list) :
    EWF b k := by
  have hrc : b.rcAt = a.rcAt := by
    funext i
    unfold It.rcAt
    rw [he, hr]
  have hents : ents b = ents a := by
    unfold ents
    rw [hl, hrc]
  exact ⟨by rw [he]; exact h.hk, by rw [hf, he]; exact h.size_e,
    fun i hi => by rw [hf, hents]; exact h.res i hi,
    fun i hi hisz => by rw [he] at hisz; rw [hf]; exact h.unres i hi hisz⟩

theorem ssLeft_sentinel_entry (it : It) (kE : Nat) (hE : EWF it kE)
    (hB : Bounds it) : ssLeft it.entry_map QMAX = kE := by
  unfold ssLeft
  apply countP_of_prefix
  · rw [Array.length_toList, hE.size_e]
    exact hE.hk
  · intro j hj
    rw [← aGetD, hE.res j hj]
    simp only [decide_eq_true_eq]
    exact hB.ents_lt j (by have := hE.hk; omega)
  · intro j hj hjl
    rw [Array.length_toList, hE.size_e] at hjl
    rw [← aGetD, hE.unres j hj hjl]
    simp

theorem entrylistA_selmat (rec : It → Int → Int × It) (it : It) (i : Nat)
    (hs : SelMat it) (hi : i < it.elems.size) :
    get_file_entrylistA rec it i = (elistAt it i, it) := by
  rcases hs with hl | ⟨l, hl, hall⟩
  · unfold get_file_entrylistA elistAt
    rw [hl]
  · obtain ⟨ev, hev⟩ := Option.isSome_iff_exists.mp (hall i hi)
    unfold get_file_entrylistA elistAt
    rw [hl]
    dsimp only
    rw [hev]

theorem elistAt_none_ents (it : It) (i : Nat) (hs : SelMat it)
    (hi : i < it.elems.size) (h : elistAt it i = none) :
    ents it i = cums it.rcAt i := by
  rcases hs with hl | ⟨l, hl, hall⟩
  · rw [ents_eq_cums it hl]
  · exfalso
    unfold elistAt at h
    rw [hl] at h
    dsimp only at h
    have := hall i hi
    rw [h] at this
    simp at this

theorem elistAt_some_local (it : It) (i : Nat) (ev : Array Int)
    (h : elistAt it i = some ev) :
    ∃ l, it.local_entry_list = some l ∧ l.getD i none = some ev := by
  unfold elistAt at h
  match hl : it.local_entry_list with
  | none => rw [hl] at h; simp at h
  | some l => rw [hl] at h; exact ⟨l, rfl, h⟩

theorem cumentLoop_step (rec : It → Int → Int × It) (it itf : It) (j : Nat)
    (n fcl : Int) (cnt : Nat)
    (hpe : get_file_entrylistA rec it j = (elistAt it j, it))
    (hpf : get_file_cumlen it (j : Int) = (fcl, itf)) :
    cumentLoop rec it j n (cnt + 1) =
      (let step : Int × It :=
        match elistAt it j with
        | none => (fcl, itf)
        | some elist =>
          let m := n + (elist.size : Int)
          if elist.size > 0 ∧ elist.getD (elist.size - 1) 0 ≥ fcl then
            (m + (ssRight elist fcl : Int) - (elist.size : Int),
              { itf with warnings := itf.warnings + 1 })
          else (m, itf)
      cumentLoop rec { step.2 with entry_map := step.2.entry_map.set! j step.1 }
        (j + 1) step.1 cnt) := by
  conv_lhs => rw [cumentLoop]
  rw [hpe]
  dsimp only
  rw [hpf]

/-- Shared continuation of the `cumentLoop_spec` induction step: after file
`j` has been processed (`its` is the post-`_get_file_cumlen` state, possibly
with the warning counter bumped), memoizing `entry_map[j]` and recursing
yields the specified result. -/
theorem cumentLoop_spec_tail (rec : It → Int → Int × It) (cnt : Nat)
    (it its : It) (j kF : Nat) (hs : SelMat it) (hB : Bounds it)
    (hF : FWF it kF) (hE : EWF it j) (hsz : j + (cnt + 1) ≤ it.elems.size)
    (hFs : FWF its (max kF (j + 1)))
    (hros : ResolveOnly it its)
    (hems : its.entry_map = it.entry_map)
    (hqs : its.rowQueries = it.rowQueries ++ idsFrom it kF (max kF (j + 1) - kF))
    (ih : ∀ (it : It) (j kF : Nat), SelMat it → Bounds it → FWF it kF →
      EWF it j → j + cnt ≤ it.elems.size →
      ∃ it2 kF2, cumentLoop rec it j (entsI it ((j : Int) - 1)) cnt =
          (entsI it (((j + cnt : Nat) : Int) - 1), it2) ∧
        FWF it2 kF2 ∧ EWF it2 (j + cnt) ∧ kF ≤ kF2 ∧
        (cnt = 0 → kF2 = kF) ∧ (0 < cnt → kF2 = max kF (j + cnt)) ∧
        ResolveOnly it it2 ∧
        it2.rowQueries = it.rowQueries ++ idsFrom it kF (kF2 - kF)) :
    ∃ it2 kF2,
      cumentLoop rec { its with entry_map := its.entry_map.set! j (ents it j) }
        (j + 1) (ents it j) cnt =
        (entsI it (((j + (cnt + 1) : Nat) : Int) - 1), it2) ∧
      FWF it2 kF2 ∧ EWF it2 (j + (cnt + 1)) ∧ kF ≤ kF2 ∧
      (cnt + 1 = 0 → kF2 = kF) ∧
      (0 < cnt + 1 → kF2 = max kF (j + (cnt + 1))) ∧
      ResolveOnly it it2 ∧
      it2.rowQueries = it.rowQueries ++ idsFrom it kF (kF2 - kF) := by
  set it3 : It := { its with entry_map := its.entry_map.set! j (ents it j) }
    with hit3
  have hro3 : ResolveOnly it it3 :=
    resolveOnly_trans hros ⟨rfl, rfl, rfl, rfl, rfl, rfl, rfl, rfl, rfl, rfl,
      rfl, rfl⟩
  have hs3 : SelMat it3 := selMat_stable hro3 hs
  have hB3 : Bounds it3 := bounds_stable hro3 hB
  have hF3 : FWF it3 (max kF (j + 1)) := FWF_transfer hFs rfl rfl rfl
  have hsize3 : it3.elems.size = it.elems.size := by rw [hro3.1]
  have hsz_e : its.entry_map.size = it.elems.size := by rw [hems, hE.size_e]
  have hE3 : EWF it3 (j + 1) := by
    refine ⟨?_, ?_, ?_, ?_⟩
    · rw [hsize3]
      omega
    · show (its.entry_map.set! j (ents it j)).size = it3.elems.size
      rw [size_set!, hsz_e, hsize3]
    · intro i hi
      show (its.entry_map.set! j (ents it j)).getD i 0 = ents it3 i
      rw [ents_stable hro3]
      rcases Nat.lt_or_ge i j with h | h
      · rw [getD_set!_other _ _ _ _ _ (by omega), hems]
        exact hE.res i h
      · have : i = j := by omega
        subst this
        rw [getD_set!_self _ _ _ _ (by rw [hsz_e]; omega)]
    · intro i hi hisz
      rw [hsize3] at hisz
      show (its.entry_map.set! j (ents it j)).getD i 0 = QMAX
      rw [getD_set!_other _ _ _ _ _ (by omega), hems]
      exact hE.unres i (by omega) hisz
  have hacc : ents it j = entsI it (((j + 1 : Nat) : Int) - 1) :=
    (entsI_pred_succ it j).symm
  obtain ⟨it2, kF2, hval2, hF2, hE2, hle2, hz2, hp2, hro2, hq2⟩ :=
    ih it3 (j + 1) (max kF (j + 1)) hs3 hB3 hF3 hE3 (by rw [hsize3]; omega)
  rw [show j + 1 + cnt = j + (cnt + 1) from by omega, entsI_stable hro3]
    at hval2
  refine ⟨it2, kF2, ?_, hF2, ?_, ?_, ?_, ?_, resolveOnly_trans hro3 hro2, ?_⟩
  · rw [hacc]
    exact hval2
  · rwa [show j + 1 + cnt = j + (cnt + 1) from by omega] at hE2
  · exact le_trans (le_max_left kF (j + 1)) hle2
  · intro h
    omega
  · intro _
    rcases Nat.eq_zero_or_pos cnt with hc | hc
    · subst hc
      rw [hz2 rfl]
    · rw [hp2 hc]
      omega
  · rw [hq2, idsFrom_stable hro3]
    show its.rowQueries ++ _ = _
    rw [hqs, List.append_assoc]
    congr 1
    have hmle : max kF (j + 1) ≤ kF2 := hle2
    have happ :=
      idsFrom_append it kF (max kF (j + 1) - kF) (kF2 - max kF (j + 1))
    rw [show kF + (max kF (j + 1) - kF) = max kF (j + 1) from by omega,
      show (max kF (j + 1) - kF) + (kF2 - max kF (j + 1)) = kF2 - kF from by
        omega] at happ
    exact happ

theorem cumentLoop_spec (rec : It → Int → Int × It) :
    ∀ (cnt : Nat) (it : It) (j kF : Nat), SelMat it → Bounds it → FWF it kF →
    EWF it j → j + cnt ≤ it.elems.size →
    ∃ it2 kF2, cumentLoop rec it j (entsI it ((j : Int) - 1)) cnt =
        (entsI it (((j + cnt : Nat) : Int) - 1), it2) ∧
      FWF it2 kF2 ∧ EWF it2 (j + cnt) ∧ kF ≤ kF2 ∧
      (cnt = 0 → kF2 = kF) ∧ (0 < cnt → kF2 = max kF (j + cnt)) ∧
      ResolveOnly it it2 ∧
      it2.rowQueries = it.rowQueries ++ idsFrom it kF (kF2 - kF) := by
  intro cnt
  induction cnt with
  | zero =>
    intro it j kF hs hB hF hE hsz
    refine ⟨it, kF, ?_, hF, ?_, le_rfl, fun _ => rfl, ?_, resolveOnly_rfl it, ?_⟩
    · show (entsI it ((j : Int) - 1), it) = _
      rw [Nat.add_zero]
    · rw [Nat.add_zero]
      exact hE
    · intro h
      omega
    · simp [idsFrom]
  | succ cnt ih =>
    intro it j kF hs hB hF hE hsz
    have hjN : j < it.elems.size := by omega
    have hpe := entrylistA_selmat rec it j hs hjN
    obtain ⟨itf, hpf, hFf, hrof, hemf, hwf, hqf⟩ :=
      get_file_cumlen_spec it kF j hF hB hjN
    rw [cumentLoop_step rec it itf j (entsI it ((j : Int) - 1))
      (cums it.rcAt j) cnt hpe hpf]
    -- the step state and value, by cases on the selection list for file j
    cases helist : elistAt it j with
    | none =>
      dsimp only
      have hval : cums it.rcAt j = ents it j :=
        (elistAt_none_ents it j hs hjN helist).symm
      rw [hval]
      exact cumentLoop_spec_tail rec cnt it itf j kF hs hB hF hE hsz hFf hrof
        hemf hqf ih
    | some ev =>
      dsimp only
      have hval : (if ev.size > 0 ∧ ev.getD (ev.size - 1) 0 ≥ cums it.rcAt j
          then (entsI it ((j : Int) - 1) + (ev.size : Int) +
              (ssRight ev (cums it.rcAt j) : Int) - (ev.size : Int),
            { itf with warnings := itf.warnings + 1 })
          else (entsI it ((j : Int) - 1) + (ev.size : Int), itf)).1 =
          ents it j := by
        obtain ⟨l, hl, hev⟩ := elistAt_some_local it j ev helist
        rw [ents_step_eq it l hl j]
        unfold entsStep
        rw [hev]
        dsimp only
        split <;> rfl
      by_cases hcond : ev.size > 0 ∧ ev.getD (ev.size - 1) 0 ≥ cums it.rcAt j
      · rw [if_pos hcond] at hval ⊢
        dsimp only at hval ⊢
        rw [hval]
        exact cumentLoop_spec_tail rec cnt it
          { itf with warnings := itf.warnings + 1 } j kF hs hB hF hE hsz
          (FWF_transfer hFf rfl rfl rfl)
          (resolveOnly_trans hrof ⟨rfl, rfl, rfl, rfl, rfl, rfl, rfl, rfl,
            rfl, rfl, rfl, rfl⟩)
          hemf hqf ih
      · rw [if_neg hcond] at hval ⊢
        dsimp only at hval ⊢
        rw [hval]
        exact cumentLoop_spec_tail rec cnt it itf j kF hs hB hF hE hsz hFf
          hrof hemf hqf ih

/-- One-step unfolding of the fueled `_get_file_cumentries` wrapper: the fuel
`elems.size + 2` is a successor, so the body applies with one unit spent. -/
theorem get_file_cumentries_unfold (it : It) (i_file : Int) :
    get_file_cumentries it i_file =
      (if i_file < 0 then (0, it)
       else
        let i := i_file.toNat
        let n := it.entry_map.getD i 0
        if n = QMAX then
          let istart := ssLeft it.entry_map QMAX
          let n0 := if istart > 0 then it.entry_map.getD (istart - 1) 0 else 0
          cumentLoop (cumentF (it.elems.size + 1)) it istart n0 (i + 1 - istart)
        else (n, it)) := rfl

theorem get_file_cumentries_neg (it : It) (e : Int) (he : e < 0) :
    get_file_cumentries it e = (0, it) := by
  rw [get_file_cumentries_unfold, if_pos he]

theorem cument_memo (it : It) (kE i : Nat) (hE : EWF it kE) (hB : Bounds it)
    (hik : i < kE) : get_file_cumentries it (i : Int) = (ents it i, it) := by
  rw [get_file_cumentries_unfold, if_neg (by omega : ¬ ((i : Int) < 0))]
  simp only [Int.toNat_natCast]
  rw [hE.res i hik,
    if_neg (ne_of_lt (hB.ents_lt i (by have := hE.hk; omega)))]

theorem get_file_cumentries_spec (it : It) (kF kE i : Nat) (hs : SelMat it)
    (hB : Bounds it) (hF : FWF it kF) (hE : EWF it kE) (hke : kE ≤ kF)
    (hi : i < it.elems.size) :
    ∃ it2, get_file_cumentries it (i : Int) = (ents it i, it2) ∧
      FWF it2 (max kF (i + 1)) ∧ EWF it2 (max kE (i + 1)) ∧
      ResolveOnly it it2 ∧
      it2.rowQueries = it.rowQueries ++ idsFrom it kF (max kF (i + 1) - kF) := by
  rcases Nat.lt_or_ge i kE with hik | hik
  · refine ⟨it, cument_memo it kE i hE hB hik, ?_, ?_, resolveOnly_rfl it, ?_⟩
    · rw [show max kF (i + 1) = kF from by omega]
      exact hF
    · rw [show max kE (i + 1) = kE from by omega]
      exact hE
    · rw [show max kF (i + 1) - kF = 0 from by omega]
      simp [idsFrom]
  · obtain ⟨it2, kF2, hval, hF2, hE2, hle2, _, hp2, hro, hq⟩ :=
      cumentLoop_spec (cumentF (it.elems.size + 1)) (i + 1 - kE) it kE kF
        hs hB hF hE (by omega)
    have hcnt : kE + (i + 1 - kE) = i + 1 := by omega
    rw [hcnt, entsI_pred_succ] at hval
    have hkF2 : kF2 = max kF (i + 1) := by
      rw [hp2 (by omega), hcnt]
    refine ⟨it2, ?_, ?_, ?_, hro, ?_⟩
    · rw [get_file_cumentries_unfold, if_neg (by omega : ¬ ((i : Int) < 0))]
      simp only [Int.toNat_natCast]
      rw [hE.unres i hik hi, if_pos rfl, ssLeft_sentinel_entry it kE hE hB]
      rcases Nat.eq_zero_or_pos kE with hk0 | hkpos
      · subst hk0
        rw [if_neg (by omega)]
        have h0 : (0 : Int) = entsI it (((0 : Nat) : Int) - 1) := by
          simp [entsI]
        rw [h0]
        exact hval
      · rw [if_pos hkpos, hE.res (kE - 1) (by omega)]
        have h1 : ents it (kE - 1) = entsI it ((kE : Int) - 1) := by
          have := entsI_pred_succ it (kE - 1)
          rw [show kE - 1 + 1 = kE from by omega] at this
          exact this.symm
        rw [h1]
        exact hval
    · rw [← hkF2]
      exact hF2
    · rw [show max kE (i + 1) = i + 1 from by omega, ← hcnt]
      exact hE2
    · rw [hq, hkF2]

theorem lenIt_spec (it : It) (kF kE : Nat) (hs : SelMat it) (hB : Bounds it)
    (hF : FWF it kF) (hE : EWF it kE) (hke : kE ≤ kF)
    (hN : 1 ≤ it.elems.size) :
    ∃ it2, lenIt it = (ents it (it.elems.size - 1), it2) ∧
      FWF it2 it.elems.size ∧ EWF it2 it.elems.size ∧ ResolveOnly it it2 := by
  obtain ⟨it2, hval, hF2, hE2, hro, _⟩ :=
    get_file_cumentries_spec it kF kE (it.elems.size - 1) hs hB hF hE hke
      (by omega)
  refine ⟨it2, ?_, ?_, ?_, hro⟩
  · unfold lenIt
    rw [if_pos (by rw [hE.size_e]; omega)]
    rw [show (it.elems.size : Int) - 1 = ((it.elems.size - 1 : Nat) : Int)
      from by omega]
    exact hval
  · rw [show max kF (it.elems.size - 1 + 1) = it.elems.size from by
      have := hF.hk; omega] at hF2
    exact hF2
  · rw [show max kE (it.elems.size - 1 + 1) = it.elems.size from by
      have := hE.hk; omega] at hE2
    exact hE2

/-! ### The freshly constructed iterator is well formed -/

theorem getD_range (n i : Nat) (hi : i < n) : (Array.range n).getD i 0 = i := by
  rw [Array.getD_eq_get?, Array.getElem?_eq_getElem (by simpa using hi)]
  simp [Array.getElem_range]

theorem getD_mkArray (n i : Nat) (v : Int) (h : i < n) :
    (Array.mkArray n v).getD i 0 = v := by
  rw [Array.getD_eq_get?, Array.getElem?_mkArray]
  simp [h]

theorem initIt_size (nf : Nat) (rc : Nat → Int) (bl : Int)
    (l? : Option (Array (Option (Array Int)))) (g? : Option (Array Int)) :
    (initIt nf rc bl l? g?).elems.size = nf := Array.size_range

theorem initIt_rcAt (nf : Nat) (rc : Nat → Int) (bl : Int)
    (l? : Option (Array (Option (Array Int)))) (g? : Option (Array Int))
    (i : Nat) (hi : i < nf) : (initIt nf rc bl l? g?).rcAt i = rc i := by
  unfold It.rcAt initIt
  dsimp only
  rw [getD_range nf i hi]

theorem initIt_cums (nf : Nat) (rc : Nat → Int) (bl : Int)
    (l? : Option (Array (Option (Array Int)))) (g? : Option (Array Int))
    (i : Nat) (hi : i < nf) :
    cums (initIt nf rc bl l? g?).rcAt i = cums rc i :=
  cums_congr _ _ i (fun j hj => initIt_rcAt nf rc bl l? g? j (by omega))

theorem initIt_FWF (nf : Nat) (rc : Nat → Int) (bl : Int)
    (l? : Option (Array (Option (Array Int)))) (g? : Option (Array Int))
    (hN : 1 ≤ nf) : FWF (initIt nf rc bl l? g?) 1 := by
  refine ⟨by rw [initIt_size]; omega, ?_, ?_, ?_⟩
  · show ((Array.mkArray nf QMAX).set! 0 (rc 0)).size = _
    rw [size_set!, Array.size_mkArray, initIt_size]
  · intro i hi
    have : i = 0 := by omega
    subst this
    show ((Array.mkArray nf QMAX).set! 0 (rc 0)).getD 0 0 = _
    rw [getD_set!_self _ _ _ _ (by rw [Array.size_mkArray]; omega)]
    rw [show cums (initIt nf rc bl l? g?).rcAt 0 =
      (initIt nf rc bl l? g?).rcAt 0 from rfl]
    rw [initIt_rcAt nf rc bl l? g? 0 (by omega)]
  · intro i hi hisz
    rw [initIt_size] at hisz
    show ((Array.mkArray nf QMAX).set! 0 (rc 0)).getD i 0 = QMAX
    rw [getD_set!_other _ _ _ _ _ (by omega), getD_mkArray nf i QMAX hisz]

theorem initIt_EWF (nf : Nat) (rc : Nat → Int) (bl : Int)
    (l? : Option (Array (Option (Array Int)))) (g? : Option (Array Int)) :
    EWF (initIt nf rc bl l? g?) 0 := by
  refine ⟨by omega, ?_, ?_, ?_⟩
  · show (Array.mkArray nf QMAX).size = _
    rw [Array.size_mkArray, initIt_size]
  · intro i hi
    omega
  · intro i _ hisz
    rw [initIt_size] at hisz
    exact getD_mkArray nf i QMAX hisz

theorem initIt_bounds_noSel (nf : Nat) (rc : Nat → Int) (bl : Int)
    (hN : 1 ≤ nf) (hnn : ∀ i, i < nf → 0 ≤ rc i)
    (hlt : cums rc (nf - 1) < QMAX) : Bounds (initIt nf rc bl none none) := by
  have hc : ∀ i, i < nf → cums (initIt nf rc bl none none).rcAt i < QMAX := by
    intro i hi
    rw [initIt_cums nf rc bl none none i hi]
    calc cums rc i ≤ cums rc (nf - 1) :=
          cums_mono rc i (nf - 1) (by omega) (fun j hj => hnn j (by omega))
      _ < QMAX := hlt
  refine ⟨?_, ?_, ?_⟩
  · intro i hi
    rw [initIt_size] at hi
    rw [initIt_rcAt nf rc bl none none i hi]
    exact hnn i hi
  · intro i hi
    rw [initIt_size] at hi
    exact hc i hi
  · intro i hi
    rw [initIt_size] at hi
    rw [ents_eq_cums _ rfl]
    exact hc i hi

/-- C4: for a dataset constructed with no entry selection, `len(iterator)`
equals the sum of the external row counts over all dataset elements. -/
theorem C4_len_no_selection (nf : Nat) (rc : Nat → Int) (bl : Int)
    (hN : 1 ≤ nf) (hnn : ∀ i, i < nf → 0 ≤ rc i)
    (hlt : cums rc (nf - 1) < QMAX) :
    (lenIt (initIt nf rc bl none none)).1 = ∑ i in Finset.range nf, rc i := by
  obtain ⟨it2, hval, _, _, _⟩ :=
    lenIt_spec (initIt nf rc bl none none) 1 0 (Or.inl rfl)
      (initIt_bounds_noSel nf rc bl hN hnn hlt)
      (initIt_FWF nf rc bl none none hN) (initIt_EWF nf rc bl none none)
      (by omega) (by rw [initIt_size]; omega)
  rw [hval]
  dsimp only
  rw [ents_eq_cums _ rfl, initIt_size,
    initIt_cums nf rc bl none none (nf - 1) (by omega), cums_eq_sum,
    show nf - 1 + 1 = nf from by omega]

/-- Witness for C4 at the concrete two-file dataset with 5 and 7 rows. -/
theorem C4_len_no_selection_witness : (lenIt itC4w).1 = 12 := by
  have h := C4_len_no_selection 2 rcC4w 4 (by omega) (by decide) (by decide)
  rw [show (lenIt itC4w).1 = (lenIt (initIt 2 rcC4w 4 none none)).1 from rfl, h]
  decide

/-- C7: the file-cumulative and entry-cumulative arrays are non-decreasing
over their resolved prefixes; resolution proceeds strictly left-to-right from
the last resolved index, querying the external row-count collaborator exactly
once per newly touched element (the query log grows by exactly the element
ids `kF, ..., max kF (i+1) - 1` in order); an already-resolved value is never
recomputed (a second call returns the same value with the state, and hence
the query log, unchanged); and both cumulative accessors return 0 for a
negative index, leaving the state untouched. -/
theorem C7_cumulative_invariants (it : It) (kF kE i : Nat) (eneg : Int)
    (hF : FWF it kF) (hE : EWF it kE) (hke : kE ≤ kF) (hs : SelMat it)
    (hB : Bounds it) (hi : i < it.elems.size) (hneg : eneg < 0) :
    (get_file_cumlen it eneg = (0, it) ∧
     get_file_cumentries it eneg = (0, it)) ∧
    (∃ it2, get_file_cumlen it (i : Int) = (cums it.rcAt i, it2) ∧
      it2.rowQueries = it.rowQueries ++ idsFrom it kF (max kF (i + 1) - kF) ∧
      FWF it2 (max kF (i + 1)) ∧
      get_file_cumlen it2 (i : Int) = (cums it.rcAt i, it2) ∧
      (∀ a b, a ≤ b → b < max kF (i + 1) →
        it2.file_map.getD a 0 ≤ it2.file_map.getD b 0)) ∧
    (∃ it3, get_file_cumentries it (i : Int) = (ents it i, it3) ∧
      it3.rowQueries = it.rowQueries ++ idsFrom it kF (max kF (i + 1) - kF) ∧
      EWF it3 (max kE (i + 1)) ∧
      get_file_cumentries it3 (i : Int) = (ents it i, it3) ∧
      (∀ a b, a ≤ b → b < max kE (i + 1) →
        it3.entry_map.getD a 0 ≤ it3.entry_map.getD b 0)) := by
  refine ⟨⟨get_file_cumlen_neg it eneg hneg,
           get_file_cumentries_neg it eneg hneg⟩, ?_, ?_⟩
  · obtain ⟨it2, hval, hF2, hro, _, _, hq⟩ :=
      get_file_cumlen_spec it kF i hF hB hi
    have hB2 : Bounds it2 := bounds_stable hro hB
    have hsz2 : it2.elems.size = it.elems.size := by rw [hro.1]
    refine ⟨it2, hval, hq, hF2, ?_, ?_⟩
    · have hmemo := cumlen_memo it2 (max kF (i + 1)) i hF2 hB2 (by omega)
      rwa [rcAt_stable hro] at hmemo
    · intro a b hab hb
      have hmaxN : max kF (i + 1) ≤ it.elems.size := by
        have := hF.hk
        omega
      rw [hF2.res a (by omega), hF2.res b hb, rcAt_stable hro]
      exact cums_mono it.rcAt a b hab
        (fun j hj => hB.rc_nonneg j (by omega))
  · obtain ⟨it3, hval, hF3, hE3, hro, hq⟩ :=
      get_file_cumentries_spec it kF kE i hs hB hF hE hke hi
    have hB3 : Bounds it3 := bounds_stable hro hB
    have hs3 : SelMat it3 := selMat_stable hro hs
    have hsz3 : it3.elems.size = it.elems.size := by rw [hro.1]
    refine ⟨it3, hval, hq, hE3, ?_, ?_⟩
    · have hmemo := cument_memo it3 (max kE (i + 1)) i hE3 hB3 (by omega)
      rwa [ents_stable hro] at hmemo
    · intro a b hab hb
      have hmaxN : max kE (i + 1) ≤ it.elems.size := by
        have := hE.hk
        omega
      rw [hE3.res a (by omega), hE3.res b hb]
      exact ents_mono it3 hs3
        (fun j hj => hB3.rc_nonneg j (by omega)) a b hab (by omega)

/-- Witness for C7 at a fresh two-file iterator (rows 5 and 7): a negative
index returns 0 without touching the state, resolving index 1 yields the
cumulative count 12 and appends exactly the queries for elements 1 (element
0 was already resolved at construction). -/
theorem C7_cumulative_invariants_witness :
    get_file_cumlen itC4w (-1) = (0, itC4w) ∧
    (get_file_cumlen itC4w ((1 : Nat) : Int)).1 = 12 ∧
    (get_file_cumlen itC4w ((1 : Nat) : Int)).2.rowQueries = [0, 1] := by
  obtain ⟨⟨h1, _⟩, ⟨it2, h2, h3, _, _, _⟩, _⟩ :=
    C7_cumulative_invariants itC4w 1 0 1 (-1)
      ⟨by decide, by decide, by decide, by decide⟩
      ⟨by decide, by decide, by decide, by decide⟩
      (by decide) (Or.inl rfl) ⟨by decide, by decide, by decide⟩
      (by decide) (by decide)
  refine ⟨h1, ?_, ?_⟩
  · rw [h2]
    show cums itC4w.rcAt 1 = 12
    decide
  · rw [h2]
    show it2.rowQueries = [0, 1]
    rw [h3]
    decide

/-- C10: a failed `read` with `n` above the buffer capacity is not atomic:
the buffer is truncated to length 0 before the invalid-argument error is
raised, so the previous contents are discarded even though the read fails. -/
theorem C10_read_truncates_on_error (it : It) (e n : Int)
    (hn : it.buffer_len < n) (hnz : n ≠ 0) :
    (coreRead it e (some n)).1 =
      .rerror "n_entries cannot be larger than buffer_len" ∧
    (coreRead it e (some n)).2.lh5_buffer = #[] := by
  unfold coreRead
  dsimp only
  rw [if_neg hnz, if_pos (by exact hn)]
  exact ⟨rfl, rfl⟩

/-- Witness for C10: a concrete iterator whose buffer holds two rows; the
oversized read errors and the buffer afterwards is empty. -/
theorem C10_read_truncates_on_error_witness :
    itPbuf.lh5_buffer ≠ #[] ∧
    (coreRead itPbuf 0 (some 3)).1 =
      .rerror "n_entries cannot be larger than buffer_len" ∧
    (coreRead itPbuf 0 (some 3)).2.lh5_buffer = #[] := by
  refine ⟨by decide, ?_⟩
  exact C10_read_truncates_on_error itPbuf 0 3 (by decide) (by decide)

/-! ### The search phase of `read`: locating the containing dataset element -/

theorem ssRight_char (it : It) (kE : Nat) (hE : EWF it kE) (hB : Bounds it)
    (hs : SelMat it) (hnn : ∀ i, i < it.elems.size → 0 ≤ it.rcAt i)
    (e : Int) (he : e < QMAX) :
    ssRight it.entry_map e ≤ kE ∧
    (∀ j, j < ssRight it.entry_map e → ents it j ≤ e) ∧
    (ssRight it.entry_map e < kE → e < ents it (ssRight it.entry_map e)) := by
  by_cases hex : ∃ j, j < kE ∧ e < ents it j
  · have hspec := Nat.find_spec hex
    set m := Nat.find hex with hm
    obtain ⟨hmk, hme⟩ := hspec
    have hmin : ∀ j, j < m → ents it j ≤ e := by
      intro j hj
      have h := Nat.find_min hex hj
      push_neg at h
      exact h (by omega)
    have hcount : ssRight it.entry_map e = m := by
      unfold ssRight
      apply countP_of_prefix
      · rw [Array.length_toList, hE.size_e]
        have := hE.hk
        omega
      · intro j hj
        rw [← aGetD, hE.res j (by omega)]
        simp only [decide_eq_true_eq]
        exact hmin j hj
      · intro j hj hjl
        rw [Array.length_toList, hE.size_e] at hjl
        rcases Nat.lt_or_ge j kE with hjk | hjk
        · rw [← aGetD, hE.res j hjk]
          simp only [decide_eq_false_iff_not, not_le]
          have := ents_mono it hs hnn m j hj hjl
          omega
        · rw [← aGetD, hE.unres j hjk hjl]
          simp only [decide_eq_false_iff_not, not_le]
          omega
    rw [hcount]
    exact ⟨by omega, hmin, fun _ => hme⟩
  · push_neg at hex
    have hcount : ssRight it.entry_map e = kE := by
      unfold ssRight
      apply countP_of_prefix
      · rw [Array.length_toList, hE.size_e]
        exact hE.hk
      · intro j hj
        rw [← aGetD, hE.res j hj]
        simp only [decide_eq_true_eq]
        exact hex j hj
      · intro j hj hjl
        rw [Array.length_toList, hE.size_e] at hjl
        rw [← aGetD, hE.unres j hj hjl]
        simp only [decide_eq_false_iff_not, not_le]
        omega
    rw [hcount]
    exact ⟨le_rfl, hex, fun h => absurd h (lt_irrefl kE)⟩

theorem ssRight_ge_QMAX (it : It) (kE : Nat) (hE : EWF it kE) (hB : Bounds it)
    (e : Int) (he : QMAX ≤ e) : ssRight it.entry_map e = it.elems.size := by
  unfold ssRight
  rw [← hE.size_e, ← Array.length_toList]
  apply countP_all
  intro j hj
  rw [Array.length_toList, hE.size_e] at hj
  rw [← aGetD]
  rcases Nat.lt_or_ge j kE with h | h
  · rw [hE.res j h]
    simp only [decide_eq_true_eq]
    have := hB.ents_lt j hj
    omega
  · rw [hE.unres j h hj]
    simp only [decide_eq_true_eq]
    omega

theorem searchWalk_spec (e : Int) : ∀ (cnt : Nat) (it : It) (i kF : Nat),
    i + cnt = it.elems.size → SelMat it → Bounds it → FWF it kF → EWF it i →
    i ≤ kF → entsI it ((i : Int) - 1) ≤ e →
    ∃ i2 it2 kF2, searchWalk it e i cnt = (i2, it2) ∧
      i ≤ i2 ∧ i2 ≤ it.elems.size ∧ ResolveOnly it it2 ∧
      FWF it2 kF2 ∧ EWF it2 (min (i2 + 1) it.elems.size) ∧
      min (i2 + 1) it.elems.size ≤ kF2 ∧
      entsI it ((i2 : Int) - 1) ≤ e ∧
      (i2 < it.elems.size → e < ents it i2) := by
  intro cnt
  induction cnt with
  | zero =>
    intro it i kF hsz hs hB hF hE hik hprev
    refine ⟨i, it, kF, rfl, le_rfl, by omega, resolveOnly_rfl it, hF, ?_, ?_,
      hprev, by omega⟩
    · rw [show min (i + 1) it.elems.size = i from by omega]
      exact hE
    · rw [show min (i + 1) it.elems.size = i from by omega]
      exact hik
  | succ cnt ih =>
    intro it i kF hsz hs hB hF hE hik hprev
    have hiN : i < it.elems.size := by omega
    obtain ⟨itc, hval, hFc, hEc, hroc, _⟩ :=
      get_file_cumentries_spec it kF i i hs hB hF hE hik hiN
    have hsizec : itc.elems.size = it.elems.size := by rw [hroc.1]
    rw [show max i (i + 1) = i + 1 from by omega] at hEc
    have hstep : searchWalk it e i (cnt + 1) =
        (if e ≥ ents it i then searchWalk itc e (i + 1) cnt else (i, itc)) := by
      conv_lhs => rw [searchWalk]
      rw [hval]
    rw [hstep]
    by_cases hcond : e ≥ ents it i
    · rw [if_pos hcond]
      obtain ⟨i2, it2, kF2, hval2, hi2a, hi2b, hro2, hF2, hE2, hkk, hlow,
          hhigh⟩ :=
        ih itc (i + 1) (max kF (i + 1)) (by rw [hsizec]; omega)
          (selMat_stable hroc hs) (bounds_stable hroc hB) hFc hEc
          (le_max_right _ _)
          (by rw [entsI_pred_succ, ents_stable hroc]; exact hcond)
      rw [hsizec] at hi2b hE2 hkk hhigh
      rw [entsI_stable hroc] at hlow
      rw [ents_stable hroc] at hhigh
      exact ⟨i2, it2, kF2, hval2, by omega, hi2b,
        resolveOnly_trans hroc hro2, hF2, hE2, hkk, hlow, hhigh⟩
    · rw [if_neg hcond]
      push_neg at hcond
      refine ⟨i, itc, max kF (i + 1), rfl, le_rfl, by omega, hroc, hFc, ?_,
        ?_, hprev, fun _ => hcond⟩
      · rw [show min (i + 1) it.elems.size = i + 1 from by omega]
        exact hEc
      · rw [show min (i + 1) it.elems.size = i + 1 from by omega]
        exact le_max_right _ _

theorem searchPhase_spec (it : It) (kF kE : Nat) (e : Int) (hs : SelMat it)
    (hB : Bounds it) (hF : FWF it kF) (hE : EWF it kE) (hke : kE ≤ kF)
    (h0 : 0 ≤ e) (heQ : e < QMAX) :
    ∃ i2 it2 kF2 kE2,
      (if ssRight it.entry_map e < it.elems.size ∧
          it.entry_map.getD (ssRight it.entry_map e) 0 = QMAX then
        searchWalk it e (ssRight it.entry_map e)
          (it.elems.size - ssRight it.entry_map e)
      else (ssRight it.entry_map e, it)) = (i2, it2) ∧
      i2 ≤ it.elems.size ∧ ResolveOnly it it2 ∧
      FWF it2 kF2 ∧ EWF it2 kE2 ∧ kE2 ≤ kF2 ∧ i2 ≤ kE2 ∧
      entsI it ((i2 : Int) - 1) ≤ e ∧
      (i2 < it.elems.size → e < ents it i2 ∧ i2 < kE2) := by
  obtain ⟨hle, hbelow, habove⟩ :=
    ssRight_char it kE hE hB hs hB.rc_nonneg e heQ
  set i0 := ssRight it.entry_map e with hi0
  have hprev : entsI it ((i0 : Int) - 1) ≤ e := by
    rcases Nat.eq_zero_or_pos i0 with h | h
    · rw [h]
      simp only [Nat.cast_zero]
      rw [entsI_pred_zero]
      exact h0
    · have h1 : i0 = (i0 - 1) + 1 := by omega
      rw [h1, entsI_pred_succ]
      exact hbelow (i0 - 1) (by omega)
  by_cases hcond : i0 < it.elems.size ∧ it.entry_map.getD i0 0 = QMAX
  · rw [if_pos hcond]
    have hieq : i0 = kE := by
      rcases Nat.lt_or_ge i0 kE with h | h
      · exfalso
        have hres := hE.res i0 h
        have := hB.ents_lt i0 hcond.1
        rw [hcond.2] at hres
        omega
      · omega
    obtain ⟨i2, it2, kF2, hval, hi2a, hi2b, hro, hF2, hE2, hkk, hlow,
        hhigh⟩ :=
      searchWalk_spec e (it.elems.size - i0) it i0 kF
        (by have := hE.hk; omega) hs hB hF (by rw [hieq]; exact hE)
        (by omega) hprev
    refine ⟨i2, it2, kF2, min (i2 + 1) it.elems.size, hval, hi2b, hro, hF2,
      hE2, hkk, by omega, hlow, fun hlt => ⟨hhigh hlt, by omega⟩⟩
  · rw [if_neg hcond]
    rcases Nat.lt_or_ge i0 it.elems.size with hlt | hge
    · have hik : i0 < kE := by
        rcases Nat.lt_or_ge i0 kE with h | h
        · exact h
        · exact absurd ⟨hlt, hE.unres i0 h hlt⟩ hcond
      exact ⟨i0, it, kF, kE, rfl, by have := hE.hk; omega,
        resolveOnly_rfl it, hF, hE, hke, by omega, hprev,
        fun _ => ⟨habove hik, hik⟩⟩
    · exact ⟨i0, it, kF, kE, rfl, by have := hE.hk; omega,
        resolveOnly_rfl it, hF, hE, hke, by omega, hprev,
        fun h => absurd h (by omega)⟩

/-! ### The buffer-filling loop of `read` -/

theorem selMat_transfer {a b : It}
    (hl : b.local_entry_list = a.local_entry_list) (he : b.elems = a.elems)
    (hs : SelMat a) : SelMat b := by
  unfold SelMat at hs ⊢
  rw [hl, he]
  exact hs

theorem readOnlyBuf_rfl (a : It) : ReadOnlyBuf a a :=
  ⟨Eq.refl _, Eq.refl _, Eq.refl _, Eq.refl _, Eq.refl _, Eq.refl _,
   Eq.refl _, Eq.refl _, Eq.refl _, Eq.refl _, Eq.refl _, Eq.refl _,
   Eq.refl _, Eq.refl _⟩

theorem readOnlyBuf_trans {a b c : It} (h1 : ReadOnlyBuf a b)
    (h2 : ReadOnlyBuf b c) : ReadOnlyBuf a c := by
  obtain ⟨x1, x2, x3, x4, x5, x6, x7, x8, x9, x10, x11, x12, x13, x14⟩ := h1
  obtain ⟨y1, y2, y3, y4, y5, y6, y7, y8, y9, y10, y11, y12, y13, y14⟩ := h2
  exact ⟨y1.trans x1, y2.trans x2, y3.trans x3, y4.trans x4, y5.trans x5,
    y6.trans x6, y7.trans x7, y8.trans x8, y9.trans x9, y10.trans x10,
    y11.trans x11, y12.trans x12, y13.trans x13, y14.trans x14⟩

theorem rcAt_stable_rob {a b : It} (h : ReadOnlyBuf a b) : b.rcAt = a.rcAt := by
  funext i
  unfold It.rcAt
  rw [h.1, h.2.1]

theorem get_file_entrylist_selmat (it : It) (i : Nat) (hs : SelMat it)
    (hi : i < it.elems.size) :
    get_file_entrylist it i = (elistAt it i, it) :=
  entrylistA_selmat get_file_cumentries it i hs hi

theorem npIndex_some (a : Array Int) (li : Int) (h0 : 0 ≤ li)
    (hlt : li < (a.size : Int)) : npIndex a li = some (a.getD li.toNat 0) := by
  unfold npIndex
  rw [if_neg (by omega), if_pos hlt]

/-- Modelled content of a contiguous external read: exactly the `take`/`drop`
window of the file rows. -/
theorem read_rows_content (rcv li budget : Int) (elemId : Nat) (h0 : 0 ≤ li) :
    read_rows rcv elemId li budget none =
      (((List.range rcv.toNat).map
          (fun r => ((elemId, Int.ofNat r) : Row))).drop li.toNat).take
        budget.toNat := by
  unfold read_rows
  apply List.ext_getElem?
  intro k
  simp only [List.getElem?_map, List.getElem?_take, List.getElem?_drop]
  by_cases hin : k < (min budget (rcv - li)).toNat
  · rw [List.getElem?_range hin, if_pos (by omega : k < budget.toNat),
      List.getElem?_range (by omega : li.toNat + k < rcv.toNat)]
    simp only [Option.map_some', Int.ofNat_eq_coe]
    have hv : li + ((k : Nat) : Int) = (((li.toNat + k : Nat)) : Int) := by
      omega
    rw [hv]
  · have hnone : (List.range (min budget (rcv - li)).toNat)[k]? =
        (none : Option Nat) :=
      List.getElem?_eq_none (by rw [List.length_range]; omega)
    rw [hnone]
    by_cases hk : k < budget.toNat
    · have hnone2 : (List.range rcv.toNat)[li.toNat + k]? =
          (none : Option Nat) :=
        List.getElem?_eq_none (by rw [List.length_range]; omega)
      rw [if_pos hk, hnone2]
      simp
    · rw [if_neg hk]
      simp

theorem rowsFrom_append (it : It) (a m m' : Nat) :
    rowsFrom it a m ++ rowsFrom it (a + m) m' = rowsFrom it a (m + m') := by
  induction m generalizing a with
  | zero => simp [rowsFrom]
  | succ m ih =>
    rw [rowsFrom, List.append_assoc, Nat.succ_add, rowsFrom]
    have := ih (a + 1)
    rw [show a + 1 + m = a + (m + 1) from by omega] at this
    rw [this]

theorem rowsFrom_stable {a b : It} (he : b.elems = a.elems) (hr : b.rc = a.rc) :
    rowsFrom b = rowsFrom a := by
  have hrc : b.rcAt = a.rcAt := by
    funext i
    unfold It.rcAt
    rw [he, hr]
  funext s n
  induction n generalizing s with
  | zero => rfl
  | succ n ih => rw [rowsFrom, rowsFrom, he, hrc, ih]

theorem rowsFrom_length (it : It) (m : Nat)
    (hnn : ∀ j, j < m → 0 ≤ it.rcAt j) :
    (rowsFrom it 0 m).length = (cumsI it.rcAt ((m : Int) - 1)).toNat := by
  induction m with
  | zero => simp [rowsFrom, cumsI]
  | succ m ih =>
    have happ := rowsFrom_append it 0 m 1
    rw [Nat.zero_add] at happ
    rw [← happ, List.length_append, ih (fun j hj => hnn j (by omega))]
    have hr1 : (rowsFrom it m 1).length = (it.rcAt m).toNat := by
      rw [rowsFrom, rowsFrom]
      simp
    rw [hr1, cumsI_pred_succ]
    have hadd := cums_pred_add it.rcAt m
    have h0 : 0 ≤ cumsI it.rcAt ((m : Int) - 1) := by
      unfold cumsI
      split
      · exact le_rfl
      · apply cums_nonneg
        intro j hj
        apply hnn
        omega
    have h1 : 0 ≤ it.rcAt m := hnn m (by omega)
    omega

theorem get_file_entrylist_none (it : It) (i : Nat)
    (hl : it.local_entry_list = none) :
    get_file_entrylist it i = (none, it) := by
  unfold get_file_entrylist get_file_entrylistA
  rw [hl]

theorem elistAt_none (it : It) (i : Nat) (hl : it.local_entry_list = none) :
    elistAt it i = none := by
  unfold elistAt
  rw [hl]

theorem readLoop_step (it : It) (n li : Int) (i cnt : Nat)
    (hpe : get_file_entrylist it i = (elistAt it i, it)) :
    readLoop it n i li (cnt + 1) =
      (if (it.lh5_buffer.size : Int) < n then
        match elistAt it i with
        | some lidx =>
          if lidx.size = 0 then readLoop it n (i + 1) 0 cnt
          else
            match npIndex lidx li with
            | none => (some "IndexError", it)
            | some iloc =>
              readLoop (pushRows it (read_rows (it.rcAt i) (it.elems.getD i 0)
                iloc (n - (it.lh5_buffer.size : Int)) (some lidx)))
                n (i + 1) 0 cnt
        | none =>
          readLoop (pushRows it (read_rows (it.rcAt i) (it.elems.getD i 0) li
            (n - (it.lh5_buffer.size : Int)) none)) n (i + 1) 0 cnt
      else (none, it)) := by
  conv_lhs => rw [readLoop]
  rw [hpe]

theorem pushRows_buf (it : It) (rows : List Row) :
    (pushRows it rows).lh5_buffer.toList = it.lh5_buffer.toList ++ rows := by
  simp [pushRows]

theorem pushRows_size (it : It) (rows : List Row) :
    (pushRows it rows).lh5_buffer.size = it.lh5_buffer.size + rows.length := by
  simp [pushRows]

theorem pushRows_rowsFrom (it : It) (rows : List Row) :
    rowsFrom (pushRows it rows) = rowsFrom it :=
  rowsFrom_stable (Eq.refl _) (Eq.refl _)

theorem take_drop_append (A B : List Row) (d m : Nat) (hd : d ≤ A.length) :
    ((A ++ B).drop d).take m =
      (A.drop d).take m ++ B.take (m - ((A.drop d).take m).length) := by
  rw [List.drop_append_eq_append_drop, Nat.sub_eq_zero_of_le hd,
    List.drop_zero, List.take_append_eq_append_take]
  congr 2
  rw [List.length_take, List.length_drop]
  omega

theorem pushRows_rob (it : It) (rows : List Row) :
    ReadOnlyBuf it (pushRows it rows) :=
  ⟨Eq.refl _, Eq.refl _, Eq.refl _, Eq.refl _, Eq.refl _, Eq.refl _,
   Eq.refl _, Eq.refl _, Eq.refl _, Eq.refl _, Eq.refl _, Eq.refl _,
   Eq.refl _, Eq.refl _⟩

theorem readLoop_noerr : ∀ (cnt : Nat) (it : It) (n li : Int) (i : Nat),
    SelMat it → i + cnt = it.elems.size →
    (li = 0 ∨ (0 ≤ li ∧
      ∀ ev, elistAt it i = some ev → li < (ev.size : Int))) →
    ∃ it2, readLoop it n i li cnt = (none, it2) ∧ ReadOnlyBuf it it2 := by
  intro cnt
  induction cnt with
  | zero =>
    intro it n li i _ _ _
    exact ⟨it, rfl, readOnlyBuf_rfl it⟩
  | succ cnt ih =>
    intro it n li i hs hsz hli
    have hiN : i < it.elems.size := by omega
    rw [readLoop_step it n li i cnt (get_file_entrylist_selmat it i hs hiN)]
    by_cases hbuf : (it.lh5_buffer.size : Int) < n
    · rw [if_pos hbuf]
      cases hel : elistAt it i with
      | none =>
        dsimp only
        obtain ⟨it2, hv, hro⟩ := ih
          (pushRows it (read_rows (it.rcAt i) (it.elems.getD i 0) li
            (n - (it.lh5_buffer.size : Int)) none))
          n 0 (i + 1) (selMat_transfer rfl rfl hs)
          (by show i + 1 + cnt = it.elems.size; omega) (Or.inl rfl)
        exact ⟨it2, hv, readOnlyBuf_trans (pushRows_rob it _) hro⟩
      | some lidx =>
        dsimp only
        by_cases hz : lidx.size = 0
        · rw [if_pos hz]
          obtain ⟨it2, hv, hro⟩ := ih it n 0 (i + 1) hs
            (by omega) (Or.inl rfl)
          exact ⟨it2, hv, hro⟩
        · rw [if_neg hz]
          have hnp : npIndex lidx li = some (lidx.getD li.toNat 0) := by
            rcases hli with h0 | ⟨hge, hlt⟩
            · subst h0
              exact npIndex_some lidx 0 le_rfl (by
                have : 0 < lidx.size := Nat.pos_of_ne_zero hz
                omega)
            · exact npIndex_some lidx li hge (hlt lidx hel)
          rw [hnp]
          dsimp only
          obtain ⟨it2, hv, hro⟩ := ih
            (pushRows it (read_rows (it.rcAt i) (it.elems.getD i 0)
              (lidx.getD li.toNat 0)
              (n - (it.lh5_buffer.size : Int)) (some lidx)))
            n 0 (i + 1) (selMat_transfer rfl rfl hs)
            (by show i + 1 + cnt = it.elems.size; omega) (Or.inl rfl)
          exact ⟨it2, hv, readOnlyBuf_trans (pushRows_rob it _) hro⟩
    · rw [if_neg hbuf]
      exact ⟨it, rfl, readOnlyBuf_rfl it⟩

theorem readLoop_content : ∀ (cnt : Nat) (it : It) (n li : Int) (i : Nat),
    it.local_entry_list = none → i + cnt = it.elems.size → 0 ≤ li →
    (li.toNat ≤ (it.rcAt i).toNat ∨ cnt = 0) →
    (readLoop it n i li cnt).2.lh5_buffer.toList =
      it.lh5_buffer.toList ++
        ((rowsFrom it i cnt).drop li.toNat).take
          (n - (it.lh5_buffer.size : Int)).toNat := by
  intro cnt
  induction cnt with
  | zero =>
    intro it n li i _ _ _ _
    show it.lh5_buffer.toList = _
    simp [rowsFrom]
  | succ cnt ih =>
    intro it n li i hnone hsz h0 hle
    have hd : li.toNat ≤ (it.rcAt i).toNat := by
      rcases hle with h | h
      · exact h
      · omega
    rw [readLoop_step it n li i cnt
      (by rw [get_file_entrylist_none it i hnone, elistAt_none it i hnone])]
    rw [elistAt_none it i hnone]
    by_cases hbuf : (it.lh5_buffer.size : Int) < n
    · rw [if_pos hbuf]
      dsimp only
      have hih := ih (pushRows it (read_rows (it.rcAt i) (it.elems.getD i 0) li
          (n - (it.lh5_buffer.size : Int)) none)) n 0 (i + 1)
        hnone (by show i + 1 + cnt = it.elems.size; omega) le_rfl
        (Or.inl (by show (0 : Int).toNat ≤ _; simp))
      rw [hih, pushRows_buf, pushRows_rowsFrom, pushRows_size]
      rw [read_rows_content (it.rcAt i) li (n - (it.lh5_buffer.size : Int))
        (it.elems.getD i 0) h0]
      have hd' : li.toNat ≤ ((List.range (it.rcAt i).toNat).map
          (fun r => ((it.elems.getD i 0, Int.ofNat r) : Row))).length := by
        rw [List.length_map, List.length_range]
        exact hd
      conv_rhs => rw [rowsFrom]
      rw [take_drop_append _ _ _ _ hd']
      rw [show ((0 : Int).toNat) = 0 from rfl, List.drop_zero,
        List.append_assoc]
      congr 3
      omega
    · rw [if_neg hbuf]
      have hz : (n - (it.lh5_buffer.size : Int)).toNat = 0 := by omega
      rw [hz]
      simp

/-! ### The `read` body: past-the-end and main-path characterizations -/

theorem entsI_coe_pred (it : It) (m : Nat) (hm : 1 ≤ m) :
    entsI it ((m : Int) - 1) = ents it (m - 1) := by
  have h1 : m = (m - 1) + 1 := by omega
  rw [h1, entsI_pred_succ, Nat.add_sub_cancel]

theorem entsI_eq_cumsI (it : It) (hl : it.local_entry_list = none) (x : Int) :
    entsI it x = cumsI it.rcAt x := by
  unfold entsI cumsI
  rw [ents_eq_cums it hl]

theorem cument_memo_pred (it : It) (kE i : Nat) (hE : EWF it kE)
    (hB : Bounds it) (hik : i ≤ kE) :
    get_file_cumentries it ((i : Int) - 1) =
      (entsI it ((i : Int) - 1), it) := by
  rcases Nat.eq_zero_or_pos i with h | h
  · subst h
    simp only [Nat.cast_zero]
    rw [get_file_cumentries_neg it (0 - 1) (by omega), entsI_pred_zero]
  · have h1 : i = (i - 1) + 1 := by omega
    rw [h1, entsI_pred_succ]
    have h2 : (((i - 1 + 1 : Nat)) : Int) - 1 = (((i - 1 : Nat)) : Int) := by
      push_cast
      ring
    rw [h2]
    exact cument_memo it kE (i - 1) hE hB (by omega)

theorem readMain_past (it : It) (kF kE : Nat) (e n : Int) (hs : SelMat it)
    (hB : Bounds it) (hF : FWF it kF) (hE : EWF it kE) (hke : kE ≤ kF)
    (h0 : 0 ≤ e) (heQ : e < QMAX)
    (hpast : entsI it ((it.elems.size : Int) - 1) ≤ e) :
    ∃ it2, readMain it e n = (.early, it2) ∧ ResolveOnly it it2 := by
  obtain ⟨i2, it2, kF2, kE2, hval, hi2N, hro, hF2, hE2, hkk, hik2, hlow,
      hhigh⟩ := searchPhase_spec it kF kE e hs hB hF hE hke h0 heQ
  have hi2 : i2 = it.elems.size := by
    by_contra hne
    have hlt : i2 < it.elems.size := by omega
    obtain ⟨hgt, _⟩ := hhigh hlt
    have hmono : ents it i2 ≤ ents it (it.elems.size - 1) :=
      ents_mono it hs hB.rc_nonneg i2 (it.elems.size - 1) (by omega)
        (by omega)
    rw [entsI_coe_pred it it.elems.size (by omega)] at hpast
    omega
  refine ⟨it2, ?_, hro⟩
  simp only [readMain]
  rw [hval]
  dsimp only
  rw [if_pos hi2]

theorem readMain_mainNoSel (it : It) (kF kE : Nat) (e n : Int)
    (hl : it.local_entry_list = none) (hB : Bounds it) (hF : FWF it kF)
    (hE : EWF it kE) (hke : kE ≤ kF) (h0 : 0 ≤ e)
    (hN : 1 ≤ it.elems.size)
    (hhi : e < ents it (it.elems.size - 1)) :
    ∃ it' kF2 kE2,
      readMain it e n = (.main, it') ∧
      it'.current_i_entry = e ∧
      SameIter it it' ∧
      FWF it' kF2 ∧ EWF it' kE2 ∧ kE2 ≤ kF2 ∧
      it'.next_i_entry = it.next_i_entry ∧
      it'.lh5_buffer.toList = it.lh5_buffer.toList ++
        ((rowsFrom it 0 it.elems.size).drop e.toNat).take
          (n - (it.lh5_buffer.size : Int)).toNat := by
  have heQ : e < QMAX := lt_trans hhi (hB.ents_lt _ (by omega))
  obtain ⟨i2, it2, kF2, kE2, hval, hi2N, hro, hF2, hE2, hkk, hik2, hlow,
      hhigh⟩ :=
    searchPhase_spec it kF kE e (Or.inl hl) hB hF hE hke h0 heQ
  have hEstab : entsI it2 = entsI it := entsI_stable hro
  have hi2lt : i2 < it.elems.size := by
    by_contra hge
    have hi2 : i2 = it.elems.size := by omega
    rw [hi2, entsI_coe_pred it it.elems.size hN] at hlow
    have hmono : ents it (it.elems.size - 1) ≤ e := hlow
    omega
  obtain ⟨hgt, hikE⟩ := hhigh hi2lt
  have hB2 : Bounds it2 := bounds_stable hro hB
  have hl2 : it2.local_entry_list = none := by
    rw [hro.2.2.1]
    exact hl
  have hrcstab : it2.rcAt = it.rcAt := rcAt_stable hro
  have hpc := cument_memo_pred it2 kE2 i2 hE2 hB2 (by omega)
  have hcums : ents it = cums it.rcAt := ents_eq_cums it hl
  have hEc : entsI it ((i2 : Int) - 1) = cumsI it.rcAt ((i2 : Int) - 1) :=
    entsI_eq_cumsI it hl _
  have hpred := cums_pred_add it.rcAt i2
  have hgt' : e < cums it.rcAt i2 := by
    rw [← hcums]
    exact hgt
  have hrcpos : 0 ≤ it.rcAt i2 := hB.rc_nonneg i2 hi2lt
  have hli0 : 0 ≤ e - entsI it2 ((i2 : Int) - 1) := by
    rw [hEstab]
    omega
  have hlilt : e - entsI it2 ((i2 : Int) - 1) < it.rcAt i2 := by
    rw [hEstab, hEc]
    omega
  obtain ⟨it3, hloop, hrob⟩ := readLoop_noerr (it.elems.size - i2) it2 n
      (e - entsI it2 ((i2 : Int) - 1)) i2 (Or.inl hl2)
      (by rw [hro.1]; omega)
      (Or.inr ⟨hli0, fun ev hev => by
        rw [elistAt_none it2 i2 hl2] at hev
        exact Option.noConfusion hev⟩)
  have hcontent := readLoop_content (it.elems.size - i2) it2 n
      (e - entsI it2 ((i2 : Int) - 1)) i2 hl2 (by rw [hro.1]; omega) hli0
      (Or.inl (by rw [hrcstab]; omega))
  rw [hloop] at hcontent
  have hmain : readMain it e n =
      (.main, { it3 with current_i_entry := e }) := by
    simp only [readMain]
    rw [hval]
    dsimp only
    rw [if_neg (by omega : ¬ i2 = it.elems.size)]
    rw [hpc]
    dsimp only
    rw [hloop]
  have hsplit : rowsFrom it 0 it.elems.size =
      rowsFrom it 0 i2 ++ rowsFrom it i2 (it.elems.size - i2) := by
    have h := rowsFrom_append it 0 i2 (it.elems.size - i2)
    rw [Nat.zero_add] at h
    rw [show i2 + (it.elems.size - i2) = it.elems.size from by omega] at h
    exact h.symm
  have hlen0 : (rowsFrom it 0 i2).length =
      (cumsI it.rcAt ((i2 : Int) - 1)).toNat :=
    rowsFrom_length it i2 (fun j hj => hB.rc_nonneg j (by omega))
  have hc0 : 0 ≤ cumsI it.rcAt ((i2 : Int) - 1) := by
    unfold cumsI
    split
    · exact le_rfl
    · refine cums_nonneg _ _ (fun j hj => hB.rc_nonneg j ?_)
      omega
  have hlowc : cumsI it.rcAt ((i2 : Int) - 1) ≤ e := by
    rw [← hEc]
    exact hlow
  have hdrop : (rowsFrom it 0 it.elems.size).drop e.toNat =
      (rowsFrom it i2 (it.elems.size - i2)).drop
        (e - entsI it2 ((i2 : Int) - 1)).toNat := by
    have hle : (rowsFrom it 0 i2).length ≤ e.toNat := by
      rw [hlen0]
      omega
    rw [hsplit, List.drop_append_eq_append_drop,
      List.drop_eq_nil_of_le hle, List.nil_append, hlen0, hEstab]
    congr 1
    rw [hEc]
    omega
  obtain ⟨q1, q2, q3, q4, q5, q6, q7, q8, q9, q10, q11, q12⟩ := hro
  obtain ⟨b1, b2, b3, b4, b5, b6, b7, b8, b9, b10, b11, b12, b13, b14⟩ := hrob
  refine ⟨{ it3 with current_i_entry := e }, kF2, kE2, hmain, rfl,
    ⟨?_, ?_, ?_, ?_, ?_, ?_, ?_, ?_⟩,
    FWF_transfer (FWF_transfer hF2 b3 b1 b2) (Eq.refl _) (Eq.refl _)
      (Eq.refl _),
    EWF_transfer (EWF_transfer hE2 b4 b1 b2 b5) (Eq.refl _) (Eq.refl _)
      (Eq.refl _) (Eq.refl _),
    hkk, ?_, ?_⟩
  · show it3.elems = it.elems
    rw [b1, q1]
  · show it3.rc = it.rc
    rw [b2, q2]
  · show it3.local_entry_list = it.local_entry_list
    rw [b5, q3]
  · show it3.global_entry_list = it.global_entry_list
    rw [b6, q4]
  · show it3.buffer_len = it.buffer_len
    rw [b7, q5]
  · show it3.buf_cols = it.buf_cols
    rw [b8, q6]
  · show it3.i_start = it.i_start
    rw [b9, q8]
  · show it3.n_entries = it.n_entries
    rw [b10, q9]
  · show it3.next_i_entry = it.next_i_entry
    rw [b12, q11]
  · show it3.lh5_buffer.toList = _
    rw [hcontent, q7, show rowsFrom it2 = rowsFrom it from
      rowsFrom_stable q1 q2, hdrop]

/-- C6 (evaluation at the failing inputs): the claim says out-of-range
selection entries are warned about and dropped, so that only entries
strictly below the file row count are counted.  The code instead: (a) for a
single file of 5 rows with entry list `[0, 5]`, it warns but still counts 2
entries — `searchsorted(elist, fcl, "right")` keeps the entry equal to the
row count instead of dropping it; (b) for a second file of 5 rows with entry
list `[7]`, it neither warns nor drops, because the entry is compared
against the cumulative total 10 rather than the file row count 5.
Resolution indeed does not fail in either case. -/
theorem C6_out_of_range_eval :
    (lenIt itC6a).1 = 2 ∧ (lenIt itC6a).2.warnings = 1 ∧
    (lenIt itC6b).1 = 1 ∧ (lenIt itC6b).2.warnings = 0 := by
  decide

/-- C2 (evaluation at the failing input): partitioning the fully resolved
3-element iterator (rows 2, 3, 4; `file_map = entry_map = [2, 5, 9]`) into 2
workers slices `[0, 1)` and `[1, 3)`.  The second shard starts at the
nonzero dataset-element index 1, so the claim requires its arrays to be
rebased to `[3, 7]`, but the source guard `i_files[i_worker] - 1 > 0` skips
the subtraction for a shard starting at index 1 and both arrays stay
`[5, 9]`.  With a per-file selection list present, `_generate_workers`
raises `AttributeError` (it calls the nonexistent `get_file_entries`), so
the claimed slicing of local selection lists never happens. -/
theorem C2_worker_rebase_eval :
    itC1.file_map = #[2, 5, 9] ∧ itC1.entry_map = #[2, 5, 9] ∧
    ((generate_workers itC1 2).toOption.getD []).map
        (fun w => (w.elems, w.file_map, w.entry_map)) =
      [(#[0], #[2], #[2]), (#[1, 2], #[5, 9], #[5, 9])] ∧
    exceptErr? (generate_workers itC6a 2) =
      some "AttributeError: LH5Iterator object has no attribute get_file_entries" := by
  decide

theorem bounds_transfer {a b : It} (he : b.elems = a.elems)
    (hr : b.rc = a.rc) (hl : b.local_entry_list = a.local_entry_list)
    (hB : Bounds a) : Bounds b := by
  have hrc : b.rcAt = a.rcAt := by
    funext i
    unfold It.rcAt
    rw [he, hr]
  have hents : ents b = ents a := by
    unfold ents
    rw [hl, hrc]
  refine ⟨?_, ?_, ?_⟩
  · rw [hrc, he]
    exact hB.rc_nonneg
  · rw [hrc, he]
    exact hB.cums_lt
  · rw [hents, he]
    exact hB.ents_lt

theorem entsI_transfer {a b : It} (he : b.elems = a.elems)
    (hr : b.rc = a.rc) (hl : b.local_entry_list = a.local_entry_list) :
    entsI b = entsI a := by
  have hrc : b.rcAt = a.rcAt := by
    funext i
    unfold It.rcAt
    rw [he, hr]
  have hents : ents b = ents a := by
    unfold ents
    rw [hl, hrc]
  funext x
  unfold entsI
  rw [hents]

/-- C8: the argument contract of `read`.  (1) `n` above the buffer capacity
raises the `ValueError` (with the buffer already truncated, see C10);
(2) `n = 0` returns the emptied buffer immediately, performing no external
data read and leaving the cumulative maps untouched; (3) a read starting at
or past the end of the logical entry space returns through the early branch
with an empty buffer — shorter than the requested `n` — and no error and no
external data read. -/
theorem C8_read_contract (it : It) (e n : Int) (kF kE : Nat)
    (hs : SelMat it) (hB : Bounds it) (hF : FWF it kF) (hE : EWF it kE)
    (hke : kE ≤ kF) (hbl : 0 ≤ it.buffer_len) (h0 : 0 ≤ e)
    (heQ : e < QMAX) :
    (n > it.buffer_len →
      coreRead it e (some n) =
        (.rerror "n_entries cannot be larger than buffer_len",
         { it with lh5_buffer := #[] })) ∧
    (coreRead it e (some 0) = (.early, { it with lh5_buffer := #[] }) ∧
      ({ it with lh5_buffer := (#[] : Array Row) }).readCalls =
        it.readCalls) ∧
    (entsI it ((it.elems.size : Int) - 1) ≤ e → 0 < n →
      n ≤ it.buffer_len →
      ∃ it2, coreRead it e (some n) = (.early, it2) ∧
        it2.lh5_buffer.size = 0 ∧ (it2.lh5_buffer.size : Int) < n ∧
        it2.readCalls = it.readCalls) := by
  refine ⟨?_, ⟨?_, Eq.refl _⟩, ?_⟩
  · intro hgt
    simp only [coreRead]
    rw [if_neg (by omega : ¬ n = 0), if_pos hgt]
  · simp only [coreRead]
    simp
  · intro hpast hn0 hnle
    simp only [coreRead]
    rw [if_neg (by omega : ¬ n = 0), if_neg (by omega : ¬ n > it.buffer_len)]
    have he0 : ({ it with lh5_buffer := (#[] : Array Row) }).elems =
        it.elems := Eq.refl _
    have hr0 : ({ it with lh5_buffer := (#[] : Array Row) }).rc =
        it.rc := Eq.refl _
    have hf0 : ({ it with lh5_buffer := (#[] : Array Row) }).file_map =
        it.file_map := Eq.refl _
    have hg0 : ({ it with lh5_buffer := (#[] : Array Row) }).entry_map =
        it.entry_map := Eq.refl _
    have hlz : ({ it with
        lh5_buffer := (#[] : Array Row) }).local_entry_list =
        it.local_entry_list := Eq.refl _
    have hs0 : SelMat { it with lh5_buffer := (#[] : Array Row) } :=
      selMat_transfer hlz he0 hs
    have hB0 : Bounds { it with lh5_buffer := (#[] : Array Row) } :=
      bounds_transfer he0 hr0 hlz hB
    have hF0 : FWF { it with lh5_buffer := (#[] : Array Row) } kF :=
      FWF_transfer hF hf0 he0 hr0
    have hE0 : EWF { it with lh5_buffer := (#[] : Array Row) } kE :=
      EWF_transfer hE hg0 he0 hr0 hlz
    have hEt : entsI { it with lh5_buffer := (#[] : Array Row) } =
        entsI it :=
      entsI_transfer he0 hr0 hlz
    obtain ⟨it2, hval, hro⟩ :=
      readMain_past { it with lh5_buffer := (#[] : Array Row) } kF kE e n
        hs0 hB0 hF0 hE0 hke h0 heQ (by rw [hEt]; exact hpast)
    obtain ⟨r1, r2, r3, r4, r5, r6, r7, r8, r9, r10, r11, r12⟩ := hro
    have hsz : it2.lh5_buffer.size = 0 := by
      rw [r7]
      rfl
    exact ⟨it2, hval, hsz, by rw [hsz]; omega, r12⟩

/-- Witness for C8 at the two-file iterator with rows 5 and 7 (total 12
entries, capacity 4): `n = 7` exceeds the capacity and errors, `n = 0`
returns the empty buffer with no external read, and a read at the
past-the-end entry 12 with `n = 3` returns early with an empty buffer. -/
theorem C8_read_contract_witness :
    coreRead itC4w 12 (some 7) =
      (.rerror "n_entries cannot be larger than buffer_len",
       { itC4w with lh5_buffer := #[] }) ∧
    coreRead itC4w 12 (some 0) = (.early, { itC4w with lh5_buffer := #[] }) ∧
    ∃ it2, coreRead itC4w 12 (some 3) = (.early, it2) ∧
      it2.lh5_buffer.size = 0 ∧ ((it2.lh5_buffer.size : Int) < 3) ∧
      it2.readCalls = itC4w.readCalls := by
  have h7 := C8_read_contract itC4w 12 7 1 0 (Or.inl (Eq.refl _))
    (initIt_bounds_noSel 2 rcC4w 4 (by omega) (by decide) (by decide))
    (initIt_FWF 2 rcC4w 4 none none (by omega))
    (initIt_EWF 2 rcC4w 4 none none) (by omega) (by decide) (by decide)
    (by decide)
  have h3 := C8_read_contract itC4w 12 3 1 0 (Or.inl (Eq.refl _))
    (initIt_bounds_noSel 2 rcC4w 4 (by omega) (by decide) (by decide))
    (initIt_FWF 2 rcC4w 4 none none (by omega))
    (initIt_EWF 2 rcC4w 4 none none) (by omega) (by decide) (by decide)
    (by decide)
  exact ⟨h7.1 (by decide), h3.2.1.1, h3.2.2 (by decide) (by decide)
    (by decide)⟩

theorem coreRead_none_main (c : It) (e : Int) (kF kE : Nat)
    (hl : c.local_entry_list = none) (hB : Bounds c) (hF : FWF c kF)
    (hE : EWF c kE) (hke : kE ≤ kF) (h0 : 0 ≤ e)
    (hN : 1 ≤ c.elems.size) (hhi : e < ents c (c.elems.size - 1)) :
    ∃ it' kF2 kE2, coreRead c e none = (.main, it') ∧
      it'.current_i_entry = e ∧ SameIter c it' ∧
      FWF it' kF2 ∧ EWF it' kE2 ∧ kE2 ≤ kF2 ∧
      it'.next_i_entry = c.next_i_entry ∧
      it'.lh5_buffer.toList =
        ((rowsFrom c 0 c.elems.size).drop e.toNat).take
          c.buffer_len.toNat := by
  have he0 : ({ c with lh5_buffer := (#[] : Array Row) }).elems =
      c.elems := Eq.refl _
  have hr0 : ({ c with lh5_buffer := (#[] : Array Row) }).rc =
      c.rc := Eq.refl _
  have hf0 : ({ c with lh5_buffer := (#[] : Array Row) }).file_map =
      c.file_map := Eq.refl _
  have hg0 : ({ c with lh5_buffer := (#[] : Array Row) }).entry_map =
      c.entry_map := Eq.refl _
  have hlz : ({ c with
      lh5_buffer := (#[] : Array Row) }).local_entry_list =
      c.local_entry_list := Eq.refl _
  have hB0 : Bounds { c with lh5_buffer := (#[] : Array Row) } :=
    bounds_transfer he0 hr0 hlz hB
  have hF0 : FWF { c with lh5_buffer := (#[] : Array Row) } kF :=
    FWF_transfer hF hf0 he0 hr0
  have hE0 : EWF { c with lh5_buffer := (#[] : Array Row) } kE :=
    EWF_transfer hE hg0 he0 hr0 hlz
  have hrc0 : ({ c with lh5_buffer := (#[] : Array Row) }).rcAt =
      c.rcAt := by
    funext i
    unfold It.rcAt
    rw [he0, hr0]
  have hents0 : ents { c with lh5_buffer := (#[] : Array Row) } =
      ents c := by
    unfold ents
    rw [hlz, hrc0, hl]
  obtain ⟨it', kF2, kE2, hmain, hcur, hsame, hFn, hEn, hkn, hnext, hcont⟩ :=
    readMain_mainNoSel { c with lh5_buffer := (#[] : Array Row) } kF kE e
      (({ c with lh5_buffer := (#[] : Array Row) }).buffer_len)
      (by rw [hlz]; exact hl) hB0 hF0 hE0 hke h0 hN
      (by rw [hents0]; exact hhi)
  have hcr : coreRead c e none = (.main, it') := by
    simp only [coreRead]
    exact hmain
  have hctn : it'.lh5_buffer.toList =
      ((rowsFrom c 0 c.elems.size).drop e.toNat).take
        c.buffer_len.toNat := by
    have hb0 : ({ c with
        lh5_buffer := (#[] : Array Row) }).lh5_buffer.toList =
        ([] : List Row) := Eq.refl _
    have hsz0 : (({ c with
        lh5_buffer := (#[] : Array Row) }).lh5_buffer.size : Int) =
        (((0 : Nat)) : Int) := Eq.refl _
    have hrf0 : rowsFrom { c with lh5_buffer := (#[] : Array Row) } =
        rowsFrom c := rowsFrom_stable he0 hr0
    have hes0 : ({ c with lh5_buffer := (#[] : Array Row) }).elems.size =
        c.elems.size := Eq.refl _
    have hbl0 : ({ c with lh5_buffer := (#[] : Array Row) }).buffer_len =
        c.buffer_len := Eq.refl _
    rw [hcont, hb0, List.nil_append, hrf0, hes0, hbl0, hsz0]
    congr 1
    omega
  exact ⟨it', kF2, kE2, hcr, hcur, hsame, hFn, hEn, hkn, hnext, hctn⟩

/-- C3 (counterexample): a `read` call that takes an early return skips both
the cursor update and the friend read.  With the friend's buffer holding two
rows and the primary's none, `read(1, n_entries = 0)` leaves
`current_i_entry = 0 ≠ 1` and the two buffers with different row counts
(0 versus 2) — the friend is never read. -/
theorem C3_read_cursor_friend_counterexample :
    (FIt.read itC3 1 (some 0)).2.core.current_i_entry ≠ 1 ∧
    (FIt.read itC3 1 (some 0)).2.core.lh5_buffer.size ≠
      ((FIt.read itC3 1 (some 0)).2.coreAt 1).lh5_buffer.size ∧
    ((FIt.read itC3 1 (some 0)).2.coreAt 1).lh5_buffer.size = 2 := by
  decide

theorem readMain_main_cursor (it : It) (e n : Int) (it' : It)
    (h : readMain it e n = (.main, it')) : it'.current_i_entry = e := by
  unfold readMain at h
  dsimp only at h
  repeat' split at h
  all_goals
    injection h with h1 h2
  all_goals
    cases h1
  all_goals
    rw [← h2]

theorem coreRead_main_cursor (c : It) (e : Int) (n? : Option Int) (it' : It)
    (h : coreRead c e n? = (.main, it')) : it'.current_i_entry = e := by
  unfold coreRead at h
  match n? with
  | none => exact readMain_main_cursor _ e _ it' h
  | some n =>
    dsimp only at h
    split at h
    · injection h with h1 h2
      cases h1
    · split at h
      · injection h with h1 h2
        cases h1
      · exact readMain_main_cursor _ e _ it' h

theorem fread_node_main_snd (c : It) (f : FIt) (e : Int) (n? : Option Int)
    (hm : (coreRead c e n?).1 = .main) :
    (FIt.read (.node c f) e n?).2 =
      .node (coreRead c e n?).2 ((FIt.read f e none).2) := by
  have hp : coreRead c e n? = (.main, (coreRead c e n?).2) := by
    rw [← hm]
  simp only [FIt.read]
  rw [hp]

theorem fread_selffriend_sizes (c : It) (e : Int)
    (hm : (coreRead c e none).1 = .main) :
    ((FIt.read (.node c (.leaf c)) e none).2.core).lh5_buffer.size =
      ((FIt.read (.node c (.leaf c)) e none).2.coreAt 1).lh5_buffer.size := by
  rw [fread_node_main_snd c (.leaf c) e none hm]
  rfl

theorem coreRead_some_main (c : It) (e n : Int) (kF kE : Nat)
    (hl : c.local_entry_list = none) (hB : Bounds c) (hF : FWF c kF)
    (hE : EWF c kE) (hke : kE ≤ kF) (h0 : 0 ≤ e)
    (hN : 1 ≤ c.elems.size) (hhi : e < ents c (c.elems.size - 1))
    (hn0 : n ≠ 0) (hnb : ¬ n > c.buffer_len) :
    ∃ it', coreRead c e (some n) = (.main, it') ∧
      it'.current_i_entry = e ∧ SameIter c it' := by
  have he0 : ({ c with lh5_buffer := (#[] : Array Row) }).elems =
      c.elems := Eq.refl _
  have hr0 : ({ c with lh5_buffer := (#[] : Array Row) }).rc =
      c.rc := Eq.refl _
  have hf0 : ({ c with lh5_buffer := (#[] : Array Row) }).file_map =
      c.file_map := Eq.refl _
  have hg0 : ({ c with lh5_buffer := (#[] : Array Row) }).entry_map =
      c.entry_map := Eq.refl _
  have hlz : ({ c with
      lh5_buffer := (#[] : Array Row) }).local_entry_list =
      c.local_entry_list := Eq.refl _
  have hB0 : Bounds { c with lh5_buffer := (#[] : Array Row) } :=
    bounds_transfer he0 hr0 hlz hB
  have hF0 : FWF { c with lh5_buffer := (#[] : Array Row) } kF :=
    FWF_transfer hF hf0 he0 hr0
  have hE0 : EWF { c with lh5_buffer := (#[] : Array Row) } kE :=
    EWF_transfer hE hg0 he0 hr0 hlz
  have hrc0 : ({ c with lh5_buffer := (#[] : Array Row) }).rcAt =
      c.rcAt := by
    funext i
    unfold It.rcAt
    rw [he0, hr0]
  have hents0 : ents { c with lh5_buffer := (#[] : Array Row) } =
      ents c := by
    unfold ents
    rw [hlz, hrc0, hl]
  obtain ⟨it', kF2, kE2, hmain, hcur, hsame, _, _, _, _, _⟩ :=
    readMain_mainNoSel { c with lh5_buffer := (#[] : Array Row) } kF kE e n
      (by rw [hlz]; exact hl) hB0 hF0 hE0 hke h0 hN
      (by rw [hents0]; exact hhi)
  refine ⟨it', ?_, hcur, hsame⟩
  simp only [coreRead]
  have hnb0 : ¬ n > ({ c with
      lh5_buffer := (#[] : Array Row) }).buffer_len := hnb
  rw [if_neg hn0, if_neg hnb0]
  exact hmain

/-- C3 (amended): every `read(global_entry, n)` that reaches the main path
sets `current_i_entry` to `global_entry` just before returning — whatever
the iterator's selection state and whether `n` is explicit or defaulted —
and, if a friend is attached, synchronously reads the friend at the same
`global_entry` with `n` left defaulted, whatever the attached chain; a
friend in the same state as the primary, with the primary's `n` defaulted,
then ends with the same buffer row count.  For a well-formed selection-free
iterator, a read with `0 ≤ global_entry <` total entries and `n` defaulted
or nonzero within capacity does reach the main path. -/
theorem C3_read_cursor_friend_amended (c : It) (f : FIt) (e : Int)
    (n? : Option Int) :
    (∀ it', coreRead c e n? = (.main, it') → it'.current_i_entry = e) ∧
    ((coreRead c e n?).1 = .main →
      (FIt.read (.node c f) e n?).2 =
        .node (coreRead c e n?).2 ((FIt.read f e none).2)) ∧
    ((coreRead c e none).1 = .main →
      ((FIt.read (.node c (.leaf c)) e none).2.core).lh5_buffer.size =
        ((FIt.read (.node c (.leaf c)) e none).2.coreAt
          1).lh5_buffer.size) ∧
    (∀ kF kE, c.local_entry_list = none → Bounds c → FWF c kF → EWF c kE →
      kE ≤ kF → 0 ≤ e → 1 ≤ c.elems.size → e < ents c (c.elems.size - 1) →
      (n? = none ∨ ∃ n, n? = some n ∧ n ≠ 0 ∧ ¬ n > c.buffer_len) →
      ∃ it', coreRead c e n? = (.main, it') ∧ it'.current_i_entry = e ∧
        SameIter c it') := by
  refine ⟨?_, ?_, ?_, ?_⟩
  · intro it' h
    exact coreRead_main_cursor c e n? it' h
  · intro hm
    exact fread_node_main_snd c f e n? hm
  · intro hm
    exact fread_selffriend_sizes c e hm
  · intro kF kE hl hB hF hE hke h0 hN hhi hn
    rcases hn with hn | ⟨n, hn, hn0, hnb⟩
    · subst hn
      obtain ⟨it', kF2, kE2, hcr, hcur, hsame, _, _, _, _, _⟩ :=
        coreRead_none_main c e kF kE hl hB hF hE hke h0 hN hhi
      exact ⟨it', hcr, hcur, hsame⟩
    · subst hn
      exact coreRead_some_main c e n kF kE hl hB hF hE hke h0 hN hhi hn0 hnb

/-- Witness for the amended C3: the two-file iterator (5 and 7 rows, buffer
capacity 4) befriended by a copy of itself, read at entry 3 — once with the
explicit in-capacity `n_entries = 2` and once with the default.  Both reads
reach the main path and set the cursor; the explicit-`n` read hands its
friend the defaulted `n_entries`; the defaulted read leaves both same-state
buffers with equal row counts. -/
theorem C3_read_cursor_friend_amended_witness :
    ∃ it' it'', coreRead itC4w 3 (some 2) = (.main, it') ∧
      it'.current_i_entry = 3 ∧
      coreRead itC4w 3 none = (.main, it'') ∧
      it''.current_i_entry = 3 ∧
      (FIt.read (.node itC4w (.leaf itC4w)) 3 (some 2)).2 =
        .node (coreRead itC4w 3 (some 2)).2
          ((FIt.read (.leaf itC4w) 3 none).2) ∧
      ((FIt.read (.node itC4w (.leaf itC4w)) 3
          none).2.core).lh5_buffer.size =
        ((FIt.read (.node itC4w (.leaf itC4w)) 3
          none).2.coreAt 1).lh5_buffer.size := by
  obtain ⟨h1, h2, h3, h4⟩ :=
    C3_read_cursor_friend_amended itC4w (.leaf itC4w) 3 (some 2)
  obtain ⟨n1, n2, n3, n4⟩ :=
    C3_read_cursor_friend_amended itC4w (.leaf itC4w) 3 none
  obtain ⟨it', hcr, hcur, _⟩ := h4 1 0 (Eq.refl _)
    (initIt_bounds_noSel 2 rcC4w 4 (by omega) (by decide) (by decide))
    (initIt_FWF 2 rcC4w 4 none none (by omega))
    (initIt_EWF 2 rcC4w 4 none none) (by omega) (by decide) (by decide)
    (by decide) (Or.inr ⟨2, rfl, by decide, by decide⟩)
  obtain ⟨it'', hcr2, hcur2, _⟩ := n4 1 0 (Eq.refl _)
    (initIt_bounds_noSel 2 rcC4w 4 (by omega) (by decide) (by decide))
    (initIt_FWF 2 rcC4w 4 none none (by omega))
    (initIt_EWF 2 rcC4w 4 none none) (by omega) (by decide) (by decide)
    (by decide) (Or.inl rfl)
  exact ⟨it', it'', hcr, hcur, hcr2, hcur2, h2 (by rw [hcr]),
    h3 (by rw [hcr2])⟩

/-! ### `add_friend` -/

theorem harmonize_spec (a f : It) :
    (harmonize a f).1.buffer_len = min a.buffer_len f.buffer_len ∧
    (harmonize a f).2.buffer_len = min a.buffer_len f.buffer_len ∧
    (harmonize a f).1.buf_cols = a.buf_cols ∧
    (harmonize a f).2.buf_cols = f.buf_cols ∧
    (harmonize a f).1.lh5_buffer =
      (if f.buffer_len < a.buffer_len then
        a.lh5_buffer.extract 0 f.buffer_len.toNat
      else a.lh5_buffer) ∧
    (harmonize a f).2.lh5_buffer =
      (if a.buffer_len < f.buffer_len then
        f.lh5_buffer.extract 0 a.buffer_len.toNat
      else f.lh5_buffer) := by
  unfold harmonize
  by_cases h1 : a.buffer_len < f.buffer_len
  · rw [if_pos h1]
    refine ⟨?_, ?_, Eq.refl _, Eq.refl _, ?_, ?_⟩
    · show a.buffer_len = min a.buffer_len f.buffer_len
      omega
    · show a.buffer_len = min a.buffer_len f.buffer_len
      omega
    · show a.lh5_buffer = _
      rw [if_neg (by omega : ¬ f.buffer_len < a.buffer_len)]
    · show f.lh5_buffer.extract 0 a.buffer_len.toNat = _
      rw [if_pos h1]
  · rw [if_neg h1]
    by_cases h2 : a.buffer_len > f.buffer_len
    · rw [if_pos h2]
      refine ⟨?_, ?_, Eq.refl _, Eq.refl _, ?_, ?_⟩
      · show f.buffer_len = min a.buffer_len f.buffer_len
        omega
      · show f.buffer_len = min a.buffer_len f.buffer_len
        omega
      · show a.lh5_buffer.extract 0 f.buffer_len.toNat = _
        rw [if_pos h2]
      · show f.lh5_buffer = _
        rw [if_neg h1]
    · rw [if_neg h2]
      refine ⟨?_, ?_, Eq.refl _, Eq.refl _, ?_, ?_⟩
      · show a.buffer_len = min a.buffer_len f.buffer_len
        omega
      · show f.buffer_len = min a.buffer_len f.buffer_len
        omega
      · show a.lh5_buffer = _
        rw [if_neg h2]
      · show f.lh5_buffer = _
        rw [if_neg h1]

theorem withCore_core : ∀ (f : FIt) (x : It), (f.withCore x).core = x
  | .leaf _, _ => rfl
  | .node _ _, _ => rfl

theorem withCore_len : ∀ (f : FIt) (x : It), (f.withCore x).len = f.len
  | .leaf _, _ => rfl
  | .node _ _, _ => rfl

theorem withCore_caps : ∀ (f : FIt) (x : It),
    (f.withCore x).caps = x.buffer_len :: f.caps.tail
  | .leaf _, _ => rfl
  | .node _ _, _ => rfl

theorem withCore_colsList : ∀ (f : FIt) (x : It),
    (f.withCore x).colsList = x.buf_cols :: f.colsList.tail
  | .leaf _, _ => rfl
  | .node _ _, _ => rfl

theorem colsList_head : ∀ (f : FIt),
    f.colsList = f.core.buf_cols :: f.colsList.tail
  | .leaf _ => rfl
  | .node _ _ => rfl

theorem coreAt_zero : ∀ (t : FIt), t.coreAt 0 = t.core
  | .leaf _ => rfl
  | .node _ _ => rfl

theorem add_friend_chain (b : Int) : ∀ (p f : FIt),
    (∀ j, j < p.len → (p.coreAt j).buffer_len = b) →
    (p.add_friend f).len = p.len + f.len ∧
    (p.add_friend f).caps =
      List.replicate (p.len + 1) (min b f.core.buffer_len) ++
        f.caps.tail ∧
    (p.add_friend f).colsList =
      p.colsList.map (fun cl => cl ++ f.core.buf_cols) ++ f.colsList ∧
    (p.add_friend f).core.lh5_buffer =
      (if f.core.buffer_len < b then
        p.core.lh5_buffer.extract 0 f.core.buffer_len.toNat
      else p.core.lh5_buffer) ∧
    ((p.add_friend f).coreAt p.len).lh5_buffer =
      (if b < f.core.buffer_len then
        f.core.lh5_buffer.extract 0 b.toNat
      else f.core.lh5_buffer) := by
  intro p
  induction p with
  | leaf c =>
    intro f hb
    have hcb : c.buffer_len = b := hb 0 (by show 0 < 1; omega)
    obtain ⟨m1, m2, m3, m4, m5, m6⟩ := harmonize_spec c f.core
    rw [hcb] at m1 m2 m5 m6
    refine ⟨?_, ?_, ?_, ?_, ?_⟩
    · show (f.withCore (harmonize c f.core).2).len + 1 = 1 + f.len
      rw [withCore_len]
      omega
    · show (harmonize c f.core).1.buffer_len ::
        (f.withCore (harmonize c f.core).2).caps = _
      rw [m1, withCore_caps, m2]
      rfl
    · show ((harmonize c f.core).1.buf_cols ++
          (harmonize c f.core).2.buf_cols) ::
        (f.withCore (harmonize c f.core).2).colsList = _
      rw [m3, withCore_colsList, m4, ← colsList_head f]
      rfl
    · show (harmonize c f.core).1.lh5_buffer = _
      exact m5
    · show ((f.withCore (harmonize c f.core).2).coreAt 0).lh5_buffer = _
      rw [coreAt_zero, withCore_core, m6]
  | node c fr ih =>
    intro f hb
    have hcb : c.buffer_len = b := hb 0 (by show 0 < fr.len + 1; omega)
    obtain ⟨m1, m2, m3, m4, m5, m6⟩ := harmonize_spec c f.core
    rw [hcb] at m1 m2 m5 m6
    have hfrb : ∀ j, j < fr.len → (fr.coreAt j).buffer_len = b := by
      intro j hj
      exact hb (j + 1) (by show j + 1 < fr.len + 1; omega)
    obtain ⟨ih1, ih2, ih3, ih4, ih5⟩ :=
      ih (f.withCore (harmonize c f.core).2) hfrb
    have hf'core : (f.withCore (harmonize c f.core).2).core =
        (harmonize c f.core).2 := withCore_core f _
    have hfcl : (f.withCore (harmonize c f.core).2).colsList =
        f.colsList := by
      rw [withCore_colsList, m4, ← colsList_head f]
    have htail : (f.withCore (harmonize c f.core).2).caps.tail =
        f.caps.tail := by
      rw [withCore_caps]
      rfl
    refine ⟨?_, ?_, ?_, ?_, ?_⟩
    · show (fr.add_friend (f.withCore (harmonize c f.core).2)).len + 1 =
        (fr.len + 1) + f.len
      rw [ih1, withCore_len]
      omega
    · show (harmonize c f.core).1.buffer_len ::
        (fr.add_friend (f.withCore (harmonize c f.core).2)).caps = _
      rw [m1, ih2, hf'core, m2, htail,
        show min b (min b f.core.buffer_len) = min b f.core.buffer_len
          from by omega]
      conv_rhs => rw [List.replicate_succ]
      rfl
    · show ((harmonize c f.core).1.buf_cols ++
          (harmonize c f.core).2.buf_cols) ::
        (fr.add_friend (f.withCore (harmonize c f.core).2)).colsList = _
      rw [m3, ih3, hf'core, m4, hfcl]
      rfl
    · show (harmonize c f.core).1.lh5_buffer = _
      exact m5
    · show ((fr.add_friend
          (f.withCore (harmonize c f.core).2)).coreAt fr.len).lh5_buffer = _
      rw [ih5, hf'core, m2,
        if_neg (by omega : ¬ b < min b f.core.buffer_len), m6]

/-- C9: `add_friend`.  On a chain whose capacities are uniformly `b`,
attaching a valid friend harmonizes every capacity to the minimum of `b` and
the friend's capacity (resizing — shrinking — whichever buffer is larger),
joins the friend's buffer columns into the buffer of every iterator along
the primary chain (the recursion re-joins at each link, as in the source),
and links the friend at the tail of the singly-linked chain, whose length
becomes the sum of the two; an argument that is not an `LH5Iterator` raises
`ValueError("Friend must be an iterator")` before any state is touched. -/
theorem C9_add_friend (p f : FIt) (b : Int)
    (hb : ∀ j, j < p.len → (p.coreAt j).buffer_len = b) :
    add_friend_checked p none = .error "Friend must be an iterator" ∧
    add_friend_checked p (some f) = .ok (p.add_friend f) ∧
    (p.add_friend f).len = p.len + f.len ∧
    (p.add_friend f).caps =
      List.replicate (p.len + 1) (min b f.core.buffer_len) ++
        f.caps.tail ∧
    (p.add_friend f).colsList =
      p.colsList.map (fun cl => cl ++ f.core.buf_cols) ++ f.colsList ∧
    (p.add_friend f).core.lh5_buffer =
      (if f.core.buffer_len < b then
        p.core.lh5_buffer.extract 0 f.core.buffer_len.toNat
      else p.core.lh5_buffer) ∧
    ((p.add_friend f).coreAt p.len).lh5_buffer =
      (if b < f.core.buffer_len then
        f.core.lh5_buffer.extract 0 b.toNat
      else f.core.lh5_buffer) := by
  obtain ⟨h1, h2, h3, h4, h5⟩ := add_friend_chain b p f hb
  exact ⟨Eq.refl _, Eq.refl _, h1, h2, h3, h4, h5⟩

/-- Witness for C9: a two-link chain with capacity 5 (the head holding a
3-row buffer) befriends a capacity-2 iterator: every capacity drops to 2,
the head buffer is cut to 2 rows, the friend's columns are joined along the
chain, and a non-iterator argument errors. -/
theorem C9_add_friend_witness :
    add_friend_checked (.node itC9a (.leaf itC9a)) none =
      .error "Friend must be an iterator" ∧
    add_friend_checked (.node itC9a (.leaf itC9a)) (some (.leaf itC9b)) =
      .ok (FIt.add_friend (.node itC9a (.leaf itC9a)) (.leaf itC9b)) ∧
    (FIt.add_friend (.node itC9a (.leaf itC9a)) (.leaf itC9b)).len =
      (FIt.node itC9a (.leaf itC9a)).len + (FIt.leaf itC9b).len ∧
    (FIt.add_friend (.node itC9a (.leaf itC9a)) (.leaf itC9b)).caps =
      List.replicate ((FIt.node itC9a (.leaf itC9a)).len + 1)
        (min 5 (FIt.leaf itC9b).core.buffer_len) ++
        (FIt.leaf itC9b).caps.tail ∧
    (FIt.add_friend (.node itC9a (.leaf itC9a)) (.leaf itC9b)).colsList =
      (FIt.node itC9a (.leaf itC9a)).colsList.map
        (fun cl => cl ++ (FIt.leaf itC9b).core.buf_cols) ++
        (FIt.leaf itC9b).colsList ∧
    (FIt.add_friend (.node itC9a (.leaf itC9a)) (.leaf itC9b)).core.lh5_buffer =
      (if (FIt.leaf itC9b).core.buffer_len < 5 then
        (FIt.node itC9a (.leaf itC9a)).core.lh5_buffer.extract 0
          (FIt.leaf itC9b).core.buffer_len.toNat
      else (FIt.node itC9a (.leaf itC9a)).core.lh5_buffer) ∧
    ((FIt.add_friend (.node itC9a (.leaf itC9a)) (.leaf itC9b)).coreAt
        (FIt.node itC9a (.leaf itC9a)).len).lh5_buffer =
      (if (5 : Int) < (FIt.leaf itC9b).core.buffer_len then
        (FIt.leaf itC9b).core.lh5_buffer.extract 0 (5 : Int).toNat
      else (FIt.leaf itC9b).core.lh5_buffer) :=
  C9_add_friend (.node itC9a (.leaf itC9a)) (.leaf itC9b) 5 (by decide)

/-! ### `map`: blocks, chunks and workers -/

theorem cumsI_coe_pred (f : Nat → Int) (m : Nat) (hm : 1 ≤ m) :
    cumsI f ((m : Int) - 1) = cums f (m - 1) := by
  have h1 : m = (m - 1) + 1 := by omega
  rw [h1, cumsI_pred_succ, Nat.add_sub_cancel]

theorem drop_min (l : List Row) (m : Nat) :
    l.drop (min m l.length) = l.drop m := by
  rcases Nat.le_total m l.length with h | h
  · rw [Nat.min_eq_left h]
  · rw [Nat.min_eq_right h, List.drop_eq_nil_of_le h,
      List.drop_eq_nil_of_le le_rfl]

theorem chunks_flatten (bl : Nat) (hbl : 1 ≤ bl) :
    ∀ (fuel : Nat) (rows : List Row), rows.length ≤ fuel →
    (chunks bl fuel rows).flatten = rows := by
  intro fuel
  induction fuel with
  | zero =>
    intro rows h
    have hz : rows = [] := List.eq_nil_of_length_eq_zero (by omega)
    subst hz
    rfl
  | succ fuel ih =>
    intro rows h
    rw [chunks]
    by_cases hz : rows = []
    · rw [if_pos hz]
      subst hz
      rfl
    · rw [if_neg hz, List.flatten_cons, ih (rows.drop bl) (by
        rw [List.length_drop]
        have : 0 < rows.length := List.length_pos.mpr hz
        omega)]
      exact List.take_append_drop bl rows

theorem flatten_flatten {α : Type} : ∀ (L : List (List (List α))),
    L.flatten.flatten = (L.map List.flatten).flatten
  | [] => rfl
  | x :: L => by
    rw [List.flatten_cons, List.flatten_append, List.map_cons,
      List.flatten_cons, flatten_flatten L]

theorem mapM_loop_ok {α β : Type} (f : α → Except String β) (g : α → β) :
    ∀ (l : List α) (acc : List β),
    (∀ x, x ∈ l → f x = .ok (g x)) →
    List.mapM.loop f l acc = .ok (acc.reverse ++ l.map g) := by
  intro l
  induction l with
  | nil =>
    intro acc _
    show Except.ok acc.reverse = _
    rw [List.map_nil, List.append_nil]
  | cons a as ih =>
    intro acc h
    rw [List.mapM.loop, h a (by simp)]
    show List.mapM.loop f as (g a :: acc) = _
    rw [ih (g a :: acc) (fun x hx => h x (by simp [hx])),
      List.reverse_cons, List.map_cons, List.append_assoc]
    rfl

theorem mapM_ok {α β : Type} (f : α → Except String β) (g : α → β)
    (l : List α) (h : ∀ x, x ∈ l → f x = .ok (g x)) :
    l.mapM f = .ok (l.map g) := by
  show List.mapM.loop f l [] = _
  rw [mapM_loop_ok f g l [] h]
  rfl

theorem coreRead_none_past (c : It) (e : Int) (kF kE : Nat)
    (hs : SelMat c) (hB : Bounds c) (hF : FWF c kF) (hE : EWF c kE)
    (hke : kE ≤ kF) (h0 : 0 ≤ e) (heQ : e < QMAX)
    (hpast : entsI c ((c.elems.size : Int) - 1) ≤ e) :
    ∃ it2, coreRead c e none = (.early, it2) ∧
      it2.lh5_buffer.size = 0 := by
  have he0 : ({ c with lh5_buffer := (#[] : Array Row) }).elems =
      c.elems := Eq.refl _
  have hr0 : ({ c with lh5_buffer := (#[] : Array Row) }).rc =
      c.rc := Eq.refl _
  have hf0 : ({ c with lh5_buffer := (#[] : Array Row) }).file_map =
      c.file_map := Eq.refl _
  have hg0 : ({ c with lh5_buffer := (#[] : Array Row) }).entry_map =
      c.entry_map := Eq.refl _
  have hlz : ({ c with
      lh5_buffer := (#[] : Array Row) }).local_entry_list =
      c.local_entry_list := Eq.refl _
  have hs0 : SelMat { c with lh5_buffer := (#[] : Array Row) } :=
    selMat_transfer hlz he0 hs
  have hB0 : Bounds { c with lh5_buffer := (#[] : Array Row) } :=
    bounds_transfer he0 hr0 hlz hB
  have hF0 : FWF { c with lh5_buffer := (#[] : Array Row) } kF :=
    FWF_transfer hF hf0 he0 hr0
  have hE0 : EWF { c with lh5_buffer := (#[] : Array Row) } kE :=
    EWF_transfer hE hg0 he0 hr0 hlz
  have hEt : entsI { c with lh5_buffer := (#[] : Array Row) } =
      entsI c :=
    entsI_transfer he0 hr0 hlz
  obtain ⟨it2, hval, hro⟩ :=
    readMain_past { c with lh5_buffer := (#[] : Array Row) } kF kE e
      (({ c with lh5_buffer := (#[] : Array Row) }).buffer_len)
      hs0 hB0 hF0 hE0 hke h0 heQ (by rw [hEt]; exact hpast)
  refine ⟨it2, ?_, ?_⟩
  · simp only [coreRead]
    exact hval
  · rw [hro.2.2.2.2.2.2.1]
    rfl

theorem mapIter_blocks (bl : Int) (hbl : 1 ≤ bl) :
    ∀ (fuel : Nat) (it : It) (acc : List (List Row)) (e : Int)
      (kF kE : Nat),
    it.local_entry_list = none → Bounds it → FWF it kF → EWF it kE →
    kE ≤ kF → 1 ≤ it.elems.size → it.n_entries = none →
    it.buffer_len = bl → it.next_i_entry = e → 0 ≤ e →
    e.toNat ≤ (rowsFrom it 0 it.elems.size).length →
    mapIterAux (fun b it2 => b.toList) fuel it acc =
      .ok (acc.reverse ++
        chunks bl.toNat fuel
          ((rowsFrom it 0 it.elems.size).drop e.toNat)) := by
  intro fuel
  induction fuel with
  | zero =>
    intro it acc e kF kE _ _ _ _ _ _ _ _ _ _ _
    show Except.ok acc.reverse = _
    rw [show chunks bl.toNat 0
      ((rowsFrom it 0 it.elems.size).drop e.toNat) = [] from rfl,
      List.append_nil]
  | succ fuel ih =>
    intro it acc e kF kE hl hB hF hE hke hN hne hblen hnext h0 hlen
    have hlength : (rowsFrom it 0 it.elems.size).length =
        (cumsI it.rcAt ((it.elems.size : Int) - 1)).toNat :=
      rowsFrom_length it _ (fun j hj => hB.rc_nonneg j hj)
    have hcpred : cumsI it.rcAt ((it.elems.size : Int) - 1) =
        cums it.rcAt (it.elems.size - 1) :=
      cumsI_coe_pred it.rcAt it.elems.size hN
    have hcums : ents it = cums it.rcAt := ents_eq_cums it hl
    have htotpos : 0 ≤ cums it.rcAt (it.elems.size - 1) :=
      cums_nonneg _ _ (fun j hj => hB.rc_nonneg j (by omega))
    by_cases hcase : e < ents it (it.elems.size - 1)
    · obtain ⟨it', kF2, kE2, hcr, hcur, hsame, hF', hE', hke', hnext',
          hcont⟩ :=
        coreRead_none_main it e kF kE hl hB hF hE hke h0 hN hcase
      obtain ⟨s1, s2, s3, s4, s5, s6, s7, s8⟩ := hsame
      have hcase' : e < cums it.rcAt (it.elems.size - 1) := by
        rw [← hcums]
        exact hcase
      have hdl : e.toNat <
          (rowsFrom it 0 it.elems.size).length := by
        rw [hlength, hcpred]
        omega
      have hrows_len : 0 <
          ((rowsFrom it 0 it.elems.size).drop e.toNat).length := by
        rw [List.length_drop]
        omega
      have hsize : it'.lh5_buffer.size =
          ((((rowsFrom it 0 it.elems.size).drop e.toNat).take
            bl.toNat)).length := by
        rw [← Array.length_toList, hcont, hblen]
      have hszlen : it'.lh5_buffer.size =
          min bl.toNat
            ((rowsFrom it 0 it.elems.size).drop e.toNat).length := by
        rw [hsize, List.length_take]
      have hsznz : ¬ it'.lh5_buffer.size = 0 := by
        rw [hszlen]
        omega
      have hnb : nextBlock it = .ok (some it'.lh5_buffer,
          { it' with next_i_entry := it'.current_i_entry +
            (it'.lh5_buffer.size : Int) }) := by
        simp only [nextBlock]
        rw [hne]
        dsimp only
        rw [hnext, hcr]
        dsimp only
        rw [if_neg hsznz]
      conv_lhs => rw [mapIterAux]
      rw [hnb]
      dsimp only
      have he2 : ({ it' with next_i_entry := it'.current_i_entry +
          (it'.lh5_buffer.size : Int) }).elems = it.elems := by
        show it'.elems = it.elems
        exact s1
      have hr2 : ({ it' with next_i_entry := it'.current_i_entry +
          (it'.lh5_buffer.size : Int) }).rc = it.rc := by
        show it'.rc = it.rc
        exact s2
      have hl2 : ({ it' with next_i_entry := it'.current_i_entry +
          (it'.lh5_buffer.size : Int) }).local_entry_list =
          it.local_entry_list := by
        show it'.local_entry_list = it.local_entry_list
        exact s3
      have hrf2 : rowsFrom { it' with next_i_entry :=
          it'.current_i_entry + (it'.lh5_buffer.size : Int) } =
          rowsFrom it := rowsFrom_stable he2 hr2
      have hes2 : ({ it' with next_i_entry := it'.current_i_entry +
          (it'.lh5_buffer.size : Int) }).elems.size = it.elems.size :=
        congrArg Array.size he2
      rw [ih ({ it' with next_i_entry := it'.current_i_entry +
            (it'.lh5_buffer.size : Int) })
          (it'.lh5_buffer.toList :: acc)
          (e + (it'.lh5_buffer.size : Int)) kF2 kE2
          (by rw [hl2]; exact hl)
          (bounds_transfer he2 hr2 hl2 hB)
          (FWF_transfer hF' (Eq.refl _) (Eq.refl _) (Eq.refl _))
          (EWF_transfer hE' (Eq.refl _) (Eq.refl _) (Eq.refl _)
            (Eq.refl _))
          hke'
          (by rw [hes2]; exact hN)
          (by show it'.n_entries = none; rw [s8]; exact hne)
          (by show it'.buffer_len = bl; rw [s5]; exact hblen)
          (by show it'.current_i_entry + (it'.lh5_buffer.size : Int) = _
              rw [hcur])
          (by omega)
          (by
            rw [hrf2, hes2]
            have h1 : (e + (it'.lh5_buffer.size : Int)).toNat =
                e.toNat + it'.lh5_buffer.size := by omega
            rw [h1, hszlen, List.length_drop] at *
            omega)]
      congr 1
      rw [List.reverse_cons, List.append_assoc]
      conv_rhs => rw [chunks]
      rw [if_neg (by
        intro hnil
        rw [hnil] at hrows_len
        simp at hrows_len)]
      have hbq : it'.lh5_buffer.toList =
          ((rowsFrom it 0 it.elems.size).drop e.toNat).take
            bl.toNat := by
        rw [hcont, hblen]
      rw [hbq, hrf2, hes2]
      have h1 : (e + (it'.lh5_buffer.size : Int)).toNat =
          e.toNat + it'.lh5_buffer.size := by omega
      rw [h1]
      have h2 : (rowsFrom it 0 it.elems.size).drop
          (e.toNat + it'.lh5_buffer.size) =
          ((rowsFrom it 0 it.elems.size).drop e.toNat).drop
            it'.lh5_buffer.size := by
        rw [List.drop_drop]
      rw [h2, hszlen, drop_min]
      rfl
    · push_neg at hcase
      obtain ⟨it2, hcr, hsz⟩ := coreRead_none_past it e kF kE
        (Or.inl hl) hB hF hE hke h0
        (by
          have hql : cums it.rcAt (it.elems.size - 1) < QMAX := by
            rw [← hcums]
            exact hB.ents_lt (it.elems.size - 1) (by omega)
          rw [hlength, hcpred] at hlen
          omega)
        (by
          rw [entsI_coe_pred it it.elems.size hN]
          exact hcase)
      have hnb : nextBlock it = .ok (none, it2) := by
        simp only [nextBlock]
        rw [hne]
        dsimp only
        rw [hnext, hcr]
        dsimp only
        rw [if_pos hsz]
      conv_lhs => rw [mapIterAux]
      rw [hnb]
      dsimp only
      have hdrop_nil : (rowsFrom it 0 it.elems.size).drop e.toNat =
          [] := by
        apply List.drop_eq_nil_of_le
        rw [hlength, hcpred]
        have hc2 : cums it.rcAt (it.elems.size - 1) ≤ e := by
          rw [← hcums]
          exact hcase
        omega
      rw [hdrop_nil]
      rw [show chunks bl.toNat (fuel + 1) ([] : List Row) = [] from rfl,
        List.append_nil]

theorem getD_lt (a : Array Int) (i : Nat) (d : Int) (h : i < a.size) :
    a.getD i d = a[i] := by
  rw [Array.getD_eq_get?, Array.getElem?_eq_getElem h]
  rfl

theorem chunks_nil (bl : Nat) : ∀ (fuel : Nat),
    chunks bl fuel ([] : List Row) = []
  | 0 => rfl
  | fuel + 1 => by
    rw [chunks, if_pos (Eq.refl _)]

theorem mkWorker_fields (it : It) (lo hi : Nat) :
    (mkWorker it lo hi).local_entry_list = it.local_entry_list ∧
    (mkWorker it lo hi).rc = it.rc ∧
    (mkWorker it lo hi).n_entries = it.n_entries ∧
    (mkWorker it lo hi).i_start = it.i_start ∧
    (mkWorker it lo hi).next_i_entry = it.next_i_entry ∧
    (mkWorker it lo hi).current_i_entry = it.current_i_entry ∧
    (mkWorker it lo hi).buffer_len = it.buffer_len ∧
    (mkWorker it lo hi).lh5_buffer = it.lh5_buffer ∧
    (mkWorker it lo hi).global_entry_list = none ∧
    (mkWorker it lo hi).elems = it.elems.extract lo hi := by
  unfold mkWorker
  dsimp only
  split <;>
    exact ⟨Eq.refl _, Eq.refl _, Eq.refl _, Eq.refl _, Eq.refl _,
      Eq.refl _, Eq.refl _, Eq.refl _, Eq.refl _, Eq.refl _⟩

theorem mkWorker_file_size (it : It) (lo hi : Nat) :
    (mkWorker it lo hi).file_map.size =
      (it.file_map.extract lo hi).size := by
  unfold mkWorker
  dsimp only
  split
  · show ((it.file_map.extract lo hi).map _).size = _
    rw [Array.size_map]
  · rfl

theorem mkWorker_entry_size (it : It) (lo hi : Nat) :
    (mkWorker it lo hi).entry_map.size =
      (it.entry_map.extract lo hi).size := by
  unfold mkWorker
  dsimp only
  split
  · show ((it.entry_map.extract lo hi).map _).size = _
    rw [Array.size_map]
  · rfl

theorem mkWorker_entry_cases (it : It) (lo hi : Nat) :
    (mkWorker it lo hi).entry_map = it.entry_map.extract lo hi ∨
    (mkWorker it lo hi).entry_map =
      (it.entry_map.extract lo hi).map
        (fun x => if x ≠ QMAX then x - it.entry_map.getD (lo - 1) 0
          else x) := by
  unfold mkWorker
  dsimp only
  split
  · right
    rfl
  · left
    rfl

theorem mkWorker_file_cases (it : It) (lo hi : Nat) :
    ((lo : Int) - 1 > 0 ∨
      (mkWorker it lo hi).file_map = it.file_map.extract lo hi) ∧
    ((mkWorker it lo hi).file_map = it.file_map.extract lo hi ∨
      (mkWorker it lo hi).file_map =
        (it.file_map.extract lo hi).map
          (fun x => if x ≠ QMAX then x - it.file_map.getD (lo - 1) 0
            else x)) := by
  unfold mkWorker
  dsimp only
  split
  · exact ⟨Or.inl (by assumption), Or.inr (Eq.refl _)⟩
  · exact ⟨Or.inr (Eq.refl _), Or.inl (Eq.refl _)⟩

theorem mkWorker_entry_getD (it : It) (lo hi j : Nat)
    (hq : it.entry_map.getD (lo + j) 0 = QMAX)
    (hj : j < (it.entry_map.extract lo hi).size) :
    (mkWorker it lo hi).entry_map.getD j 0 = QMAX := by
  have hin : lo + j < it.entry_map.size := by
    rw [Array.size_extract] at hj
    omega
  rw [getD_lt _ _ _ hin] at hq
  have hget : (it.entry_map.extract lo hi)[j] = QMAX := by
    rw [Array.getElem_extract]
    exact hq
  rcases mkWorker_entry_cases it lo hi with h | h
  · rw [h, getD_lt _ _ _ hj, hget]
  · rw [h, getD_lt _ _ _ (by rw [Array.size_map]; exact hj),
      Array.getElem_map, hget]
    simp

theorem mkWorker_file_getD_sentinel (it : It) (lo hi j : Nat)
    (hq : it.file_map.getD (lo + j) 0 = QMAX)
    (hj : j < (it.file_map.extract lo hi).size) :
    (mkWorker it lo hi).file_map.getD j 0 = QMAX := by
  have hin : lo + j < it.file_map.size := by
    rw [Array.size_extract] at hj
    omega
  rw [getD_lt _ _ _ hin] at hq
  have hget : (it.file_map.extract lo hi)[j] = QMAX := by
    rw [Array.getElem_extract]
    exact hq
  rcases (mkWorker_file_cases it lo hi).2 with h | h
  · rw [h, getD_lt _ _ _ hj, hget]
  · rw [h, getD_lt _ _ _ (by rw [Array.size_map]; exact hj),
      Array.getElem_map, hget]
    simp

theorem mkWorker_file_getD_lo0 (it : It) (hi j : Nat)
    (hj : j < (it.file_map.extract 0 hi).size) :
    (mkWorker it 0 hi).file_map.getD j 0 = it.file_map.getD j 0 := by
  have hin : j < it.file_map.size := by
    rw [Array.size_extract] at hj
    omega
  rcases (mkWorker_file_cases it 0 hi).1 with h | h
  · exact absurd h (by omega)
  · rw [h, getD_lt _ _ _ hj, Array.getElem_extract, getD_lt _ _ _ hin]
    simp

theorem mkWorker_elems_getD (it : It) (lo hi j : Nat)
    (hj : j < (it.elems.extract lo hi).size) :
    (mkWorker it lo hi).elems.getD j 0 = it.elems.getD (lo + j) 0 := by
  have hin : lo + j < it.elems.size := by
    rw [Array.size_extract] at hj
    omega
  have helems := (mkWorker_fields it lo hi).2.2.2.2.2.2.2.2.2
  rw [helems]
  unfold Array.getD
  rw [dif_pos hj, dif_pos hin]
  show (it.elems.extract lo hi)[j] = it.elems[lo + j]
  rw [Array.getElem_extract]

theorem cums_shift (rc : Nat → Int) (lo : Nat) : ∀ (m : Nat),
    cums (fun j => rc (lo + j)) m =
      cums rc (lo + m) - cumsI rc ((lo : Int) - 1)
  | 0 => by
    show rc (lo + 0) = cums rc (lo + 0) - cumsI rc ((lo : Int) - 1)
    rw [Nat.add_zero]
    have h := cums_pred_add rc lo
    omega
  | m + 1 => by
    show cums (fun j => rc (lo + j)) m + rc (lo + (m + 1)) = _
    rw [cums_shift rc lo m]
    have h : cums rc (lo + (m + 1)) =
        cums rc (lo + m) + rc (lo + m + 1) := by
      rw [show lo + (m + 1) = (lo + m) + 1 from by omega]
      rfl
    rw [h, show lo + (m + 1) = lo + m + 1 from by omega]
    ring

theorem rowsFrom_congr : ∀ (cnt : Nat) (a b : It) (s s' : Nat),
    (∀ j, j < cnt → a.elems.getD (s + j) 0 = b.elems.getD (s' + j) 0) →
    (∀ j, j < cnt → a.rcAt (s + j) = b.rcAt (s' + j)) →
    rowsFrom a s cnt = rowsFrom b s' cnt
  | 0, _, _, _, _, _, _ => rfl
  | cnt + 1, a, b, s, s', he, hr => by
    have he0 : a.elems.getD s 0 = b.elems.getD s' 0 := by
      have h := he 0 (by omega)
      rw [Nat.add_zero, Nat.add_zero] at h
      exact h
    have hr0 : a.rcAt s = b.rcAt s' := by
      have h := hr 0 (by omega)
      rw [Nat.add_zero, Nat.add_zero] at h
      exact h
    show (List.range (a.rcAt s).toNat).map
        (fun r => ((a.elems.getD s 0, Int.ofNat r) : Row)) ++
        rowsFrom a (s + 1) cnt = _
    rw [he0, hr0, rowsFrom_congr cnt a b (s + 1) (s' + 1)
      (fun j hj => by
        have h := he (j + 1) (by omega)
        rw [show s + (j + 1) = s + 1 + j from by omega,
          show s' + (j + 1) = s' + 1 + j from by omega] at h
        exact h)
      (fun j hj => by
        have h := hr (j + 1) (by omega)
        rw [show s + (j + 1) = s + 1 + j from by omega,
          show s' + (j + 1) = s' + 1 + j from by omega] at h
        exact h)]
    rfl

theorem worker_fresh (nf : Nat) (rc : Nat → Int) (bl : Int) (lo hi : Nat)
    (hlh : lo < hi) (hhi : hi ≤ nf) (hnn : ∀ i, i < nf → 0 ≤ rc i)
    (hlt : cums rc (nf - 1) < QMAX) :
    (mkWorker (initIt nf rc bl none none) lo hi).elems.size = hi - lo ∧
    Bounds (mkWorker (initIt nf rc bl none none) lo hi) ∧
    (∃ kFw, FWF (mkWorker (initIt nf rc bl none none) lo hi) kFw) ∧
    EWF (mkWorker (initIt nf rc bl none none) lo hi) 0 ∧
    rowsFrom (mkWorker (initIt nf rc bl none none) lo hi) 0 (hi - lo) =
      rowsFrom (initIt nf rc bl none none) lo (hi - lo) := by
  have hsz0 : (initIt nf rc bl none none).elems.size = nf :=
    initIt_size nf rc bl none none
  have hesz : (mkWorker (initIt nf rc bl none none) lo hi).elems.size =
      hi - lo := by
    rw [(mkWorker_fields (initIt nf rc bl none none)
      lo hi).2.2.2.2.2.2.2.2.2, Array.size_extract, hsz0]
    omega
  have helexj : ∀ j, j < hi - lo →
      j < ((initIt nf rc bl none none).elems.extract lo hi).size := by
    intro j hj
    rw [Array.size_extract, hsz0]
    omega
  have hrcAt : ∀ j, j < hi - lo →
      (mkWorker (initIt nf rc bl none none) lo hi).rcAt j =
        rc (lo + j) := by
    intro j hj
    unfold It.rcAt
    rw [(mkWorker_fields (initIt nf rc bl none none) lo hi).2.1,
      mkWorker_elems_getD (initIt nf rc bl none none) lo hi j
        (helexj j hj)]
    show rc ((Array.range nf).getD (lo + j) 0) = rc (lo + j)
    rw [getD_range nf (lo + j) (by omega)]
  have hcw : ∀ m, m < hi - lo →
      cums (mkWorker (initIt nf rc bl none none) lo hi).rcAt m =
        cums rc (lo + m) - cumsI rc ((lo : Int) - 1) := by
    intro m hm
    rw [cums_congr _ (fun j => rc (lo + j)) m
      (fun j hj => hrcAt j (by omega)), cums_shift rc lo m]
  have hc0 : 0 ≤ cumsI rc ((lo : Int) - 1) := by
    unfold cumsI
    split
    · exact le_rfl
    · refine cums_nonneg _ _ (fun j hj => hnn j ?_)
      omega
  have hlocal : (mkWorker (initIt nf rc bl none none)
      lo hi).local_entry_list = none :=
    ((mkWorker_fields (initIt nf rc bl none none) lo hi).1).trans
      (Eq.refl _)
  have hbounds : Bounds (mkWorker (initIt nf rc bl none none) lo hi) := by
    refine ⟨?_, ?_, ?_⟩
    · intro i hi2
      rw [hesz] at hi2
      rw [hrcAt i hi2]
      exact hnn (lo + i) (by omega)
    · intro i hi2
      rw [hesz] at hi2
      rw [hcw i hi2]
      have hmono : cums rc (lo + i) ≤ cums rc (nf - 1) :=
        cums_mono rc (lo + i) (nf - 1) (by omega)
          (fun j hj => hnn j (by omega))
      omega
    · intro i hi2
      rw [hesz] at hi2
      rw [ents_eq_cums _ hlocal, hcw i hi2]
      have hmono : cums rc (lo + i) ≤ cums rc (nf - 1) :=
        cums_mono rc (lo + i) (nf - 1) (by omega)
          (fun j hj => hnn j (by omega))
      omega
  have hentexj : ∀ j, j < hi - lo →
      j < ((initIt nf rc bl none none).entry_map.extract lo hi).size := by
    intro j hj
    rw [Array.size_extract]
    show j < min hi (Array.mkArray nf QMAX).size - lo
    rw [Array.size_mkArray]
    omega
  have hfilexj : ∀ j, j < hi - lo →
      j < ((initIt nf rc bl none none).file_map.extract lo hi).size := by
    intro j hj
    rw [Array.size_extract]
    show j < min hi ((Array.mkArray nf QMAX).set! 0 (rc 0)).size - lo
    rw [size_set!, Array.size_mkArray]
    omega
  have hew : EWF (mkWorker (initIt nf rc bl none none) lo hi) 0 := by
    refine ⟨by omega, ?_, ?_, ?_⟩
    · rw [mkWorker_entry_size, Array.size_extract, hesz]
      show min hi (Array.mkArray nf QMAX).size - lo = hi - lo
      rw [Array.size_mkArray]
      omega
    · intro i hi2
      omega
    · intro j hj0 hj
      rw [hesz] at hj
      apply mkWorker_entry_getD
      · show (Array.mkArray nf QMAX).getD (lo + j) 0 = QMAX
        rw [getD_mkArray nf (lo + j) QMAX (by omega)]
      · exact hentexj j hj
  have hfsz : (mkWorker (initIt nf rc bl none none) lo hi).file_map.size =
      (mkWorker (initIt nf rc bl none none) lo hi).elems.size := by
    rw [mkWorker_file_size, Array.size_extract, hesz]
    show min hi ((Array.mkArray nf QMAX).set! 0 (rc 0)).size - lo =
      hi - lo
    rw [size_set!, Array.size_mkArray]
    omega
  have hfw : ∃ kFw, FWF (mkWorker (initIt nf rc bl none none) lo hi)
      kFw := by
    rcases Nat.eq_zero_or_pos lo with h0 | h0
    · subst h0
      refine ⟨1, ⟨by rw [hesz]; omega, hfsz, ?_, ?_⟩⟩
      · intro i hi2
        have hiz : i = 0 := by omega
        subst hiz
        rw [mkWorker_file_getD_lo0 (initIt nf rc bl none none) hi 0
          (hfilexj 0 (by omega))]
        show ((Array.mkArray nf QMAX).set! 0 (rc 0)).getD 0 0 = _
        rw [getD_set!_self _ 0 (rc 0) 0 (by rw [Array.size_mkArray]; omega)]
        rw [show cums (mkWorker (initIt nf rc bl none none) 0 hi).rcAt 0 =
          (mkWorker (initIt nf rc bl none none) 0 hi).rcAt 0 from rfl,
          hrcAt 0 (by omega)]
      · intro i h1i hi2
        rw [hesz] at hi2
        apply mkWorker_file_getD_sentinel
        · show ((Array.mkArray nf QMAX).set! 0 (rc 0)).getD (0 + i) 0 =
            QMAX
          rw [getD_set!_other _ 0 (0 + i) (rc 0) 0 (by omega),
            getD_mkArray nf (0 + i) QMAX (by omega)]
        · exact hfilexj i hi2
    · refine ⟨0, ⟨by omega, hfsz, ?_, ?_⟩⟩
      · intro i hi2
        omega
      · intro i _ hi2
        rw [hesz] at hi2
        apply mkWorker_file_getD_sentinel
        · show ((Array.mkArray nf QMAX).set! 0 (rc 0)).getD (lo + i) 0 =
            QMAX
          rw [getD_set!_other _ 0 (lo + i) (rc 0) 0 (by omega),
            getD_mkArray nf (lo + i) QMAX (by omega)]
        · exact hfilexj i hi2
  have hrows : rowsFrom (mkWorker (initIt nf rc bl none none) lo hi) 0
      (hi - lo) = rowsFrom (initIt nf rc bl none none) lo (hi - lo) := by
    apply rowsFrom_congr
    · intro j hj
      rw [Nat.zero_add, mkWorker_elems_getD (initIt nf rc bl none none)
        lo hi j (helexj j hj)]
    · intro j hj
      rw [Nat.zero_add, hrcAt j hj,
        initIt_rcAt nf rc bl none none (lo + j) (by omega)]
  exact ⟨hesz, hbounds, hfw, hew, hrows⟩

theorem bind_ok {α β : Type} (a : α) (k : α → Except String β) :
    Bind.bind (Except.ok a) k = k a := rfl

theorem map_helper_blocks (bl : Int) (hbl : 1 ≤ bl) (fuel : Nat) (w : It)
    (kF kE : Nat) (hl : w.local_entry_list = none) (hB : Bounds w)
    (hF : FWF w kF) (hE : EWF w kE) (hke : kE ≤ kF)
    (hN : 1 ≤ w.elems.size) (hne : w.n_entries = none)
    (hblen : w.buffer_len = bl) (hstart : w.i_start = 0) :
    map_helper (fun b it2 => b.toList) fuel w =
      .ok (chunks bl.toNat fuel (rowsFrom w 0 w.elems.size)) := by
  show mapIterAux _ fuel ({ w with
    current_i_entry := 0, next_i_entry := w.i_start }) [] = _
  have he' : ({ w with
      current_i_entry := 0, next_i_entry := w.i_start }).elems = w.elems := Eq.refl _
  have hr' : ({ w with
      current_i_entry := 0, next_i_entry := w.i_start }).rc = w.rc := Eq.refl _
  have hl' : ({ w with
      current_i_entry := 0, next_i_entry := w.i_start }).local_entry_list =
      w.local_entry_list := Eq.refl _
  rw [mapIter_blocks bl hbl fuel _ [] 0 kF kE
    (by rw [hl']; exact hl) (bounds_transfer he' hr' hl' hB)
    (FWF_transfer hF (Eq.refl _) he' hr')
    (EWF_transfer hE (Eq.refl _) he' hr' hl')
    hke (by rw [congrArg Array.size he']; exact hN)
    (by show w.n_entries = none; exact hne)
    (by show w.buffer_len = bl; exact hblen)
    (by show w.i_start = 0; exact hstart)
    le_rfl (by simp)]
  rw [rowsFrom_stable he' hr', congrArg Array.size he']
  rfl

theorem readMain_empty (w : It) (hsz : w.elems.size = 0)
    (hent : w.entry_map = #[]) (e n : Int) :
    readMain w e n = (.early, w) := by
  simp only [readMain]
  rw [hent, show ssRight #[] e = 0 from rfl, hsz,
    if_neg (by simp :
      ¬ ((0 : Nat) < 0 ∧ (#[] : Array Int).getD 0 0 = QMAX))]
  dsimp only
  rw [if_pos (Eq.refl (0 : Nat))]

theorem map_helper_empty (fuel : Nat) (w : It) (hsz : w.elems.size = 0)
    (hent : w.entry_map = #[]) (hne : w.n_entries = none) :
    map_helper (fun b it2 => b.toList) fuel w = .ok [] := by
  cases fuel with
  | zero => rfl
  | succ fuel =>
    show mapIterAux _ (fuel + 1)
      ({ w with
      current_i_entry := 0, next_i_entry := w.i_start }) [] = _
    have hnb : nextBlock ({ w with
        current_i_entry := 0, next_i_entry := w.i_start }) =
        .ok (none, ({ w with
          current_i_entry := 0, next_i_entry := w.i_start,
          lh5_buffer := #[] })) := by
      simp only [nextBlock]
      rw [hne]
      dsimp only
      simp only [coreRead]
      rw [readMain_empty _ (by show w.elems.size = 0; exact hsz)
        (by show w.entry_map = #[]; exact hent)]
      dsimp only
      rw [if_pos (by show (#[] : Array Row).size = 0; rfl)]
    conv_lhs => rw [mapIterAux]
    rw [hnb]
    rfl

theorem iFiles_mono (nf np k : Nat) :
    iFiles nf np k ≤ iFiles nf np (k + 1) :=
  Nat.div_le_div_right (Nat.mul_le_mul_right nf (by omega))

theorem iFiles_le (nf np k : Nat) (hnp : 1 ≤ np) (hk : k ≤ np) :
    iFiles nf np k ≤ nf := by
  unfold iFiles
  calc k * nf / np ≤ np * nf / np :=
        Nat.div_le_div_right (Nat.mul_le_mul_right nf hk)
    _ = nf := Nat.mul_div_cancel_left nf (by omega)

theorem iFiles_zero (nf np : Nat) : iFiles nf np 0 = 0 := by
  unfold iFiles
  simp

theorem iFiles_self (nf np : Nat) (hnp : 1 ≤ np) :
    iFiles nf np np = nf := by
  unfold iFiles
  exact Nat.mul_div_cancel_left nf (by omega)

theorem flatten_segments (it0 : It) (nf np : Nat) : ∀ (m : Nat),
    ((List.range m).map (fun k => rowsFrom it0 (iFiles nf np k)
      (iFiles nf np (k + 1) - iFiles nf np k))).flatten =
      rowsFrom it0 0 (iFiles nf np m) := by
  intro m
  induction m with
  | zero =>
    show ([] : List Row) = rowsFrom it0 0 (iFiles nf np 0)
    rw [iFiles_zero]
    rfl
  | succ m ih =>
    rw [List.range_succ, List.map_append, List.flatten_append, ih]
    show rowsFrom it0 0 (iFiles nf np m) ++
      (rowsFrom it0 (iFiles nf np m)
        (iFiles nf np (m + 1) - iFiles nf np m) ++ []) = _
    rw [List.append_nil]
    have happ := rowsFrom_append it0 0 (iFiles nf np m)
      (iFiles nf np (m + 1) - iFiles nf np m)
    rw [Nat.zero_add] at happ
    rw [happ, show iFiles nf np m +
      (iFiles nf np (m + 1) - iFiles nf np m) = iFiles nf np (m + 1)
      from by have := iFiles_mono nf np m; omega]

theorem mapModel_fresh (nf : Nat) (rc : Nat → Int) (bl : Int)
    (np fuel : Nat) (hnf : 1 ≤ nf) (hnp : 1 ≤ np) (hbl : 1 ≤ bl)
    (hnn : ∀ i, i < nf → 0 ≤ rc i) (hlt : cums rc (nf - 1) < QMAX) :
    mapModel (fun b it2 => b.toList) fuel (initIt nf rc bl none none)
        (some np) =
      .ok (((List.range np).map (fun k =>
        chunks bl.toNat fuel
          (rowsFrom (initIt nf rc bl none none) (iFiles nf np k)
            (iFiles nf np (k + 1) - iFiles nf np k)))).flatten) := by
  have hgw : generate_workers (initIt nf rc bl none none) np =
      .ok ((List.range np).map (fun k =>
        mkWorker (initIt nf rc bl none none)
          (iFiles nf np k) (iFiles nf np (k + 1)))) := by
    unfold generate_workers
    rw [if_neg (show
      ¬ ((initIt nf rc bl none none).local_entry_list.isSome = true)
      from by
        show ¬ ((none : Option (Array (Option (Array Int)))).isSome =
          true)
        simp), initIt_size]
  have hall : ∀ x, x ∈ (List.range np).map (fun k =>
      mkWorker (initIt nf rc bl none none)
        (iFiles nf np k) (iFiles nf np (k + 1))) →
      map_helper (fun b it2 => b.toList) fuel x =
        .ok (chunks bl.toNat fuel (rowsFrom x 0 x.elems.size)) := by
    intro x hx
    rw [List.mem_map] at hx
    obtain ⟨k, hk, hxe⟩ := hx
    rw [List.mem_range] at hk
    subst hxe
    have hm := iFiles_mono nf np k
    have hle := iFiles_le nf np (k + 1) hnp (by omega)
    rcases Nat.lt_or_ge (iFiles nf np k) (iFiles nf np (k + 1)) with
      hlh | hge
    · obtain ⟨hesz, hBw, ⟨kFw, hFw⟩, hEw, hrows⟩ :=
        worker_fresh nf rc bl (iFiles nf np k) (iFiles nf np (k + 1))
          hlh hle hnn hlt
      have hlw : (mkWorker (initIt nf rc bl none none)
          (iFiles nf np k) (iFiles nf np (k + 1))).local_entry_list =
          none :=
        ((mkWorker_fields (initIt nf rc bl none none) _ _).1).trans
          (Eq.refl _)
      exact map_helper_blocks bl hbl fuel _ kFw 0 hlw hBw hFw hEw
        (by omega) (by rw [hesz]; omega)
        (((mkWorker_fields (initIt nf rc bl none none) _ _).2.2.1).trans
          (Eq.refl _))
        (((mkWorker_fields (initIt nf rc bl none none)
          _ _).2.2.2.2.2.2.1).trans (Eq.refl _))
        (((mkWorker_fields (initIt nf rc bl none none) _ _).2.2.2.1).trans
          (Eq.refl _))
    · have heq : iFiles nf np (k + 1) = iFiles nf np k := by omega
      have hsz : (mkWorker (initIt nf rc bl none none)
          (iFiles nf np k) (iFiles nf np (k + 1))).elems.size = 0 := by
        rw [(mkWorker_fields (initIt nf rc bl none none)
          _ _).2.2.2.2.2.2.2.2.2, Array.size_extract, initIt_size]
        omega
      have hentsz : (mkWorker (initIt nf rc bl none none)
          (iFiles nf np k) (iFiles nf np (k + 1))).entry_map.size =
          0 := by
        rw [mkWorker_entry_size, Array.size_extract]
        show iFiles nf np (k + 1) ⊓ (Array.mkArray nf QMAX).size -
          iFiles nf np k = 0
        rw [Array.size_mkArray]
        omega
      rw [map_helper_empty fuel _ hsz
        (Array.eq_empty_of_size_eq_zero hentsz)
        (((mkWorker_fields (initIt nf rc bl none none) _ _).2.2.1).trans
          (Eq.refl _)), hsz]
      rw [show rowsFrom (mkWorker (initIt nf rc bl none none)
        (iFiles nf np k) (iFiles nf np (k + 1))) 0 0 = [] from rfl,
        chunks_nil]
  simp only [mapModel]
  rw [hgw, bind_ok,
    mapM_ok _ (fun w => chunks bl.toNat fuel (rowsFrom w 0 w.elems.size))
      _ hall, bind_ok, List.map_map]
  refine congrArg Except.ok (congrArg List.flatten
    (List.map_congr_left ?_))
  intro k hk
  rw [List.mem_range] at hk
  show chunks bl.toNat fuel
    (rowsFrom (mkWorker (initIt nf rc bl none none)
      (iFiles nf np k) (iFiles nf np (k + 1))) 0
      (mkWorker (initIt nf rc bl none none)
        (iFiles nf np k) (iFiles nf np (k + 1))).elems.size) = _
  have hm := iFiles_mono nf np k
  have hle := iFiles_le nf np (k + 1) hnp (by omega)
  rcases Nat.lt_or_ge (iFiles nf np k) (iFiles nf np (k + 1)) with
    hlh | hge
  · obtain ⟨hesz, hBw, hFw, hEw, hrows⟩ :=
      worker_fresh nf rc bl (iFiles nf np k) (iFiles nf np (k + 1))
        hlh hle hnn hlt
    rw [hesz, hrows]
  · have heq : iFiles nf np (k + 1) = iFiles nf np k := by omega
    have hsz : (mkWorker (initIt nf rc bl none none)
        (iFiles nf np k) (iFiles nf np (k + 1))).elems.size = 0 := by
      rw [(mkWorker_fields (initIt nf rc bl none none)
        _ _).2.2.2.2.2.2.2.2.2, Array.size_extract, initIt_size]
      omega
    rw [hsz,
      show rowsFrom (mkWorker (initIt nf rc bl none none)
        (iFiles nf np k) (iFiles nf np (k + 1))) 0 0 = [] from rfl,
      show iFiles nf np (k + 1) - iFiles nf np k = 0 from by omega,
      show rowsFrom (initIt nf rc bl none none) (iFiles nf np k) 0 = []
        from rfl]

/-- C1 (counterexample): over two one-row files with buffer capacity 2,
`map(fn, workers=1)` delivers the single block `[(0,0), (1,0)]` while
`map(fn, workers=2)` delivers two one-row blocks `[(0,0)]`, `[(1,0)]`: the
ordered result sequences differ (the shard boundaries reshape the blocks
`fn` is applied to), so block-level equivalence fails for every `fn` that
can observe its block — here `fn` returns the block itself. -/
theorem C1_map_block_counterexample :
    mapModel (fun b it2 => b.toList) 3 itD2 (some 1) =
      .ok [[(((0 : Nat), (0 : Int)) : Row), ((1 : Nat), (0 : Int))]] ∧
    mapModel (fun b it2 => b.toList) 3 itD2 (some 2) =
      .ok [[(((0 : Nat), (0 : Int)) : Row)], [((1 : Nat), (0 : Int))]] := by
  constructor
  · show mapModel (fun b it2 => b.toList) 3
      (initIt 2 (fun _ => 1) 2 none none) (some 1) = _
    rw [mapModel_fresh 2 (fun _ => 1) 2 1 3 (by omega) (by omega)
      (by omega) (by decide) (by decide)]
    exact congrArg Except.ok (by decide)
  · show mapModel (fun b it2 => b.toList) 3
      (initIt 2 (fun _ => 1) 2 none none) (some 2) = _
    rw [mapModel_fresh 2 (fun _ => 1) 2 2 3 (by omega) (by omega)
      (by omega) (by decide) (by decide)]
    exact congrArg Except.ok (by decide)

/-- C1 (amended): for a freshly constructed unselected iterator, `map` with
any worker count `N ≥ 1` delivers the same multiset of rows in the same
order as `map` with one worker once the per-shard block structure is
flattened away: the concatenation of all delivered blocks equals the full
dataset row sequence for every worker count, so row-level results agree
even though the block decomposition (and hence the value of a block-shape
sensitive `fn`) differs. -/
theorem C1_map_rows_equivalence (nf : Nat) (rc : Nat → Int) (bl : Int)
    (np fuel : Nat) (hnf : 1 ≤ nf) (hnp : 1 ≤ np) (hbl : 1 ≤ bl)
    (hnn : ∀ i, i < nf → 0 ≤ rc i) (hlt : cums rc (nf - 1) < QMAX)
    (hfuel : (cums rc (nf - 1)).toNat ≤ fuel) :
    ∃ bssN bss1,
      mapModel (fun b it2 => b.toList) fuel (initIt nf rc bl none none)
        (some np) = .ok bssN ∧
      mapModel (fun b it2 => b.toList) fuel (initIt nf rc bl none none)
        (some 1) = .ok bss1 ∧
      bssN.flatten = bss1.flatten ∧
      bssN.flatten = rowsFrom (initIt nf rc bl none none) 0 nf := by
  have hrcnn : ∀ j, j < nf → 0 ≤ (initIt nf rc bl none none).rcAt j := by
    intro j hj
    rw [initIt_rcAt nf rc bl none none j hj]
    exact hnn j hj
  have htot : (rowsFrom (initIt nf rc bl none none) 0 nf).length =
      (cums rc (nf - 1)).toNat := by
    have h1 := rowsFrom_length (initIt nf rc bl none none) nf hrcnn
    rw [cumsI_coe_pred _ nf hnf, initIt_cums nf rc bl none none (nf - 1)
      (by omega)] at h1
    exact h1
  have key : ∀ (np' : Nat), 1 ≤ np' →
      ((((List.range np').map (fun k =>
        chunks bl.toNat fuel (rowsFrom (initIt nf rc bl none none)
          (iFiles nf np' k)
          (iFiles nf np' (k + 1) - iFiles nf np' k)))).flatten).flatten :
          List Row) =
      rowsFrom (initIt nf rc bl none none) 0 nf := by
    intro np' hnp'
    rw [flatten_flatten, List.map_map]
    have hmc : (List.range np').map (List.flatten ∘ fun k =>
        chunks bl.toNat fuel (rowsFrom (initIt nf rc bl none none)
          (iFiles nf np' k)
          (iFiles nf np' (k + 1) - iFiles nf np' k))) =
        (List.range np').map (fun k =>
          rowsFrom (initIt nf rc bl none none) (iFiles nf np' k)
            (iFiles nf np' (k + 1) - iFiles nf np' k)) := by
      apply List.map_congr_left
      intro k hk
      rw [List.mem_range] at hk
      have hm := iFiles_mono nf np' k
      have hle := iFiles_le nf np' (k + 1) hnp' (by omega)
      show (chunks bl.toNat fuel
        (rowsFrom (initIt nf rc bl none none) (iFiles nf np' k)
          (iFiles nf np' (k + 1) - iFiles nf np' k))).flatten = _
      apply chunks_flatten bl.toNat (by omega) fuel
      have h1 := rowsFrom_append (initIt nf rc bl none none)
        (iFiles nf np' k) (iFiles nf np' (k + 1) - iFiles nf np' k)
        (nf - iFiles nf np' (k + 1))
      have h2 := rowsFrom_append (initIt nf rc bl none none) 0
        (iFiles nf np' k) ((iFiles nf np' (k + 1) - iFiles nf np' k) +
          (nf - iFiles nf np' (k + 1)))
      rw [Nat.zero_add] at h2
      have hn : iFiles nf np' k +
          ((iFiles nf np' (k + 1) - iFiles nf np' k) +
            (nf - iFiles nf np' (k + 1))) = nf := by omega
      have hlenle : (rowsFrom (initIt nf rc bl none none)
          (iFiles nf np' k)
          (iFiles nf np' (k + 1) - iFiles nf np' k)).length ≤
          (rowsFrom (initIt nf rc bl none none) 0 nf).length := by
        have ha := congrArg List.length h1
        rw [List.length_append] at ha
        have hb := congrArg List.length h2
        rw [List.length_append] at hb
        rw [hn] at hb
        omega
      rw [htot] at hlenle
      omega
    rw [hmc, flatten_segments (initIt nf rc bl none none) nf np' np',
      iFiles_self nf np' hnp']
  refine ⟨_, _,
    mapModel_fresh nf rc bl np fuel hnf hnp hbl hnn hlt,
    mapModel_fresh nf rc bl 1 fuel hnf (by omega) hbl hnn hlt, ?_, ?_⟩
  · rw [key np hnp, key 1 (by omega)]
  · rw [key np hnp]

/-- Witness for the amended C1: two one-row files, buffer capacity 2,
two workers against one. -/
theorem C1_map_rows_equivalence_witness :
    ∃ bssN bss1,
      mapModel (fun b it2 => b.toList) 3
        (initIt 2 (fun _ => (1 : Int)) 2 none none) (some 2) =
        .ok bssN ∧
      mapModel (fun b it2 => b.toList) 3
        (initIt 2 (fun _ => (1 : Int)) 2 none none) (some 1) =
        .ok bss1 ∧
      bssN.flatten = bss1.flatten ∧
      bssN.flatten =
        rowsFrom (initIt 2 (fun _ => (1 : Int)) 2 none none) 0 2 :=
  C1_map_rows_equivalence 2 (fun _ => (1 : Int)) 2 2 3 (by omega)
    (by omega) (by omega) (by decide) (by decide) (by decide)

/-! ### C5: global-to-local derivation and the reconstruction round trip -/

theorem countP_le_countP (p q : Int → Bool)
    (hpq : ∀ x, p x = true → q x = true) (l : List Int) :
    l.countP p ≤ l.countP q :=
  List.countP_mono_left (fun x _ hx => hpq x hx)

theorem le_countP_of_prefix_true (p : Int → Bool) :
    ∀ (k : Nat) (l : List Int), k ≤ l.length →
    (∀ j, j < k → p (l.getD j 0) = true) → k ≤ l.countP p := by
  intro k
  induction k with
  | zero =>
    intro l _ _
    omega
  | succ k ih =>
    intro l hk h1
    match l with
    | [] => simp at hk
    | x :: xs =>
      have hx : p x = true := by simpa using h1 0 (Nat.succ_pos k)
      have hxs : k ≤ xs.countP p := by
        refine ih xs (by simpa using hk) ?_
        intro j hj
        simpa using h1 (j + 1) (by omega)
      rw [List.countP_cons, hx]
      have h1 : (if (true = true) then 1 else 0) = 1 := rfl
      rw [h1]
      omega

theorem countP_le_of_tail_false (p : Int → Bool) :
    ∀ (l : List Int) (k : Nat),
    (∀ j, k ≤ j → j < l.length → p (l.getD j 0) = false) →
    l.countP p ≤ k := by
  intro l
  induction l with
  | nil =>
    intro k _
    simp
  | cons x xs ih =>
    intro k h
    match k with
    | 0 =>
      have hz : (x :: xs).countP p = 0 := by
        rw [List.countP_eq_zero]
        intro a ha
        obtain ⟨j, hj, rfl⟩ := List.getElem_of_mem ha
        have hf := h j (Nat.zero_le j) hj
        rw [List.getD_eq_getElem?_getD, List.getElem?_eq_getElem hj] at hf
        simp at hf
        simp [hf]
      omega
    | k + 1 =>
      rw [List.countP_cons]
      have hxs : xs.countP p ≤ k := by
        refine ih k ?_
        intro j hj hjl
        simpa using h (j + 1) (by omega) (by simpa using hjl)
      split <;> omega

theorem ssRight_le_size (g : Array Int) (v : Int) : ssRight g v ≤ g.size := by
  unfold ssRight
  rw [← Array.length_toList]
  exact List.countP_le_length _

theorem ssRight_mono (g : Array Int) (v w : Int) (hvw : v ≤ w) :
    ssRight g v ≤ ssRight g w := by
  unfold ssRight
  refine countP_le_countP _ _ ?_ _
  intro x hx
  simp only [decide_eq_true_eq] at hx ⊢
  omega

theorem ssRight_sorted_le (g : Array Int) (hs : SortedA g) (v : Int) (k : Nat)
    (hk : k < ssRight g v) : g.getD k 0 ≤ v := by
  by_contra hvk
  have hbound : ssRight g v ≤ k := by
    unfold ssRight
    apply countP_le_of_tail_false
    intro j hj hjl
    rw [Array.length_toList] at hjl
    rw [← aGetD]
    have hnot : ¬ (g.getD j 0 ≤ v) := by
      have := hs j hjl k hj
      omega
    exact decide_eq_false hnot
  omega

theorem ssRight_sorted_gt (g : Array Int) (hs : SortedA g) (v : Int) (k : Nat)
    (hk1 : ssRight g v ≤ k) (hk2 : k < g.size) : v < g.getD k 0 := by
  by_contra h
  have hle : g.getD k 0 ≤ v := by omega
  have hge : k + 1 ≤ ssRight g v := by
    unfold ssRight
    apply le_countP_of_prefix_true
    · rw [Array.length_toList]
      omega
    · intro j hj
      rw [← aGetD]
      have hjv : g.getD j 0 ≤ v := le_trans (hs k hk2 j (by omega)) hle
      exact decide_eq_true hjv
  omega

theorem tbG_le_size (G : Array Int) (rc : Nat → Int) (j : Nat) :
    tbG G rc j ≤ G.size := ssRight_le_size G _

theorem tbG_mono (G : Array Int) (rc : Nat → Int) (a b : Nat) (hab : a ≤ b)
    (h : ∀ j, j ≤ b → 0 ≤ rc j) : tbG G rc a ≤ tbG G rc b := by
  unfold tbG
  exact ssRight_mono G _ _ (cums_mono rc a b hab h)

theorem tbGI_pred_succ (G : Array Int) (rc : Nat → Int) (j : Nat) :
    tbGI G rc (((j + 1 : Nat) : Int) - 1) = tbG G rc j := by
  have h1 : (((j + 1 : Nat)) : Int) - 1 = (j : Int) := by push_cast; ring
  rw [h1]
  unfold tbGI
  rw [if_neg (by omega : ¬ ((j : Int) < 0))]
  simp

theorem tbGI_pred_zero (G : Array Int) (rc : Nat → Int) :
    tbGI G rc (((0 : Nat) : Int) - 1) = 0 := by
  unfold tbGI
  rw [if_pos (by omega)]

theorem tbGI_pred_le (G : Array Int) (rc : Nat → Int) (j : Nat)
    (h : ∀ i, i ≤ j → 0 ≤ rc i) :
    tbGI G rc ((j : Int) - 1) ≤ tbG G rc j := by
  match j with
  | 0 =>
    rw [tbGI_pred_zero]
    omega
  | j + 1 =>
    rw [tbGI_pred_succ]
    exact tbG_mono G rc j (j + 1) (by omega) h

theorem tbG_last (G : Array Int) (rc : Nat → Int) (nf : Nat)
    (hrange : ∀ k, k < G.size →
      0 ≤ G.getD k 0 ∧ G.getD k 0 < cums rc (nf - 1)) :
    tbG G rc (nf - 1) = G.size := by
  unfold tbG ssRight
  rw [← Array.length_toList]
  apply countP_all
  intro j hj
  rw [Array.length_toList] at hj
  rw [← aGetD]
  exact decide_eq_true (le_of_lt (hrange j hj).2)

theorem aGetD_g {α : Type} (a : Array α) (i : Nat) (d : α) :
    a.getD i d = a.toList.getD i d := by
  rw [Array.getD_eq_get?, List.getD_eq_getElem?_getD]
  congr 1

theorem size_set_g {α : Type} (a : Array α) (i : Nat) (v : α) :
    (a.set! i v).size = a.size := Array.size_setD a i v

theorem toList_set_g {α : Type} (a : Array α) (i : Nat) (v : α) :
    (a.set! i v).toList = a.toList.set i v := by
  unfold Array.set! Array.setD
  split
  · rw [Array.toList_set]
  · rw [List.set_eq_of_length_le]
    simpa [Array.length_toList] using (by omega : a.size ≤ i)

theorem getD_set_self_g {α : Type} (a : Array α) (i : Nat) (v d : α)
    (h : i < a.size) : (a.set! i v).getD i d = v := by
  rw [aGetD_g, toList_set_g, List.getD_eq_getElem?_getD, List.getElem?_set]
  simp [Array.length_toList, h]

theorem getD_set_other_g {α : Type} (a : Array α) (i j : Nat) (v d : α)
    (h : i ≠ j) : (a.set! i v).getD j d = a.getD j d := by
  rw [aGetD_g, toList_set_g, List.getD_eq_getElem?_getD, List.getElem?_set,
    aGetD_g, List.getD_eq_getElem?_getD]
  simp [h]

theorem getD_mkArray_g {α : Type} (n i : Nat) (v d : α) (h : i < n) :
    (Array.mkArray n v).getD i d = v := by
  rw [Array.getD_eq_get?, Array.getElem?_mkArray]
  simp [h]

theorem setSlice_size : ∀ (v : List Int) (a : Array Int) (s : Nat),
    (setSlice a s v).size = a.size := by
  intro v
  induction v with
  | nil =>
    intro a s
    rfl
  | cons x rest ih =>
    intro a s
    show (setSlice (a.set! s x) (s + 1) rest).size = a.size
    rw [ih, size_set!]

theorem setSlice_getD_lt : ∀ (v : List Int) (a : Array Int) (s k : Nat),
    k < s → (setSlice a s v).getD k 0 = a.getD k 0 := by
  intro v
  induction v with
  | nil =>
    intro a s k _
    rfl
  | cons x rest ih =>
    intro a s k hk
    show (setSlice (a.set! s x) (s + 1) rest).getD k 0 = a.getD k 0
    rw [ih _ _ _ (by omega), getD_set!_other _ _ _ _ _ (by omega)]

theorem setSlice_getD_in : ∀ (v : List Int) (a : Array Int) (s j : Nat),
    j < v.length → s + v.length ≤ a.size →
    (setSlice a s v).getD (s + j) 0 = v.getD j 0 := by
  intro v
  induction v with
  | nil =>
    intro a s j hj _
    simp at hj
  | cons x rest ih =>
    intro a s j hj hsz
    rw [List.length_cons] at hsz
    match j with
    | 0 =>
      show (setSlice (a.set! s x) (s + 1) rest).getD s 0 = x
      rw [setSlice_getD_lt rest (a.set! s x) (s + 1) s (by omega),
        getD_set!_self _ _ _ _ (by omega)]
    | j + 1 =>
      rw [List.getD_cons_succ]
      show (setSlice (a.set! s x) (s + 1) rest).getD (s + (j + 1)) 0 =
        rest.getD j 0
      rw [show s + (j + 1) = (s + 1) + j from by omega]
      refine ih _ _ _ ?_ ?_
      · rw [List.length_cons] at hj
        omega
      · rw [size_set!]
        omega

theorem size_elistG (G : Array Int) (rc : Nat → Int) (j : Nat)
    (hm : tbGI G rc ((j : Int) - 1) ≤ tbG G rc j)
    (hle : tbG G rc j ≤ G.size) :
    (elistG G rc j).size = tbG G rc j - tbGI G rc ((j : Int) - 1) := by
  unfold elistG
  rw [Array.size_map, Array.size_extract]
  omega

theorem getD_elistG (G : Array Int) (rc : Nat → Int) (j k : Nat)
    (hm : tbGI G rc ((j : Int) - 1) ≤ tbG G rc j)
    (hle : tbG G rc j ≤ G.size)
    (hk : k < tbG G rc j - tbGI G rc ((j : Int) - 1)) :
    (elistG G rc j).getD k 0 =
      G.getD (tbGI G rc ((j : Int) - 1) + k) 0 - cumsI rc ((j : Int) - 1) := by
  have hsG : tbGI G rc ((j : Int) - 1) + k < G.size := by omega
  unfold elistG
  rw [getD_lt _ _ _ (by rw [Array.size_map, Array.size_extract]; omega),
    Array.getElem_map, Array.getElem_extract, getD_lt G _ _ hsG]

theorem ssLeft_sentinel_w (it : It) (k : Nat) (hF : FWF it k)
    (hclt : ∀ j, j < it.elems.size → cums it.rcAt j < QMAX) :
    ssLeft it.file_map QMAX = k := by
  unfold ssLeft
  apply countP_of_prefix
  · rw [Array.length_toList, hF.size_f]
    exact hF.hk
  · intro j hj
    rw [← aGetD, hF.res j hj]
    simp only [decide_eq_true_eq]
    exact hclt j (by have := hF.hk; omega)
  · intro j hj hjl
    rw [Array.length_toList, hF.size_f] at hjl
    rw [← aGetD, hF.unres j hj hjl]
    simp

theorem cumlen_memo_w (it : It) (k i : Nat) (hF : FWF it k)
    (hclt : ∀ j, j < it.elems.size → cums it.rcAt j < QMAX)
    (hik : i < k) : get_file_cumlen it (i : Int) = (cums it.rcAt i, it) := by
  unfold get_file_cumlen
  rw [if_neg (by omega : ¬ ((i : Int) < 0))]
  simp only [Int.toNat_natCast]
  rw [hF.res i hik,
    if_neg (ne_of_lt (hclt i (by have := hF.hk; omega)))]

theorem cumlen_pred_w (it : It) (k m : Nat) (hF : FWF it k)
    (hclt : ∀ j, j < it.elems.size → cums it.rcAt j < QMAX) (hmk : m ≤ k) :
    get_file_cumlen it ((m : Int) - 1) =
      (cumsI it.rcAt ((m : Int) - 1), it) := by
  match m with
  | 0 =>
    have h0 : cumsI it.rcAt (((0 : Nat) : Int) - 1) = 0 := by
      unfold cumsI
      rw [if_pos (by omega)]
    rw [h0]
    exact get_file_cumlen_neg it _ (by omega)
  | m + 1 =>
    rw [cumsI_pred_succ]
    rw [show (((m + 1 : Nat) : Int)) - 1 = ((m : Nat) : Int) from by
      push_cast; ring]
    exact cumlen_memo_w it k m hF hclt (by omega)

theorem get_file_cumlen_spec_w (it : It) (k i : Nat) (hF : FWF it k)
    (hclt : ∀ j, j < it.elems.size → cums it.rcAt j < QMAX)
    (hi : i < it.elems.size) :
    ∃ it2, get_file_cumlen it (i : Int) = (cums it.rcAt i, it2) ∧
      FWF it2 (max k (i + 1)) ∧ ResolveOnly it it2 ∧
      it2.entry_map = it.entry_map := by
  rcases Nat.lt_or_ge i k with hik | hik
  · refine ⟨it, cumlen_memo_w it k i hF hclt hik, ?_, resolveOnly_rfl it, rfl⟩
    rw [show max k (i + 1) = k from by omega]
    exact hF
  · have hmax : max k (i + 1) = i + 1 := by omega
    obtain ⟨it2, hval, hF2, hro, hem, hw, hq⟩ :=
      cumlenLoop_spec (i + 1 - k) it k (by
        refine ⟨by omega, hF.size_f, hF.res, ?_⟩
        intro a ha hasz
        exact hF.unres a ha hasz) (by omega)
    have hkcnt : k + (i + 1 - k) = i + 1 := by omega
    rw [hkcnt, cumsI_pred_succ] at hval
    refine ⟨it2, ?_, ?_, hro, hem⟩
    · unfold get_file_cumlen
      rw [if_neg (by omega : ¬ ((i : Int) < 0))]
      simp only [Int.toNat_natCast]
      rw [hF.unres i hik hi, if_pos rfl, ssLeft_sentinel_w it k hF hclt]
      rcases Nat.eq_zero_or_pos k with hk0 | hkpos
      · subst hk0
        rw [if_neg (by omega)]
        have h0 : (0 : Int) = cumsI it.rcAt (((0 : Nat) : Int) - 1) := by
          simp [cumsI]
        rw [h0]
        exact hval
      · rw [if_pos hkpos, hF.res (k - 1) (by omega)]
        have h1 : cums it.rcAt (k - 1) = cumsI it.rcAt ((k : Int) - 1) := by
          have := cumsI_pred_succ it.rcAt (k - 1)
          rw [show k - 1 + 1 = k from by omega] at this
          exact this.symm
        rw [h1]
        exact hval
    · rw [hmax]
      rw [hkcnt] at hF2
      exact hF2

theorem cumentF_succ_unfold (f : Nat) (it : It) (i_file : Int) :
    cumentF (f + 1) it i_file =
      (if i_file < 0 then (0, it)
       else
        let i := i_file.toNat
        let n := it.entry_map.getD i 0
        if n = QMAX then
          let istart := ssLeft it.entry_map QMAX
          let n0 := if istart > 0 then it.entry_map.getD (istart - 1) 0 else 0
          cumentLoop (cumentF f) it istart n0 (i + 1 - istart)
        else (n, it)) := rfl

theorem cumentF_memo_w (fuel : Nat) (hf : 1 ≤ fuel) (it : It) (i : Nat)
    (v : Int) (hv : it.entry_map.getD i 0 = v) (hne : v ≠ QMAX) :
    cumentF fuel it (i : Int) = (v, it) := by
  match fuel, hf with
  | f + 1, _ =>
    rw [cumentF_succ_unfold, if_neg (by omega : ¬ ((i : Int) < 0))]
    simp only [Int.toNat_natCast]
    rw [hv, if_neg hne]

theorem cumentF_pred_w (fuel : Nat) (hf : 1 ≤ fuel) (it : It) (m : Nat)
    (v : Int) (h0 : m = 0 → v = 0)
    (hs : ∀ m', m = m' + 1 → it.entry_map.getD m' 0 = v ∧ v ≠ QMAX) :
    cumentF fuel it ((m : Int) - 1) = (v, it) := by
  match m with
  | 0 =>
    match fuel, hf with
    | f + 1, _ =>
      rw [h0 rfl, cumentF_succ_unfold, if_pos (by omega)]
  | m' + 1 =>
    obtain ⟨hv, hne⟩ := hs m' rfl
    rw [show (((m' + 1 : Nat) : Int)) - 1 = ((m' : Nat) : Int) from by
      push_cast; ring]
    exact cumentF_memo_w fuel hf it m' v hv hne

theorem rcAt_derv (nf : Nat) (rc : Nat → Int) (G : Array Int) (m : Nat)
    (it : It) (hD : DervSt nf rc G m it) (j : Nat) (hj : j < nf) :
    it.rcAt j = rc j := by
  unfold It.rcAt
  rw [hD.elemsr, hD.rcf, getD_range nf j hj]

theorem cums_rcAt_derv (nf : Nat) (rc : Nat → Int) (G : Array Int) (m : Nat)
    (it : It) (hD : DervSt nf rc G m it) (i : Nat) (hi : i < nf) :
    cums it.rcAt i = cums rc i :=
  cums_congr _ _ i (fun j hj => rcAt_derv nf rc G m it hD j (by omega))

theorem cumsI_pred_rcAt_derv (nf : Nat) (rc : Nat → Int) (G : Array Int)
    (m : Nat) (it : It) (hD : DervSt nf rc G m it) (i : Nat) (hi : i ≤ nf)
    (hnf : 1 ≤ nf) :
    cumsI it.rcAt ((i : Int) - 1) = cumsI rc ((i : Int) - 1) := by
  match i with
  | 0 =>
    have h1 : cumsI it.rcAt (((0 : Nat) : Int) - 1) = 0 := by
      unfold cumsI
      rw [if_pos (by omega)]
    have h2 : cumsI rc (((0 : Nat) : Int) - 1) = 0 := by
      unfold cumsI
      rw [if_pos (by omega)]
    rw [h1, h2]
  | i + 1 =>
    rw [cumsI_pred_succ, cumsI_pred_succ]
    exact cums_rcAt_derv nf rc G m it hD i (by omega)

theorem size_derv (nf : Nat) (rc : Nat → Int) (G : Array Int) (m : Nat)
    (it : It) (hD : DervSt nf rc G m it) : it.elems.size = nf := by
  rw [hD.elemsr, Array.size_range]

theorem FWF_derv (nf : Nat) (rc : Nat → Int) (G : Array Int) (m : Nat)
    (it : It) (hD : DervSt nf rc G m it) (hnf : 1 ≤ nf) (hm : m ≤ nf) :
    FWF it (max 1 m) := by
  refine ⟨?_, ?_, ?_, ?_⟩
  · rw [size_derv nf rc G m it hD]
    omega
  · rw [hD.fsize, size_derv nf rc G m it hD]
  · intro i hi
    rw [hD.fres i hi, cums_rcAt_derv nf rc G m it hD i (by omega)]
  · intro i hi hisz
    rw [size_derv nf rc G m it hD] at hisz
    exact hD.funres i hi hisz

theorem hclt_derv (nf : Nat) (rc : Nat → Int) (G : Array Int) (m : Nat)
    (it : It) (hD : DervSt nf rc G m it) (hnf : 1 ≤ nf)
    (hnn : ∀ i, i < nf → 0 ≤ rc i) (hlt : cums rc (nf - 1) < QMAX) :
    ∀ j, j < it.elems.size → cums it.rcAt j < QMAX := by
  intro j hj
  rw [size_derv nf rc G m it hD] at hj
  rw [cums_rcAt_derv nf rc G m it hD j hj]
  calc cums rc j ≤ cums rc (nf - 1) :=
        cums_mono rc j (nf - 1) (by omega) (fun i hi => hnn i (by omega))
    _ < QMAX := hlt

theorem DervSt_init (nf : Nat) (rc : Nat → Int) (bl : Int) (G : Array Int)
    (hnf : 1 ≤ nf) :
    DervSt nf rc G 0
      (initIt nf rc bl (some (Array.mkArray nf none)) (some G)) := by
  refine ⟨rfl, rfl, ?_, ?_, ?_, ?_, ?_, ?_, ?_⟩
  · exact ⟨Array.mkArray nf none, rfl, Array.size_mkArray nf none,
      fun j hj => absurd hj (by omega),
      fun j _ hj2 => getD_mkArray_g nf j none none hj2⟩
  · show (Array.mkArray nf QMAX).size = nf
    exact Array.size_mkArray nf QMAX
  · intro j hj
    exact absurd hj (by omega)
  · intro j _ hj2
    exact getD_mkArray nf j QMAX hj2
  · show ((Array.mkArray nf QMAX).set! 0 (rc 0)).size = nf
    rw [size_set!, Array.size_mkArray]
  · intro j hj
    have hj0 : j = 0 := by omega
    subst hj0
    show ((Array.mkArray nf QMAX).set! 0 (rc 0)).getD 0 0 = cums rc 0
    rw [getD_set!_self _ _ _ _ (by rw [Array.size_mkArray]; omega)]
    rfl
  · intro j hj hj2
    show ((Array.mkArray nf QMAX).set! 0 (rc 0)).getD j 0 = QMAX
    rw [getD_set!_other _ _ _ _ _ (by omega), getD_mkArray nf j QMAX hj2]

theorem entrylistA_derv (nf : Nat) (rc : Nat → Int) (G : Array Int)
    (hnf : 1 ≤ nf) (hnn : ∀ i, i < nf → 0 ≤ rc i)
    (hlt : cums rc (nf - 1) < QMAX) (hGQ : (G.size : Int) < QMAX)
    (m : Nat) (it : It) (fuel : Nat) (hf : 1 ≤ fuel)
    (hD : DervSt nf rc G m it) (hglob : it.global_entry_list = some G)
    (hm : m < nf) :
    ∃ it4, get_file_entrylistA (cumentF fuel) it m =
        (some (elistG G rc m), it4) ∧
      it4.elems = it.elems ∧ it4.rc = it.rc ∧
      it4.global_entry_list = it.global_entry_list ∧
      it4.entry_map = it.entry_map ∧
      (∃ l4, it4.local_entry_list = some l4 ∧ l4.size = nf ∧
        (∀ j, j < m + 1 → l4.getD j none = some (elistG G rc j)) ∧
        (∀ j, m + 1 ≤ j → j < nf → l4.getD j none = none)) ∧
      it4.file_map.size = nf ∧
      (∀ j, j < m + 1 → it4.file_map.getD j 0 = cums rc j) ∧
      (∀ j, m + 1 ≤ j → j < nf → it4.file_map.getD j 0 = QMAX) := by
  obtain ⟨l, hl, hlsz, hres, hunres⟩ := hD.loc
  have hclt := hclt_derv nf rc G m it hD hnf hnn hlt
  have hF := FWF_derv nf rc G m it hD hnf (by omega)
  have hsz : it.elems.size = nf := size_derv nf rc G m it hD
  have hp1 : get_file_cumlen it ((m : Int) - 1) =
      (cumsI rc ((m : Int) - 1), it) := by
    rw [← cumsI_pred_rcAt_derv nf rc G m it hD m (by omega) hnf]
    exact cumlen_pred_w it (max 1 m) m hF hclt (by omega)
  obtain ⟨it3, hp2, hF3, hro3, hem3⟩ :=
    get_file_cumlen_spec_w it (max 1 m) m hF hclt (by omega)
  rw [cums_rcAt_derv nf rc G m it hD m hm] at hp2
  have hglob3 : it3.global_entry_list = some G := by
    rw [hro3.2.2.2.1, hglob]
  have hlocal3 : it3.local_entry_list = some l := by
    rw [hro3.2.2.1, hl]
  have hp3 : cumentF fuel it3 ((m : Int) - 1) =
      (((tbGI G rc ((m : Int) - 1)) : Int), it3) := by
    apply cumentF_pred_w fuel hf
    · intro hm0
      subst hm0
      rw [tbGI_pred_zero]
      simp
    · intro m' hmm
      subst hmm
      constructor
      · rw [tbGI_pred_succ, hem3, hD.eres m' (by omega)]
      · rw [tbGI_pred_succ]
        have h1 : ((tbG G rc m' : Nat) : Int) ≤ ((G.size : Nat) : Int) := by
          exact_mod_cast tbG_le_size G rc m'
        omega
  have hmax3 : max (max 1 m) (m + 1) = m + 1 := by omega
  rw [hmax3] at hF3
  have hmain : get_file_entrylistA (cumentF fuel) it m =
      (some (elistG G rc m),
        { it3 with
          local_entry_list := some (l.set! m (some (elistG G rc m))) }) := by
    unfold get_file_entrylistA
    rw [hl]
    dsimp only
    rw [hunres m (by omega) hm]
    dsimp only
    rw [hp1]
    dsimp only
    rw [hp2]
    dsimp only
    rw [hp3]
    dsimp only
    rw [hglob3, Option.getD_some, hlocal3, Option.getD_some]
    simp only [Int.toNat_natCast]
    rfl
  refine ⟨_, hmain, hro3.1, hro3.2.1, ?_, hem3, ?_, ?_, ?_, ?_⟩
  · show it3.global_entry_list = it.global_entry_list
    exact hro3.2.2.2.1
  · refine ⟨l.set! m (some (elistG G rc m)), rfl, ?_, ?_, ?_⟩
    · rw [size_set_g, hlsz]
    · intro j hj
      rcases Nat.lt_or_ge j m with hjm | hjm
      · rw [getD_set_other_g _ _ _ _ _ (by omega)]
        exact hres j hjm
      · have hjm' : j = m := by omega
        subst hjm'
        rw [getD_set_self_g _ _ _ _ (by omega)]
    · intro j hj1 hj2
      rw [getD_set_other_g _ _ _ _ _ (by omega)]
      exact hunres j (by omega) hj2
  · show it3.file_map.size = nf
    rw [hF3.size_f, hro3.1, hsz]
  · intro j hj
    show it3.file_map.getD j 0 = cums rc j
    rw [hF3.res j hj, rcAt_stable hro3,
      cums_rcAt_derv nf rc G m it hD j (by omega)]
  · intro j hj1 hj2
    show it3.file_map.getD j 0 = QMAX
    exact hF3.unres j hj1 (by rw [hro3.1, hsz]; omega)

theorem cumentLoop_step_some (rec : It → Int → Int × It) (it ite2 itf : It)
    (j : Nat) (n fcl : Int) (cnt : Nat) (elist : Array Int)
    (hpe : get_file_entrylistA rec it j = (some elist, ite2))
    (hpf : get_file_cumlen ite2 (j : Int) = (fcl, itf)) :
    cumentLoop rec it j n (cnt + 1) =
      (let step : Int × It :=
        (let m := n + (elist.size : Int)
         if elist.size > 0 ∧ elist.getD (elist.size - 1) 0 ≥ fcl then
           (m + (ssRight elist fcl : Int) - (elist.size : Int),
             { itf with warnings := itf.warnings + 1 })
         else (m, itf))
      cumentLoop rec { step.2 with entry_map := step.2.entry_map.set! j step.1 }
        (j + 1) step.1 cnt) := by
  conv_lhs => rw [cumentLoop]
  simp only [hpe]
  rw [hpf]

theorem cumentLoop_fresh (nf : Nat) (rc : Nat → Int) (G : Array Int)
    (hnf : 1 ≤ nf) (hnn : ∀ i, i < nf → 0 ≤ rc i)
    (hlt : cums rc (nf - 1) < QMAX) (hGQ : (G.size : Int) < QMAX)
    (hsort : SortedA G)
    (hrange : ∀ k, k < G.size →
      0 ≤ G.getD k 0 ∧ G.getD k 0 < cums rc (nf - 1))
    (fuel : Nat) (hf : 1 ≤ fuel) :
    ∀ (cnt m : Nat) (it : It) (n : Int), m + cnt = nf →
    DervSt nf rc G m it → it.global_entry_list = some G →
    n = ((tbGI G rc ((m : Int) - 1) : Nat) : Int) →
    ∃ itn, cumentLoop (cumentF fuel) it m n cnt =
        (((tbG G rc (nf - 1) : Nat) : Int), itn) ∧
      DervSt nf rc G nf itn ∧ itn.global_entry_list = some G := by
  intro cnt
  induction cnt with
  | zero =>
    intro m it n hmc hD hg hn
    have hm : m = nf := by omega
    subst hm
    refine ⟨it, ?_, hD, hg⟩
    show (n, it) = _
    rw [hn]
    rw [show ((m : Nat) : Int) - 1 = (((m - 1 + 1 : Nat) : Int)) - 1 from by
      rw [show m - 1 + 1 = m from by omega]]
    rw [tbGI_pred_succ]
  | succ cnt ih =>
    intro m it n hmc hD hg hn
    have hm : m < nf := by omega
    obtain ⟨it4, hpe, he4, hr4, hg4, hent4, ⟨l4, hl4, hl4sz, hl4res, hl4un⟩,
      hfm4sz, hfm4res, hfm4un⟩ :=
      entrylistA_derv nf rc G hnf hnn hlt hGQ m it fuel hf hD hg hm
    have hsz4 : it4.elems.size = nf := by
      rw [he4, size_derv nf rc G m it hD]
    have hrcAt4 : it4.rcAt = it.rcAt := by
      funext i
      unfold It.rcAt
      rw [he4, hr4]
    have hF4 : FWF it4 (m + 1) := by
      refine ⟨by rw [hsz4]; omega, ?_, ?_, ?_⟩
      · rw [hfm4sz, hsz4]
      · intro i hi
        rw [hfm4res i hi, hrcAt4, cums_rcAt_derv nf rc G m it hD i (by omega)]
      · intro i hi hisz
        rw [hsz4] at hisz
        exact hfm4un i hi hisz
    have hclt4 : ∀ j, j < it4.elems.size → cums it4.rcAt j < QMAX := by
      intro j hj
      rw [hsz4] at hj
      rw [hrcAt4]
      exact hclt_derv nf rc G m it hD hnf hnn hlt j
        (by rw [size_derv nf rc G m it hD]; omega)
    have hpf : get_file_cumlen it4 ((m : Int)) = (cums rc m, it4) := by
      have hq := cumlen_memo_w it4 (m + 1) m hF4 hclt4 (by omega)
      rwa [hrcAt4, cums_rcAt_derv nf rc G m it hD m hm] at hq
    have htble := tbG_le_size G rc m
    have htbmono : tbGI G rc ((m : Int) - 1) ≤ tbG G rc m :=
      tbGI_pred_le G rc m (fun i hi => hnn i (by omega))
    have hesize : (elistG G rc m).size =
        tbG G rc m - tbGI G rc ((m : Int) - 1) :=
      size_elistG G rc m htbmono htble
    have hssfull : ssRight (elistG G rc m) (cums rc m) =
        (elistG G rc m).size := by
      unfold ssRight
      rw [← Array.length_toList]
      apply countP_all
      intro k hk
      rw [Array.length_toList] at hk
      rw [← aGetD]
      rw [hesize] at hk
      rw [getD_elistG G rc m k htbmono htble hk]
      have hidx : tbGI G rc ((m : Int) - 1) + k < tbG G rc m := by omega
      have hGle : G.getD (tbGI G rc ((m : Int) - 1) + k) 0 ≤ cums rc m :=
        ssRight_sorted_le G hsort (cums rc m) _ hidx
      have hc0 : 0 ≤ cumsI rc ((m : Int) - 1) := by
        unfold cumsI
        split
        · omega
        · exact cums_nonneg rc _ (fun j hj => hnn j (by omega))
      exact decide_eq_true (by omega)
    have hkey : ∀ itx : It, itx.elems = it4.elems → itx.rc = it4.rc →
        itx.file_map = it4.file_map → itx.entry_map = it4.entry_map →
        itx.local_entry_list = it4.local_entry_list →
        itx.global_entry_list = it4.global_entry_list →
        ∃ itn, cumentLoop (cumentF fuel)
            { itx with entry_map :=
                itx.entry_map.set! m ((tbG G rc m : Nat) : Int) }
            (m + 1) ((tbG G rc m : Nat) : Int) cnt =
            (((tbG G rc (nf - 1) : Nat) : Int), itn) ∧
          DervSt nf rc G nf itn ∧ itn.global_entry_list = some G := by
      intro itx hx1 hx2 hx3 hx4 hx5 hx6
      have hD5 : DervSt nf rc G (m + 1)
          { itx with entry_map :=
              itx.entry_map.set! m ((tbG G rc m : Nat) : Int) } := by
        refine ⟨?_, ?_, ?_, ?_, ?_, ?_, ?_, ?_, ?_⟩
        · show itx.elems = Array.range nf
          rw [hx1, he4, hD.elemsr]
        · show itx.rc = rc
          rw [hx2, hr4, hD.rcf]
        · refine ⟨l4, ?_, hl4sz, hl4res, hl4un⟩
          show itx.local_entry_list = some l4
          rw [hx5, hl4]
        · show (itx.entry_map.set! m _).size = nf
          rw [size_set!, hx4, hent4, hD.esize]
        · intro j hj
          show (itx.entry_map.set! m _).getD j 0 = _
          rcases Nat.lt_or_ge j m with hjm | hjm
          · rw [getD_set!_other _ _ _ _ _ (by omega), hx4, hent4]
            exact hD.eres j hjm
          · have hjm' : j = m := by omega
            subst hjm'
            rw [getD_set!_self _ _ _ _
              (by rw [hx4, hent4, hD.esize]; omega)]
        · intro j hj1 hj2
          show (itx.entry_map.set! m _).getD j 0 = QMAX
          rw [getD_set!_other _ _ _ _ _ (by omega), hx4, hent4]
          exact hD.eunres j (by omega) hj2
        · show itx.file_map.size = nf
          rw [hx3]
          exact hfm4sz
        · intro j hj
          show itx.file_map.getD j 0 = cums rc j
          rw [hx3]
          exact hfm4res j (by omega)
        · intro j hj1 hj2
          show itx.file_map.getD j 0 = QMAX
          rw [hx3]
          exact hfm4un j (by omega) hj2
      refine ih (m + 1) _ ((tbG G rc m : Nat) : Int) (by omega) hD5 ?_ ?_
      · show itx.global_entry_list = some G
        rw [hx6, hg4, hg]
      · rw [tbGI_pred_succ]
    rw [cumentLoop_step_some (cumentF fuel) it it4 it4 m n (cums rc m) cnt
      (elistG G rc m) hpe hpf]
    dsimp only
    by_cases hcond : (elistG G rc m).size > 0 ∧
        (elistG G rc m).getD ((elistG G rc m).size - 1) 0 ≥ cums rc m
    · rw [if_pos hcond]
      dsimp only
      have hval : n + ((elistG G rc m).size : Int) +
          ((ssRight (elistG G rc m) (cums rc m) : Nat) : Int) -
          ((elistG G rc m).size : Int) = ((tbG G rc m : Nat) : Int) := by
        rw [hssfull, hn, hesize]
        omega
      rw [hval]
      exact hkey { it4 with warnings := it4.warnings + 1 }
        rfl rfl rfl rfl rfl rfl
    · rw [if_neg hcond]
      dsimp only
      have hval : n + ((elistG G rc m).size : Int) =
          ((tbG G rc m : Nat) : Int) := by
        rw [hn, hesize]
        omega
      rw [hval]
      exact hkey it4 rfl rfl rfl rfl rfl rfl

theorem lenIt_fresh (nf : Nat) (rc : Nat → Int) (bl : Int) (G : Array Int)
    (hnf : 1 ≤ nf) (hnn : ∀ i, i < nf → 0 ≤ rc i)
    (hlt : cums rc (nf - 1) < QMAX) (hGQ : (G.size : Int) < QMAX)
    (hsort : SortedA G)
    (hrange : ∀ k, k < G.size →
      0 ≤ G.getD k 0 ∧ G.getD k 0 < cums rc (nf - 1)) :
    ∃ it1, lenIt (initIt nf rc bl (some (Array.mkArray nf none)) (some G)) =
        ((G.size : Int), it1) ∧
      DervSt nf rc G nf it1 ∧ it1.global_entry_list = some G := by
  set it0 : It := initIt nf rc bl (some (Array.mkArray nf none)) (some G)
    with hit0
  have hD0 : DervSt nf rc G 0 it0 := DervSt_init nf rc bl G hnf
  have hg0 : it0.global_entry_list = some G := rfl
  have hsz0 : it0.elems.size = nf := initIt_size nf rc bl _ _
  have hss : ssLeft it0.entry_map QMAX = 0 := by
    unfold ssLeft
    apply countP_of_prefix _ 0 _ (by omega) (fun j hj => absurd hj (by omega))
    intro j hj hjl
    rw [Array.length_toList, hD0.esize] at hjl
    rw [← aGetD, hD0.eunres j (by omega) hjl]
    simp
  obtain ⟨itn, hloop, hDn, hgn⟩ :=
    cumentLoop_fresh nf rc G hnf hnn hlt hGQ hsort hrange (nf + 1)
      (by omega) nf 0 it0 0 (by omega) hD0 hg0
      (by rw [tbGI_pred_zero]; simp)
  rw [tbG_last G rc nf hrange] at hloop
  refine ⟨itn, ?_, hDn, hgn⟩
  unfold lenIt
  rw [if_pos (by rw [hD0.esize]; omega)]
  unfold get_file_cumentries
  rw [hsz0]
  rw [show (nf + 2) = (nf + 1) + 1 from rfl, cumentF_succ_unfold]
  rw [if_neg (by omega : ¬ ((nf : Int) - 1 < 0))]
  dsimp only
  rw [show ((nf : Int) - 1).toNat = nf - 1 from by omega]
  rw [hD0.eunres (nf - 1) (by omega) (by omega), if_pos rfl]
  rw [hss]
  rw [if_neg (by omega : ¬ (0 > 0))]
  rw [show nf - 1 + 1 - 0 = nf from by omega]
  exact hloop

theorem cumentries_pred_derv (nf : Nat) (rc : Nat → Int) (G : Array Int)
    (it : It) (hD : DervSt nf rc G nf it) (hGQ : (G.size : Int) < QMAX)
    (i : Nat) (hi : i ≤ nf) :
    get_file_cumentries it ((i : Int) - 1) =
      (((tbGI G rc ((i : Int) - 1) : Nat) : Int), it) := by
  unfold get_file_cumentries
  apply cumentF_pred_w _ (by omega)
  · intro hi0
    subst hi0
    rw [tbGI_pred_zero]
    simp
  · intro m' hm'
    subst hm'
    constructor
    · rw [tbGI_pred_succ, hD.eres m' (by omega)]
    · rw [tbGI_pred_succ]
      have h1 : ((tbG G rc m' : Nat) : Int) ≤ ((G.size : Nat) : Int) := by
        exact_mod_cast tbG_le_size G rc m'
      omega

theorem cumentries_memo_derv (nf : Nat) (rc : Nat → Int) (G : Array Int)
    (it : It) (hD : DervSt nf rc G nf it) (hGQ : (G.size : Int) < QMAX)
    (i : Nat) (hi : i < nf) :
    get_file_cumentries it (i : Int) =
      (((tbG G rc i : Nat) : Int), it) := by
  unfold get_file_cumentries
  apply cumentF_memo_w _ (by omega) it i _ (hD.eres i hi)
  have h1 : ((tbG G rc i : Nat) : Int) ≤ ((G.size : Nat) : Int) := by
    exact_mod_cast tbG_le_size G rc i
  omega

theorem cumlen_pred_derv (nf : Nat) (rc : Nat → Int) (G : Array Int) (it : It)
    (hD : DervSt nf rc G nf it) (hnf : 1 ≤ nf)
    (hnn : ∀ a, a < nf → 0 ≤ rc a) (hlt : cums rc (nf - 1) < QMAX)
    (i : Nat) (hi : i ≤ nf) :
    get_file_cumlen it ((i : Int) - 1) = (cumsI rc ((i : Int) - 1), it) := by
  have hF := FWF_derv nf rc G nf it hD hnf le_rfl
  have hclt := hclt_derv nf rc G nf it hD hnf hnn hlt
  rw [← cumsI_pred_rcAt_derv nf rc G nf it hD i hi hnf]
  exact cumlen_pred_w it (max 1 nf) i hF hclt (by omega)

theorem entrylist_memo_derv (nf : Nat) (rc : Nat → Int) (G : Array Int)
    (it : It) (hD : DervSt nf rc G nf it) (i : Nat) (hi : i < nf) :
    get_file_entrylist it i = (some (elistG G rc i), it) := by
  obtain ⟨l, hl, hlsz, hres, hunres⟩ := hD.loc
  unfold get_file_entrylist get_file_entrylistA
  rw [hl]
  dsimp only
  rw [hres i hi]

theorem lenIt_memo_derv (nf : Nat) (rc : Nat → Int) (G : Array Int) (it : It)
    (hD : DervSt nf rc G nf it) (hnf : 1 ≤ nf) (hGQ : (G.size : Int) < QMAX) :
    lenIt it = (((tbG G rc (nf - 1) : Nat) : Int), it) := by
  unfold lenIt
  rw [if_pos (by rw [hD.esize]; omega)]
  rw [show ((it.elems.size : Nat) : Int) - 1 = ((nf : Nat) : Int) - 1 from by
    rw [size_derv nf rc G nf it hD]]
  have hval := cumentries_pred_derv nf rc G it hD hGQ nf le_rfl
  rw [hval]
  rw [show ((nf : Nat) : Int) - 1 = (((nf - 1 + 1 : Nat) : Int)) - 1 from by
    rw [show nf - 1 + 1 = nf from by omega]]
  rw [tbGI_pred_succ]

theorem gglLoop_derv (nf : Nat) (rc : Nat → Int) (G : Array Int)
    (hnf : 1 ≤ nf) (hnn : ∀ i, i < nf → 0 ≤ rc i)
    (hlt : cums rc (nf - 1) < QMAX) (hGQ : (G.size : Int) < QMAX)
    (hsort : SortedA G)
    (hrange : ∀ k, k < G.size →
      0 ≤ G.getD k 0 ∧ G.getD k 0 < cums rc (nf - 1)) :
    ∀ (cnt i : Nat) (it : It) (A : Array Int), i + cnt = nf →
    DervSt nf rc G nf it → it.global_entry_list = some A →
    A.size = G.size →
    (∀ k, k < tbGI G rc ((i : Int) - 1) → A.getD k 0 = G.getD k 0) →
    ∃ B, (gglLoop it i cnt).global_entry_list = some B ∧ B.size = G.size ∧
      (∀ k, k < tbG G rc (nf - 1) → B.getD k 0 = G.getD k 0) := by
  intro cnt
  induction cnt with
  | zero =>
    intro i it A hic hD hgA hAsz hpre
    have hi : i = nf := by omega
    refine ⟨A, hgA, hAsz, ?_⟩
    intro k hk
    refine hpre k ?_
    rw [hi]
    rw [show ((nf : Nat) : Int) - 1 = (((nf - 1 + 1 : Nat) : Int)) - 1 from by
      rw [show nf - 1 + 1 = nf from by omega]]
    rw [tbGI_pred_succ]
    exact hk
  | succ cnt ih =>
    intro i it A hic hD hgA hAsz hpre
    have hi : i < nf := by omega
    have hp1 := cumentries_pred_derv nf rc G it hD hGQ i (by omega)
    have hp2 := cumentries_memo_derv nf rc G it hD hGQ i hi
    have hp3 := cumlen_pred_derv nf rc G it hD hnf hnn hlt i (by omega)
    have hpe := entrylist_memo_derv nf rc G it hD i hi
    have htble := tbG_le_size G rc i
    have htbmono : tbGI G rc ((i : Int) - 1) ≤ tbG G rc i :=
      tbGI_pred_le G rc i (fun a ha => hnn a (by omega))
    have hesize := size_elistG G rc i htbmono htble
    have hvlen :
        (((elistG G rc i).map
          (fun v => v + cumsI rc ((i : Int) - 1))).toList).length =
        tbG G rc i - tbGI G rc ((i : Int) - 1) := by
      rw [Array.length_toList, Array.size_map, hesize]
    have hpre' : ∀ k, k < tbGI G rc (((i + 1 : Nat) : Int) - 1) →
        (setSlice A (tbGI G rc ((i : Int) - 1))
          (((elistG G rc i).map
            (fun v => v + cumsI rc ((i : Int) - 1))).toList)).getD k 0 =
        G.getD k 0 := by
      rw [tbGI_pred_succ]
      intro k hk
      rcases Nat.lt_or_ge k (tbGI G rc ((i : Int) - 1)) with hks | hks
      · rw [setSlice_getD_lt _ _ _ _ hks]
        exact hpre k hks
      · have hk2 : k =
            tbGI G rc ((i : Int) - 1) + (k - tbGI G rc ((i : Int) - 1)) := by
          omega
        rw [hk2, setSlice_getD_in _ _ _ _ (by rw [hvlen]; omega)
          (by rw [hvlen, hAsz]; omega)]
        rw [← aGetD]
        rw [getD_lt _ _ _ (by rw [Array.size_map, hesize]; omega),
          Array.getElem_map]
        rw [← getD_lt (elistG G rc i) (k - tbGI G rc ((i : Int) - 1)) 0
          (by rw [hesize]; omega)]
        rw [getD_elistG G rc i (k - tbGI G rc ((i : Int) - 1)) htbmono htble
          (by omega)]
        omega
    have hsize' :
        (setSlice A (tbGI G rc ((i : Int) - 1))
          (((elistG G rc i).map
            (fun v => v + cumsI rc ((i : Int) - 1))).toList)).size =
        G.size := by
      rw [setSlice_size, hAsz]
    have hD' : DervSt nf rc G nf
        { it with
          global_entry_list := some (setSlice A (tbGI G rc ((i : Int) - 1))
            (((elistG G rc i).map
              (fun v => v + cumsI rc ((i : Int) - 1))).toList)) } := by
      obtain ⟨l, hl, hlsz, hres, hunres⟩ := hD.loc
      exact ⟨hD.elemsr, hD.rcf, ⟨l, hl, hlsz, hres, hunres⟩, hD.esize,
        hD.eres, hD.eunres, hD.fsize, hD.fres, hD.funres⟩
    have hstep : gglLoop it i (cnt + 1) =
        gglLoop { it with
          global_entry_list := some (setSlice A (tbGI G rc ((i : Int) - 1))
            (((elistG G rc i).map
              (fun v => v + cumsI rc ((i : Int) - 1))).toList)) }
          (i + 1) cnt := by
      conv_lhs => rw [gglLoop]
      rw [hp1]
      dsimp only
      rw [hp2]
      dsimp only
      rw [hp3]
      dsimp only
      rw [hpe]
      dsimp only
      rw [Option.getD_some, hgA, Option.getD_some]
      simp only [Int.toNat_natCast]
    rw [hstep]
    exact ih (i + 1) _ _ (by omega) hD' rfl hsize' hpre'

theorem array_ext_getD (a b : Array Int) (hsz : a.size = b.size)
    (h : ∀ k, k < b.size → a.getD k 0 = b.getD k 0) : a = b := by
  apply Array.ext
  · exact hsz
  · intro k hk1 hk2
    have hq := h k hk2
    rw [getD_lt _ _ _ hk1, getD_lt _ _ _ hk2] at hq
    exact hq

/-- C5: for an iterator constructed with a sorted, in-range global
entry-index list, resolving the whole dataset (`__len__`) derives the
per-file local selection lists from the global list, and the global list
rebuilt from those per-file lists by `get_global_entrylist` reproduces the
original sorted list exactly: with the cached global list present the call
returns it unchanged, and with the cache cleared the reconstruction from
the materialized per-file lists rebuilds an array equal to the input
element-for-element. -/
theorem C5_global_local_roundtrip (nf : Nat) (rc : Nat → Int) (bl : Int)
    (G : Array Int) (hnf : 1 ≤ nf) (hnn : ∀ i, i < nf → 0 ≤ rc i)
    (hlt : cums rc (nf - 1) < QMAX) (hGQ : (G.size : Int) < QMAX)
    (hsort : SortedA G)
    (hrange : ∀ k, k < G.size →
      0 ≤ G.getD k 0 ∧ G.getD k 0 < cums rc (nf - 1)) :
    ∃ it1, lenIt (initIt nf rc bl (some (Array.mkArray nf none)) (some G)) =
        ((G.size : Int), it1) ∧
      (get_global_entrylist it1).1 = G ∧
      (get_global_entrylist { it1 with global_entry_list := none }).1 = G := by
  obtain ⟨it1, hlen, hD1, hg1⟩ :=
    lenIt_fresh nf rc bl G hnf hnn hlt hGQ hsort hrange
  refine ⟨it1, hlen, ?_, ?_⟩
  · have h2 : get_global_entrylist it1 = (G, it1) := by
      unfold get_global_entrylist
      rw [hg1]
      rfl
    rw [h2]
  · obtain ⟨l, hl, hlsz, hres, hunres⟩ := hD1.loc
    have hD2 : DervSt nf rc G nf
        { it1 with
          local_entry_list := some l, global_entry_list := none } :=
      ⟨hD1.elemsr, hD1.rcf, ⟨l, rfl, hlsz, hres, hunres⟩, hD1.esize, hD1.eres,
        hD1.eunres, hD1.fsize, hD1.fres, hD1.funres⟩
    have hlen2 := lenIt_memo_derv nf rc G _ hD2 hnf hGQ
    rw [tbG_last G rc nf hrange] at hlen2
    have hD3 : DervSt nf rc G nf
        { it1 with
          local_entry_list := some l,
          global_entry_list := some (Array.mkArray G.size 0) } :=
      ⟨hD1.elemsr, hD1.rcf, ⟨l, rfl, hlsz, hres, hunres⟩, hD1.esize, hD1.eres,
        hD1.eunres, hD1.fsize, hD1.fres, hD1.funres⟩
    obtain ⟨B, hgB, hBsz, hBpre⟩ :=
      gglLoop_derv nf rc G hnf hnn hlt hGQ hsort hrange nf 0 _
        (Array.mkArray G.size 0) (by omega) hD3 rfl
        (Array.size_mkArray _ _)
        (by
          intro k hk
          rw [tbGI_pred_zero] at hk
          exact absurd hk (by omega))
    unfold get_global_entrylist
    rw [show ({ it1 with global_entry_list := none } : It).global_entry_list
      = (none : Option (Array Int)) from rfl]
    rw [show ({ it1 with global_entry_list := none } : It).local_entry_list
      = some l from hl]
    dsimp only
    rw [hlen2]
    dsimp only
    simp only [Int.toNat_natCast]
    rw [show it1.elems.size = nf from size_derv nf rc G nf it1 hD1]
    rw [hgB, Option.getD_some]
    refine array_ext_getD B G hBsz ?_
    intro k hk
    refine hBpre k ?_
    rw [tbG_last G rc nf hrange]
    exact hk

/-- Witness for C5: two files of 5 and 7 rows, global selection
`[1, 4, 5, 9]` (sorted, all below the 12-row total). -/
theorem C5_global_local_roundtrip_witness :
    ∃ it1, lenIt (initIt 2 rcC4w 4 (some (Array.mkArray 2 none))
        (some #[1, 4, 5, 9])) = ((4 : Int), it1) ∧
      (get_global_entrylist it1).1 = #[1, 4, 5, 9] ∧
      (get_global_entrylist
        { it1 with global_entry_list := none }).1 = #[1, 4, 5, 9] :=
  C5_global_local_roundtrip 2 rcC4w 4 #[1, 4, 5, 9] (by omega) (by decide)
    (by decide) (by decide) (by unfold SortedA; decide) (by decide)

end LH5
